import Mathlib

/-!
Verification development for the `square-up` Dots-and-Boxes engine
(`src/player/charmer.py`).  The Python module is pure and single threaded:
every helper is translated here as a Lean function.  Python lists of machine
integers become `List Int`; in-place mutation becomes functional update;
Python's negative-index access (`l[-1]` reads the last element) is modelled
by `pyGet`/`pySet`.  An index that Python would reject with `IndexError`
makes `pyGet` return the inert sentinel `REMOVED` and makes `pySet` a no-op;
every theorem below either supplies in-range indices or does not depend on
that corner.  The two unbounded `while` loops of the source (`removeHe`'s
predecessor scan and `numBoxesLeft`'s cycle walk) terminate on every state
the engine builds because `nextHe` restricted to live nodes is a finite
union of cycles; they are translated with an explicit fuel of the array
length, which is enough fuel on all such states.
-/

namespace SquareUp

/-- Sentinel: a half-edge whose partner lies on the board boundary. -/
def DEADEND : Int := -1

/-- Sentinel: a half-edge (or array slot) that has been contracted away. -/
def REMOVED : Int := -2

/-- Move tag for taking a pending looney value. -/
def EATLOONEY : Int := 10000001

/-- Move tag for conceding a pending looney value. -/
def GIVELOONEY : Int := 10000002

/-- Base of the move tags for breaking an independent component
(`tag = -GIVEINDEP - index`). -/
def GIVEINDEP : Int := 10000

/-- Resolve a Python list index: negative indices wrap from the end,
anything still out of range is rejected. -/
def pyIdx (n : Nat) (i : Int) : Option Nat :=
  let j : Int := if i < 0 then i + n else i
  if 0 ≤ j ∧ j < n then some j.toNat else none

/-- Python-style read from a list of ints (`l[i]`); out-of-range reads
return the inert sentinel `REMOVED`. -/
def pyGet (l : List Int) (i : Int) : Int :=
  match pyIdx l.length i with
  | some j => l.getD j REMOVED
  | none => REMOVED

/-- Python-style write to a list of ints (`l[i] = v`); out-of-range writes
are dropped. -/
def pySet (l : List Int) (i : Int) (v : Int) : List Int :=
  match pyIdx l.length i with
  | some j => l.set j v
  | none => l

/-- Python-style read from a list of booleans (used for the `counted`
scratch arrays of `numBoxesLeft`, where `False` stands for `None` and
`True` for the `REMOVED` mark). -/
def pyGetB (l : List Bool) (i : Int) : Bool :=
  match pyIdx l.length i with
  | some j => l.getD j false
  | none => false

/-- Python-style write to a list of booleans. -/
def pySetB (l : List Bool) (i : Int) (v : Bool) : List Bool :=
  match pyIdx l.length i with
  | some j => l.set j v
  | none => l

/-- The reduced position of `charmer.py` (`class DotsAndBoxesState`).
`clone` in the source copies the five arrays; in this functional model a
state is a value, so cloning is the identity and is not written out. -/
structure DotsAndBoxesState where
  otherHe : List Int
  nextHe : List Int
  heLengths : List Int
  indeps : List Int
  indepAreChains : List Bool
  looneyValue : Int
  score : Int
  whoToMove : Int
deriving DecidableEq, Repr

namespace DotsAndBoxesState

/-- The cycle walk inside `numBoxesLeft`'s first loop:
`while he != nextHe[nHe]: nHe = nextHe[nHe]; counted[nHe] = REMOVED`.
Fuel bounds the walk; the array length is enough on engine states. -/
def markCycle (nextHe : List Int) (he : Int) : Nat → Int → List Bool → List Bool
  | 0, _, counted => counted
  | fuel + 1, nHe, counted =>
    if he = pyGet nextHe nHe then counted
    else
      let nHe2 := pyGet nextHe nHe
      markCycle nextHe he fuel nHe2 (pySetB counted nHe2 true)

/-- First loop of `numBoxesLeft`: count the rotation cycles (joints) among
live half-edges.  Returns the count together with the scratch array. -/
def jointLoop (s : DotsAndBoxesState) : Int × List Bool :=
  (List.range s.otherHe.length).foldl
    (fun p (heN : Nat) =>
      let he : Int := (heN : Int)
      if pyGet s.otherHe he ≠ REMOVED ∧ pyGetB p.2 he = false then
        (p.1 + 1, markCycle s.nextHe he s.otherHe.length he (pySetB p.2 he true))
      else p)
    (0, List.replicate s.otherHe.length false)

/-- Second loop of `numBoxesLeft`: sum the cached lengths over live partner
pairs (each pair counted once, boundary half-edges counted alone). -/
def pairLoop (s : DotsAndBoxesState) : Int × List Bool :=
  (List.range s.otherHe.length).foldl
    (fun p (heN : Nat) =>
      let he : Int := (heN : Int)
      if pyGet s.otherHe he ≠ REMOVED ∧ pyGetB p.2 he = false then
        let oHe := pyGet s.otherHe he
        let c1 := pySetB p.2 he true
        let c2 := if oHe ≠ DEADEND then pySetB c1 oHe true else c1
        (p.1 + pyGet s.heLengths he, c2)
      else p)
    (0, List.replicate s.otherHe.length false)

/-- `DotsAndBoxesState.numBoxesLeft`: the pending looney value, plus one box
per live rotation cycle, plus the cached lengths over live pairs, plus the
lengths of the independent components. -/
def numBoxesLeft (s : DotsAndBoxesState) : Int :=
  s.looneyValue + (jointLoop s).1 + (pairLoop s).1 + s.indeps.foldl (· + ·) 0

/-- `DotsAndBoxesState.gameIsOver`. -/
def gameIsOver (s : DotsAndBoxesState) : Bool :=
  s.numBoxesLeft = 0

/-- `DotsAndBoxesState.evaluate`.  The Python body computes
`(points + (num_left + num_left % 200) / 2)` with float division; the
dividend is always even (both summands are multiples of 100 with equal
parity of the hundreds digit) and far below 2^53, so the float result is
the exact integer quotient and `Int` division is a faithful translation.
Python's `%` with the positive modulus 200 agrees with `Int.emod`. -/
def evaluate (s : DotsAndBoxesState) : Int :=
  let numLeft := s.numBoxesLeft * 100
  let points := s.score * 100
  if s.looneyValue ≠ 0 then
    let halfRemaining := numLeft % 200
    points + (numLeft + halfRemaining) / 2
  else
    points

/-- `DotsAndBoxesState.simplifyLink`: contract the box whose rotation cycle
is exactly the 2-cycle `{he, nextHe[he]}` into a merged link (or close it
off as an independent loop/chain).  Straight transcription; the chained
Python assignments write `he1` first and then `he2 = he`, with the same
value, so a nested `pySet` is equivalent. -/
def simplifyLink (s : DotsAndBoxesState) (he : Int) : DotsAndBoxesState :=
  let he1 := pyGet s.nextHe he
  if he1 = DEADEND then s
  else
    let he2 := pyGet s.nextHe he1
    if he1 ≠ he ∧ he2 = he then
      let otherHe1 := pyGet s.otherHe he1
      let otherHe2 := pyGet s.otherHe he2
      let s1 :=
        if otherHe1 = he2 then
          -- loop
          { s with indeps := s.indeps ++ [1 + pyGet s.heLengths otherHe2],
                   indepAreChains := s.indepAreChains ++ [false] }
        else
          let length := 1 + pyGet s.heLengths he1 + pyGet s.heLengths he2
          let sa :=
            if otherHe1 ≠ DEADEND then
              { s with otherHe := pySet s.otherHe otherHe1 otherHe2,
                       heLengths := pySet s.heLengths otherHe1 length }
            else s
          let sb :=
            if otherHe2 ≠ DEADEND then
              { sa with otherHe := pySet sa.otherHe otherHe2 otherHe1,
                        heLengths := pySet sa.heLengths otherHe2 length }
            else sa
          if otherHe1 = DEADEND ∧ otherHe2 = DEADEND then
            { sb with indeps := sb.indeps ++ [length],
                      indepAreChains := sb.indepAreChains ++ [true] }
          else sb
      { s1 with heLengths := pySet (pySet s1.heLengths he1 REMOVED) he2 REMOVED,
                otherHe := pySet (pySet s1.otherHe he1 REMOVED) he2 REMOVED,
                nextHe := pySet (pySet s1.nextHe he1 REMOVED) he2 REMOVED }
    else s

/-- The predecessor scan of `removeHe`:
`nHe = he; while nextHe[nHe] != he: nHe = nextHe[nHe]`. -/
def findPrev (nextHe : List Int) (he : Int) : Nat → Int → Option Int
  | 0, _ => none
  | fuel + 1, cur =>
    if pyGet nextHe cur = he then some cur
    else findPrev nextHe he fuel (pyGet nextHe cur)

/-- `DotsAndBoxesState.removeHe`: splice `he` out of its rotation cycle and
mark all its slots `REMOVED`.  The Python `while` diverges when `he` is not
on a `nextHe` cycle; no engine state reaches that, and the model then skips
the splice.  Python writes `nextHe[nHe]` before `nextHe[he] = REMOVED`, so
when `nHe = he` the later write wins, which the nested `pySet` reproduces. -/
def removeHe (s : DotsAndBoxesState) (he : Int) : DotsAndBoxesState :=
  let otherHe1 := pySet s.otherHe he REMOVED
  let nextHe1 :=
    match findPrev s.nextHe he (s.nextHe.length + 1) he with
    | some nHe => pySet s.nextHe nHe (pyGet s.nextHe he)
    | none => s.nextHe
  { s with otherHe := otherHe1,
           nextHe := pySet nextHe1 he REMOVED,
           heLengths := pySet s.heLengths he REMOVED }

/-- The `he3` scan of `listMoves`:
`he3 = he; while he3 == he or he3 == oHe: he3 = nextHe[he3]`. -/
def findHe3 (nextHe : List Int) (he oHe : Int) : Nat → Int → Int
  | 0, cur => cur
  | fuel + 1, cur =>
    if cur = he ∨ cur = oHe then findHe3 nextHe he oHe fuel (pyGet nextHe cur)
    else cur

/-- The local loop detection of `listMoves`: is the partner `oHe` within
three rotation steps of `he`? -/
def isLoopAt (s : DotsAndBoxesState) (he oHe : Int) : Prop :=
  pyGet s.nextHe he = oHe
    ∨ pyGet s.nextHe (pyGet s.nextHe he) = oHe
    ∨ pyGet s.nextHe (pyGet s.nextHe (pyGet s.nextHe he)) = oHe

instance (s : DotsAndBoxesState) (he oHe : Int) : Decidable (s.isLoopAt he oHe) := by
  unfold isLoopAt; infer_instance

/-- The companion check guarding the `he3` scan: is `he` on a rotation
cycle of length at most three? -/
def shortCycleAt (s : DotsAndBoxesState) (he : Int) : Prop :=
  pyGet s.nextHe he = he
    ∨ pyGet s.nextHe (pyGet s.nextHe he) = he
    ∨ pyGet s.nextHe (pyGet s.nextHe (pyGet s.nextHe he)) = he

instance (s : DotsAndBoxesState) (he : Int) : Decidable (s.shortCycleAt he) := by
  unfold shortCycleAt; infer_instance

/-- The credited length and third half-edge of the link move at `he`
(`length` accumulates `heLengths[he3] + 1` when the loop pattern fires;
`he3 = REMOVED` otherwise). -/
def linkLenHe3 (s : DotsAndBoxesState) (he oHe : Int) : Int × Int :=
  let length := pyGet s.heLengths he
  if s.isLoopAt he oHe ∧ s.shortCycleAt he then
    let he3 := findHe3 s.nextHe he oHe (s.nextHe.length + 1) he
    (length + pyGet s.heLengths he3 + 1, he3)
  else (length, REMOVED)

/-- The graph surgery of the per-link branch of `listMoves`: remove the
pair at `he` (and the loop companions when the `he3` pattern fired),
re-simplifying the touched neighbour boxes.  All reads of `self` happen on
the original `s`, exactly as in the source. -/
def linkSuccGraph (s : DotsAndBoxesState) (he : Int) : DotsAndBoxesState :=
  let oHe := pyGet s.otherHe he
  let he3 := (linkLenHe3 s he oHe).2
  let nHe := pyGet s.nextHe he
  let noHe := if oHe ≠ DEADEND then pyGet s.nextHe oHe else REMOVED
  let st := removeHe s he
  let st := if oHe ≠ DEADEND then removeHe st oHe else st
  let st := simplifyLink st nHe
  let st := if noHe ≠ DEADEND then simplifyLink st noHe else st
  if he3 ≠ REMOVED then
    let oHe3 := pyGet s.otherHe he3
    let st := removeHe st he3
    if oHe3 ≠ DEADEND then simplifyLink (removeHe st oHe3) oHe3 else st
  else st

/-- The successor built by the per-link branch of `listMoves` for the live
half-edge `he`: the graph surgery, then flip the mover, negate the score,
and credit the length, deferring 2 when the link is longer than 2. -/
def linkSucc (s : DotsAndBoxesState) (he : Int) : DotsAndBoxesState :=
  let length := (linkLenHe3 s he (pyGet s.otherHe he)).1
  let st := linkSuccGraph s he
  let st := { st with whoToMove := -st.whoToMove, score := -st.score }
  if length > 2 then
    { st with score := st.score + (length - 2), looneyValue := 2 }
  else
    { st with score := st.score + length, looneyValue := 0 }

/-- The per-link loop of `listMoves`, tagged with the half-edge recorded in
`heList`: one successor for each live half-edge not deferring to a larger
partner (`continue` on `he < otherHe[he]`). -/
def linkSuccs (s : DotsAndBoxesState) : List (Int × DotsAndBoxesState) :=
  (List.range s.otherHe.length).filterMap
    (fun (heN : Nat) =>
      let he : Int := (heN : Int)
      let oHe := pyGet s.otherHe he
      if oHe = REMOVED then none
      else if he < oHe then none
      else some (he, linkSucc s he))

/-- The scan of `listMoves` for the first strictly-minimal independent
component of the requested kind (`True` = chain), as index plus length. -/
def argminIndep (indeps : List Int) (kinds : List Bool) (wantChain : Bool) :
    Option (Int × Nat) :=
  (List.range indeps.length).foldl
    (fun best i =>
      if kinds.getD i false = wantChain then
        let L := indeps.getD i 0
        match best with
        | none => some (L, i)
        | some b => if L < b.1 then some (L, i) else some b
      else best)
    none

/-- `_break_indep` of `listMoves`: open the independent component at
`index`, crediting its length (deferring 2 for a chain of length ≥ 3,
4 for a loop of length ≥ 4) and dropping it from the lists. -/
def breakIndep (s : DotsAndBoxesState) (index : Nat) : Int × DotsAndBoxesState :=
  let isChain := s.indepAreChains.getD index false
  let leaveNumber : Int := if isChain then 2 else 4
  let minNumber : Int := if isChain then 3 else 4
  let L := s.indeps.getD index 0
  let base := { s with whoToMove := -s.whoToMove, score := -s.score }
  let st :=
    if L ≥ minNumber then
      { base with looneyValue := leaveNumber, score := base.score + (L - leaveNumber) }
    else
      { base with score := base.score + L, looneyValue := 0 }
  (-GIVEINDEP - (index : Int),
   { st with indeps := st.indeps.eraseIdx index,
             indepAreChains := st.indepAreChains.eraseIdx index })

/-- The break moves appended at the end of `listMoves`: the smallest
independent loop first (when one exists), then the smallest independent
chain (when one exists). -/
def breaksOf (s : DotsAndBoxesState) : List (Int × DotsAndBoxesState) :=
  let iLoop := argminIndep s.indeps s.indepAreChains false
  let iChain := argminIndep s.indeps s.indepAreChains true
  (match iLoop with
   | some b => [breakIndep s b.2]
   | none => []) ++
  (match iChain with
   | some b => [breakIndep s b.2]
   | none => [])

/-- The looney "eat" successor: take the pending value, keep the turn. -/
def eatLooney (s : DotsAndBoxesState) : DotsAndBoxesState :=
  { s with score := s.score + s.looneyValue, looneyValue := 0 }

/-- The looney "give" successor: pass the turn (negating the score first)
and credit the pending value to the new mover. -/
def giveLooney (s : DotsAndBoxesState) : DotsAndBoxesState :=
  { s with score := -s.score + s.looneyValue,
           whoToMove := -s.whoToMove,
           looneyValue := 0 }

/-- `DotsAndBoxesState.listMoves` together with the `heList` tags the
source records alongside each successor. -/
def listMovesT (s : DotsAndBoxesState) : List (Int × DotsAndBoxesState) :=
  if s.looneyValue > 0 then
    [(EATLOONEY, eatLooney s), (GIVELOONEY, giveLooney s)]
  else
    linkSuccs s ++ breaksOf s

/-- `DotsAndBoxesState.listMoves` (successors only). -/
def listMoves (s : DotsAndBoxesState) : List DotsAndBoxesState :=
  (listMovesT s).map Prod.snd

end DotsAndBoxesState

/-- The value domain of the search: the Python floats reaching `_negamax`
are `±math.inf` and the exact integers produced by `evaluate`, so an
integer extended with two infinities models them exactly (no NaN or
rounding can occur). -/
inductive NegVal where
  | ninf : NegVal
  | fin : Int → NegVal
  | pinf : NegVal
deriving DecidableEq, Repr

namespace NegVal

/-- Float negation on the values the search manipulates. -/
def neg : NegVal → NegVal
  | ninf => pinf
  | pinf => ninf
  | fin v => fin (-v)

/-- Strict `<` on search values. -/
def lt : NegVal → NegVal → Bool
  | ninf, ninf => false
  | ninf, _ => true
  | fin _, ninf => false
  | fin a, fin b => a < b
  | fin _, pinf => true
  | pinf, _ => false

/-- Non-strict `<=` on search values. -/
def le : NegVal → NegVal → Bool
  | ninf, _ => true
  | fin _, ninf => false
  | fin a, fin b => a ≤ b
  | fin _, pinf => true
  | pinf, pinf => true
  | pinf, _ => false

end NegVal

/-- The per-child value of `_negamax`'s loop: negate value and bounds
exactly when the parent-to-child sign product is `-1`.  `recurse` stands
for the recursive call at the decremented depth. -/
def childVal (recurse : SquareUp.DotsAndBoxesState → NegVal → NegVal → NegVal)
    (who : Int) (alpha beta : NegVal) (child : SquareUp.DotsAndBoxesState) : NegVal :=
  if who * child.whoToMove = -1 then (recurse child beta.neg alpha.neg).neg
  else recurse child alpha beta

/-- The child loop of `_negamax`: track `best`, break on `best >= beta`,
and raise `alpha` to `max(alpha, best)` between children. -/
def nmLoop (recurse : SquareUp.DotsAndBoxesState → NegVal → NegVal → NegVal)
    (who : Int) (beta : NegVal) :
    List SquareUp.DotsAndBoxesState → NegVal → NegVal → NegVal
  | [], best, _ => best
  | c :: rest, best, alpha =>
    let val := childVal recurse who alpha beta c
    let best1 := if best.lt val then val else best
    if beta.le best1 then best1
    else nmLoop recurse who beta rest best1 (if alpha.lt best1 then best1 else alpha)

/-- One depth layer of `_negamax`: terminal test, then the child loop
starting from `best = -inf`. -/
def negamaxStep (recurse : SquareUp.DotsAndBoxesState → NegVal → NegVal → NegVal)
    (st : SquareUp.DotsAndBoxesState) (alpha beta : NegVal) : NegVal :=
  if st.gameIsOver then .fin st.evaluate
  else
    match st.listMoves with
    | [] => .fin st.evaluate
    | c :: cs => nmLoop recurse st.whoToMove beta (c :: cs) .ninf alpha

/-- `_negamax(st, depth, alpha, beta)`.  Written with `Nat.rec` so that it
is structural in the depth and reduces definitionally. -/
def negamax (st : SquareUp.DotsAndBoxesState) (depth : Nat) (alpha beta : NegVal) : NegVal :=
  Nat.rec (motive := fun _ => SquareUp.DotsAndBoxesState → NegVal → NegVal → NegVal)
    (fun s _ _ => .fin s.evaluate)
    (fun _ ih => negamaxStep (fun s a b => ih s a b))
    depth st alpha beta

/-- One row of `_assignHEIndices`: for each undrawn edge allocate half-edge
indices (boundary rows get a single half-edge with a `DEADEND` partner,
inner rows get a mutually-partnered pair), returning the `A` column, the
`B` column, and the grown `otherHe` array. -/
def assignRow (isFirst isLast : Bool) :
    List Bool → List Int → List Int × List Int × List Int
  | [], otherHe => ([], [], otherHe)
  | drawn :: rest, otherHe =>
    if drawn then
      let r := assignRow isFirst isLast rest otherHe
      (REMOVED :: r.1, REMOVED :: r.2.1, r.2.2)
    else if isFirst then
      let he : Int := otherHe.length
      let r := assignRow isFirst isLast rest (otherHe ++ [DEADEND])
      (REMOVED :: r.1, he :: r.2.1, r.2.2)
    else if isLast then
      let he : Int := otherHe.length
      let r := assignRow isFirst isLast rest (otherHe ++ [DEADEND])
      (he :: r.1, REMOVED :: r.2.1, r.2.2)
    else
      let a : Int := otherHe.length
      let b : Int := a + 1
      let r := assignRow isFirst isLast rest (otherHe ++ [b, a])
      (a :: r.1, b :: r.2.1, r.2.2)

/-- `_assignHEIndices` over all rows (`x` is the current row index,
`total` the row count). -/
def assignHEIndices :
    List (List Bool) → Nat → Nat → List Int →
      List (List Int) × List (List Int) × List Int
  | [], _, _, otherHe => ([], [], otherHe)
  | row :: rows, x, total, otherHe =>
    let r := assignRow (x == 0) (x == total - 1) row otherHe
    let rs := assignHEIndices rows (x + 1) total r.2.2
    (r.1 :: rs.1, r.2.1 :: rs.2.1, rs.2.2)

/-- Read `t[x][y]` from a table of half-edge indices. -/
def get2I (t : List (List Int)) (x y : Nat) : Int :=
  (t.getD x []).getD y REMOVED

/-- Read `t[x][y]` from a table of drawn-line booleans (out of range reads
never occur on the rectangular inputs the engine builds). -/
def get2B (t : List (List Bool)) (x y : Nat) : Bool :=
  (t.getD x []).getD y true

/-- The open half-edges of box `(x, y)` in the rotation order the source
uses: left edge's inner half, right edge's inner half, top edge's lower
half, bottom edge's upper half. -/
def boxCycleHEs (vLines hLines : List (List Bool))
    (vLeft vRight hUp hDown : List (List Int)) (x y : Nat) : List Int :=
  (if get2B vLines x y = false then [get2I vRight x y] else []) ++
  (if get2B vLines (x + 1) y = false then [get2I vLeft (x + 1) y] else []) ++
  (if get2B hLines y x = false then [get2I hDown y x] else []) ++
  (if get2B hLines (y + 1) x = false then [get2I hUp (y + 1) x] else [])

/-- Close the listed half-edges of one box into a `nextHe` cycle. -/
def setCycle (nextHe : List Int) (hes : List Int) : List Int :=
  (List.range hes.length).foldl
    (fun acc i =>
      let he := hes.getD i REMOVED
      if he ≠ REMOVED then pySet acc he (hes.getD ((i + 1) % hes.length) REMOVED)
      else acc)
    nextHe

/-- A board move as the engine's `(row, column, orientation)` triple;
`isH = true` stands for the orientation character `H`. -/
structure Move where
  r : Int
  c : Int
  isH : Bool
deriving DecidableEq, Repr

/-- The four coordinate tables `_consider` keeps for decoding. -/
structure HeTables where
  vLeft : List (List Int)
  vRight : List (List Int)
  hUp : List (List Int)
  hDown : List (List Int)
deriving DecidableEq, Repr

/-- The build phase of `_consider` (lines 333-367): allocate half-edges for
the vertical then the horizontal lines, then thread each box's open edges
into a rotation cycle.  Returns the decode tables and the raw state. -/
def buildRoot (hLines vLines : List (List Bool)) : HeTables × DotsAndBoxesState :=
  let va := assignHEIndices vLines 0 vLines.length []
  let ha := assignHEIndices hLines 0 hLines.length va.2.2
  let otherHe := ha.2.2
  let tables : HeTables := ⟨va.1, va.2.1, ha.1, ha.2.1⟩
  let n := otherHe.length
  let nextHe0 := List.replicate n DEADEND
  let heLen : List Int := List.replicate n 0
  let nextHe :=
    (List.range (vLines.length - 1)).foldl
      (fun acc x =>
        (List.range (hLines.length - 1)).foldl
          (fun acc2 y =>
            setCycle acc2
              (boxCycleHEs vLines hLines tables.vLeft tables.vRight
                tables.hUp tables.hDown x y))
          acc)
      nextHe0
  (tables, ⟨otherHe, nextHe, heLen, [], [], 0, 0, 1⟩)

/-- The root contraction pass of `_consider` (lines 371-377): simplify at
every index, remembering for each newly created independent component the
half-edge index that produced it. -/
def simplifyPass (g : DotsAndBoxesState) : DotsAndBoxesState × List Int :=
  (List.range g.nextHe.length).foldl
    (fun p (heN : Nat) =>
      let he : Int := (heN : Int)
      let s1 := p.1.simplifyLink he
      if s1.indeps.length > p.1.indeps.length then (s1, p.2 ++ [he])
      else (s1, p.2))
    (g, [])

/-- Result of the free-square scan of `_consider` (lines 380-401): either an
early forced return at a capturable half-edge, or the collected broken
loops, broken chains, and last looney candidate. -/
inductive ClassifyResult where
  | early : Int → ClassifyResult
  | done : List Int → List Int → Option Int → ClassifyResult
deriving DecidableEq, Repr

/-- The scan body: a live half-edge alone on its rotation cycle is a
capturable square; it forces an immediate return unless its cached length
is the looney size (2 for a broken loop, 1 for a broken chain). -/
def classifyGo (g : DotsAndBoxesState) :
    List Nat → List Int → List Int → Option Int → ClassifyResult
  | [], loops, chains, looney => .done loops chains looney
  | heN :: rest, loops, chains, looney =>
    let he : Int := (heN : Int)
    if pyGet g.nextHe he = he then
      let oHe := pyGet g.otherHe he
      if pyGet g.nextHe oHe = oHe then
        if pyGet g.heLengths he ≠ 2 then .early he
        else classifyGo g rest (loops ++ [he]) chains (some he)
      else
        if pyGet g.heLengths he ≠ 1 then .early he
        else classifyGo g rest loops (chains ++ [he]) (some he)
    else classifyGo g rest loops chains looney

/-- The free-square scan over all indices. -/
def classify (g : DotsAndBoxesState) : ClassifyResult :=
  classifyGo g (List.range g.nextHe.length) [] [] none

/-- Scan one row pair of `_heToCoords` for `he` (the `A` table is checked
before the `B` table at each cell, as in the source). -/
def findPairRow (rb : List Int) (he : Int) : List Int → Nat → Option Nat
  | [], _ => none
  | a :: rest, j =>
    if a = he ∨ rb.getD j REMOVED = he then some j
    else findPairRow rb he rest (j + 1)

/-- Scan a table pair of `_heToCoords` for `he` in row-major order. -/
def findPairTbl (tb : List (List Int)) (he : Int) :
    List (List Int) → Nat → Option (Nat × Nat)
  | [], _ => none
  | row :: rows, i =>
    match findPairRow (tb.getD i []) he row 0 with
    | some j => some (i, j)
    | none => findPairTbl tb he rows (i + 1)

/-- `_heToCoords`: verticals first (dot pair `(x, y)-(x, y+1)`), then
horizontals (`(x, y)-(x+1, y)`); `none` models the `RuntimeError`. -/
def heToCoords (t : HeTables) (he : Int) : Option (Int × Int × Int × Int) :=
  match findPairTbl t.vRight he t.vLeft 0 with
  | some p => some ((p.1 : Int), (p.2 : Int), (p.1 : Int), (p.2 : Int) + 1)
  | none =>
    match findPairTbl t.hDown he t.hUp 0 with
    | some p => some ((p.2 : Int), (p.1 : Int), (p.2 : Int) + 1, (p.1 : Int))
    | none => none

/-- `_coords_to_move`: a unit horizontal segment becomes `(y, x, H)`, a
unit vertical segment `(y, x, V)`; `none` models the `RuntimeError`. -/
def coordsToMove (x1 y1 x2 y2 : Int) : Option Move :=
  if y1 = y2 ∧ x2 = x1 + 1 then some ⟨y1, x1, true⟩
  else if x1 = x2 ∧ y2 = y1 + 1 then some ⟨y1, x1, false⟩
  else none

/-- Decode a half-edge to a board move (`_heToCoords` then
`_coords_to_move`). -/
def decodeMove (t : HeTables) (he : Int) : Option Move :=
  match heToCoords t he with
  | some c => coordsToMove c.1 c.2.1 c.2.2.1 c.2.2.2
  | none => none

/-- One iteration of the iterative-deepening loop over the root candidates:
refresh each candidate's value at this depth (keeping the maximum with the
previous depths' value) while tracking the best value seen so far for
window tightening. -/
def depthPassGo (depth : Nat) :
    List (Int × DotsAndBoxesState × NegVal) → NegVal →
      List (Int × DotsAndBoxesState × NegVal)
  | [], _ => []
  | (tag, child, v) :: rest, bestVal =>
    let val :=
      if child.whoToMove = -1 then (negamax child (depth - 1) .ninf bestVal.neg).neg
      else negamax child (depth - 1) bestVal .pinf
    let v1 := if v.lt val then val else v
    let bestVal1 := if bestVal.lt v1 then v1 else bestVal
    (tag, child, v1) :: depthPassGo depth rest bestVal1

/-- Insert into a list sorted by value descending, after every entry whose
value is at least as large (so earlier entries stay ahead on ties). -/
def insertDesc (x : Int × DotsAndBoxesState × NegVal) :
    List (Int × DotsAndBoxesState × NegVal) →
      List (Int × DotsAndBoxesState × NegVal)
  | [] => [x]
  | y :: ys => if x.2.2.lt y.2.2 then y :: insertDesc x ys else x :: y :: ys

/-- The re-ranking step `scores.sort(key=val, reverse=True)`.  Python's
sort is stable, so the resulting order is exactly: values descending with
equal values in the original order; this insertion sort produces the same
list. -/
def sortDesc :
    List (Int × DotsAndBoxesState × NegVal) →
      List (Int × DotsAndBoxesState × NegVal)
  | [] => []
  | x :: xs => insertDesc x (sortDesc xs)

/-- The iterative-deepening driver (`for depth in range(1, MAX_DEPTH+1)`):
a value pass followed by a re-rank, at each depth.  The global node/leaf
statistics the source resets here are write-only counters with no effect
on any returned value and are not modelled. -/
def searchLoop (scores : List (Int × DotsAndBoxesState × NegVal)) (maxDepth : Nat) :
    List (Int × DotsAndBoxesState × NegVal) :=
  (List.range maxDepth).foldl (fun sc d => sortDesc (depthPassGo (d + 1) sc .ninf)) scores

/-- The tail of the decode phase reached when the root is not looney (the
`elif` chain at lines 470-487): an independent-component tag, a length-2
link (decode the far end in the pre-contraction graph), or the half-edge
itself.  `none` models an `IndexError` on `indepsToHe`. -/
def decodeSearched (tables : HeTables) (unsimpl root : DotsAndBoxesState)
    (indepsToHe : List Int) (bestEdgeHe : Int) : Option Move :=
  if bestEdgeHe ≤ -GIVEINDEP then
    let idx : Int := -bestEdgeHe - GIVEINDEP
    match indepsToHe.get? idx.toNat with
    | none => none
    | some indepHe =>
      if root.indeps.getD idx.toNat 0 = 2 ∧ pyGet unsimpl.otherHe indepHe = DEADEND then
        decodeMove tables (pyGet unsimpl.nextHe indepHe)
      else decodeMove tables indepHe
  else if pyGet root.heLengths bestEdgeHe = 2 then
    let o := pyGet unsimpl.otherHe bestEdgeHe
    decodeMove tables (pyGet unsimpl.nextHe o)
  else decodeMove tables bestEdgeHe

/-- The outcome of `_consider`, split by whether the negamax search phase
was reached.  The carried `Option Move` is the returned triple; `none`
stands both for a raised exception and for Python's implicit `None`
return, which `make_move` treats identically (fallback). -/
inductive ConsiderOutcome where
  | forced : Option Move → ConsiderOutcome
  | searched : Option Move → ConsiderOutcome
deriving DecidableEq, Repr

/-- `_consider(hLines, vLines, currentScore)` with the forced/searched
split made explicit.  Transcribed branch for branch from lines 332-487. -/
def considerOutcome (hLines vLines : List (List Bool)) (currentScore : Int) :
    ConsiderOutcome :=
  let bt := buildRoot hLines vLines
  let tables := bt.1
  let unsimpl := bt.2
  let sp := simplifyPass unsimpl
  let indepsToHe := sp.2
  match classify sp.1 with
  | .early he => .forced (decodeMove tables he)
  | .done loops chains looneyHe =>
    if chains.length > 0 ∧ loops.length > 0 then
      .forced (decodeMove tables (loops.headD REMOVED))
    else if chains.length > 1 then
      .forced (decodeMove tables (chains.headD REMOVED))
    else if loops.length > 2 then
      .forced (decodeMove tables (loops.headD REMOVED))
    else
      let g1 := if chains.length = 1 then { sp.1 with looneyValue := 2 } else sp.1
      let g2 := if loops.length = 2 then { g1 with looneyValue := 4 } else g1
      let g3 :=
        if g2.looneyValue > 0 then
          match looneyHe with
          | some lhe =>
            let oHe := pyGet g2.otherHe lhe
            let ga := g2.removeHe lhe
            if oHe ≠ DEADEND then
              let noHe := pyGet ga.nextHe oHe
              (ga.removeHe oHe).simplifyLink noHe
            else ga
          | none => g2
        else g2
      let root := { g3 with score := currentScore, whoToMove := 1 }
      let scores0 := root.listMovesT.map (fun ts => (ts.1, ts.2, NegVal.ninf))
      match scores0 with
      | [] => .searched none
      | sc0 :: scRest =>
        let final := searchLoop (sc0 :: scRest) 9
        let bestEdgeHe := (final.headD (0, root, .ninf)).1
        .searched
          (match looneyHe with
           | some lhe =>
             if root.looneyValue > 0 then
               if bestEdgeHe = EATLOONEY then decodeMove tables lhe
               else if bestEdgeHe = GIVELOONEY then
                 let he2 := pyGet unsimpl.otherHe lhe
                 decodeMove tables (pyGet unsimpl.nextHe he2)
               else none
             else decodeSearched tables unsimpl root indepsToHe bestEdgeHe
           | none => decodeSearched tables unsimpl root indepsToHe bestEdgeHe)

/-- `_consider`'s returned move. -/
def consider (hLines vLines : List (List Bool)) (currentScore : Int) : Option Move :=
  match considerOutcome hLines vLines currentScore with
  | .forced mv => mv
  | .searched mv => mv

/-- Write `m[i][j] = true` into a nested boolean board array with Python
index semantics (the engine only ever supplies in-range coordinates). -/
def pySet2 (m : List (List Bool)) (i j : Int) : List (List Bool) :=
  match pyIdx m.length i with
  | some x => m.set x (pySetB (m.getD x []) j true)
  | none => m

/-- The fields of the `game_state` dict that `make_move` reads.  The rules
engine stores `box_owners` as a dict whose values are the owning player
ids (1 or 2); only the values are consulted, as the multiset
`ownerValues`. -/
structure GameState where
  boardW : Int
  boardH : Int
  vertical_lines : List (Int × Int)
  horizontal_lines : List (Int × Int)
  your_player_id : Int
  ownerValues : List Int
  available_moves : List Move
deriving Repr

/-- The board arrays `make_move` builds before calling the solver
(`vLines[c][r]`, `hLines[r][c]`). -/
def builtBoards (gs : GameState) : List (List Bool) × List (List Bool) :=
  let W := gs.boardW.toNat
  let H := gs.boardH.toNat
  let vLines0 := List.replicate (W + 1) (List.replicate H false)
  let hLines0 := List.replicate (H + 1) (List.replicate W false)
  (gs.horizontal_lines.foldl (fun m rc => pySet2 m rc.1 rc.2) hLines0,
   gs.vertical_lines.foldl (fun m rc => pySet2 m rc.2 rc.1) vLines0)

/-- The score differential `make_move` computes for the side to move. -/
def currentScoreOf (gs : GameState) : Int :=
  ((gs.ownerValues.filter (fun v => v = gs.your_player_id)).length : Int) -
    ((gs.ownerValues.filter (fun v => v ≠ 0 ∧ v ≠ gs.your_player_id)).length : Int)

/-- The solver call inside `make_move`'s `try` block. -/
def considerOf (gs : GameState) : Option Move :=
  consider (builtBoards gs).1 (builtBoards gs).2 (currentScoreOf gs)

/-- `make_move(game_state)`.  The single call to `random.choice` is
modelled by the extra argument `pick`: the drawn element is
`available_moves[pick % len]`, a member whenever the list is non-empty.
`none` models a raised exception (`random.choice` on an empty list).
Python's truthiness test `if v and v != you` on an owner id `v` is
`v ≠ 0 ∧ v ≠ you`. -/
def make_move (gs : GameState) (pick : Nat) : Option Move :=
  let fallback := gs.available_moves.get? (pick % gs.available_moves.length)
  match considerOf gs with
  | some mv => if mv ∈ gs.available_moves then some mv else fallback
  | none => fallback

/-
Board-level predicates translated from the rules engine
(`src/game_logic.py`), used to state what a returned move does on the
board.  Boards are in the solver's array form: `hL[row][col]`,
`vL[col][row]`, for a `W x H` board of boxes.
-/

/-- `DotsAndBoxesGame._is_box_complete` for the box at column `x`, row `y`:
all four of top, bottom, left, right are drawn. -/
def boxComplete (hL vL : List (List Bool)) (x y : Nat) : Bool :=
  get2B hL y x && get2B hL (y + 1) x && get2B vL x y && get2B vL (x + 1) y

/-- How many of the four sides of the box at column `x`, row `y` are
drawn. -/
def boxSidesDrawn (hL vL : List (List Bool)) (x y : Nat) : Nat :=
  (if get2B hL y x then 1 else 0) + (if get2B hL (y + 1) x then 1 else 0) +
    (if get2B vL x y then 1 else 0) + (if get2B vL (x + 1) y then 1 else 0)

/-- Does the `W x H` board contain a box with exactly 3 of 4 sides
drawn? -/
def hasThreeSidedBox (W H : Nat) (hL vL : List (List Bool)) : Bool :=
  (List.range W).any (fun x => (List.range H).any (fun y => boxSidesDrawn hL vL x y == 3))

/-- Draw the move's line on the board arrays (`apply_move`'s insertion). -/
def applyMoveBoards (hL vL : List (List Bool)) (mv : Move) :
    List (List Bool) × List (List Bool) :=
  if mv.isH then (pySet2 hL mv.r mv.c, vL) else (hL, pySet2 vL mv.c mv.r)

/-- `DotsAndBoxesGame._check_for_new_boxes`: does drawing `mv` complete at
least one box?  A horizontal line at `(r, c)` can complete the boxes below
(`row r`) and above (`row r-1`); a vertical line at `(r, c)` the boxes to
its right (`col c`) and left (`col c-1`), with the same bounds checks as
the source. -/
def completesBox (W H : Nat) (hL vL : List (List Bool)) (mv : Move) : Bool :=
  let a := applyMoveBoards hL vL mv
  if mv.isH then
    (decide (mv.r < (H : Int)) && boxComplete a.1 a.2 mv.c.toNat mv.r.toNat) ||
    (decide (0 < mv.r) && boxComplete a.1 a.2 mv.c.toNat (mv.r - 1).toNat)
  else
    (decide (mv.c < (W : Int)) && boxComplete a.1 a.2 mv.c.toNat mv.r.toNat) ||
    (decide (0 < mv.c) && boxComplete a.1 a.2 (mv.c - 1).toNat mv.r.toNat)

/-
Heap model for the aliasing claim.  Python's `DotsAndBoxesState` owns five
list objects; `clone` copies all five, and every in-place write the move
generator performs targets a clone allocated inside the call, never the
receiver's lists.  The net heap effect of `listMoves` is therefore:
existing cells are untouched and each successor's five arrays live in
freshly allocated cells.  The model keeps two heaps (integer lists and
boolean lists) and states whose array fields are heap pointers.
-/

/-- A `DotsAndBoxesState` whose five list attributes are pointers into the
two heaps (`pOther`, `pNext`, `pLen`, `pIndeps` into the integer-list
heap, `pChains` into the boolean-list heap). -/
structure StateRef where
  pOther : Nat
  pNext : Nat
  pLen : Nat
  pIndeps : Nat
  pChains : Nat
  looneyValue : Int
  score : Int
  whoToMove : Int
deriving DecidableEq, Repr

/-- Dereference a state: read its five arrays out of the heaps. -/
def readRef (hi : List (List Int)) (hb : List (List Bool)) (r : StateRef) :
    DotsAndBoxesState :=
  ⟨hi.getD r.pOther [], hi.getD r.pNext [], hi.getD r.pLen [],
   hi.getD r.pIndeps [], hb.getD r.pChains [], r.looneyValue, r.score, r.whoToMove⟩

/-- `clone`: allocate fresh cells holding copies of the five arrays. -/
def allocState (hi : List (List Int)) (hb : List (List Bool))
    (s : DotsAndBoxesState) : StateRef × List (List Int) × List (List Bool) :=
  (⟨hi.length, hi.length + 1, hi.length + 2, hi.length + 3, hb.length,
    s.looneyValue, s.score, s.whoToMove⟩,
   hi ++ [s.otherHe, s.nextHe, s.heLengths, s.indeps], hb ++ [s.indepAreChains])

/-- Allocate a list of successor states one after the other. -/
def allocAll : List DotsAndBoxesState → List (List Int) → List (List Bool) →
    List StateRef × List (List Int) × List (List Bool)
  | [], hi, hb => ([], hi, hb)
  | s :: rest, hi, hb =>
    let a := allocState hi hb s
    let r := allocAll rest a.2.1 a.2.2
    (a.1 :: r.1, r.2.1, r.2.2)

/-- `listMoves` on the heap: every write the source performs inside
`listMoves` targets a clone created in the same call (`st = self.clone()`
in both the looney branch and the link loop, and inside `_break_indep`),
so the call's net heap effect is exactly: compute the successor values
from the dereferenced receiver and allocate them in fresh cells. -/
def heapListMoves (r : StateRef) (hi : List (List Int)) (hb : List (List Bool)) :
    List StateRef × List (List Int) × List (List Bool) :=
  allocAll (readRef hi hb r).listMoves hi hb

/-- An in-place update `arr[i] = v` of the integer array in heap cell
`p`. -/
def heapWrite (hi : List (List Int)) (p : Nat) (i : Int) (v : Int) :
    List (List Int) :=
  hi.set p (pySet (hi.getD p []) i v)

/-- The four integer-heap pointers of a state. -/
def intPtrs (r : StateRef) : List Nat :=
  [r.pOther, r.pNext, r.pLen, r.pIndeps]

/-- The condition under which the free-square scan of `_consider` returns
a forced move at `he`: `he` is alone on its rotation cycle and its cached
length is off the looney size (2 for the broken-loop shape, 1 for the
broken-chain shape). -/
def forcedAt (g : DotsAndBoxesState) (he : Int) : Prop :=
  pyGet g.nextHe he = he ∧
    ((pyGet g.nextHe (pyGet g.otherHe he) = pyGet g.otherHe he ∧
        pyGet g.heLengths he ≠ 2) ∨
     (pyGet g.nextHe (pyGet g.otherHe he) ≠ pyGet g.otherHe he ∧
        pyGet g.heLengths he ≠ 1))

instance (g : DotsAndBoxesState) (he : Int) : Decidable (forcedAt g he) := by
  unfold forcedAt; infer_instance

/-- Whether a `_consider` outcome was produced before the search phase. -/
def ConsiderOutcome.isForced : ConsiderOutcome → Bool
  | .forced _ => true
  | .searched _ => false

/-- The independent-component kind recorded for a break tag
(`tag = -GIVEINDEP - index`): `true` when that component is a chain. -/
def breakKind (s : DotsAndBoxesState) (t : Int) : Bool :=
  s.indepAreChains.getD (-t - GIVEINDEP).toNat false

/-
Concrete sample data used to instantiate the theorems' hypotheses:
a bare looney position, and three small boards (the boards are 1-row
strips of boxes; `sampleBoardGive` carries a capturable box behind a
half-open 2-chain next to an independent 5-chain, `sampleBoardEat` the
same with a 3-chain, `sampleBoardForced` a single box with 3 sides
drawn).
-/

/-- A reduced position carrying only a pending looney value of 2. -/
def sampleLooney : DotsAndBoxesState := ⟨[], [], [], [], [], 2, 0, 1⟩

/-- A reduced position with no pending looney value: one live boundary
link of length 1 plus one independent chain of length 3 and one
independent loop of length 4. -/
def sampleFlat : DotsAndBoxesState :=
  ⟨[-1], [0], [1], [3, 4], [true, false], 0, 0, 1⟩

/-- A reduced position with six live half-edges on two rotation 3-cycles
(`0→1→2→0` and `3→4→5→3`), one live partner pair `(0, 3)` and four
boundary half-edges, all of cached length 1. -/
def sampleReduced : DotsAndBoxesState :=
  ⟨[3, -1, -1, 0, -1, -1], [1, 2, 0, 4, 5, 3], [1, 1, 1, 1, 1, 1],
   [], [], 0, 0, 1⟩

/-- Vertical lines of a 7x1 board: capturable `B0`, half-open 2-chain
`(B0, B1)`, independent 5-chain `B2..B6`. -/
def sampleGiveV : List (List Bool) :=
  [[true], [false], [true], [false], [false], [false], [false], [true]]

/-- Horizontal lines of the same 7x1 board. -/
def sampleGiveH : List (List Bool) :=
  [[true, true, true, true, true, true, true],
   [true, false, false, true, true, true, false]]

/-- Vertical lines of a 5x1 board: capturable `B0`, half-open 2-chain
`(B0, B1)`, independent 3-chain `B2..B4`. -/
def sampleEatV : List (List Bool) :=
  [[true], [false], [true], [false], [false], [true]]

/-- Horizontal lines of the same 5x1 board. -/
def sampleEatH : List (List Bool) :=
  [[true, true, true, true, true], [true, false, false, true, false]]

/-- Vertical lines of a 1x1 board whose single box has 3 sides drawn. -/
def sampleForcedV : List (List Bool) := [[true], [true]]

/-- Horizontal lines of that 1x1 board (bottom edge open). -/
def sampleForcedH : List (List Bool) := [[true], [false]]

/-- A game state wrapping the give-board for `make_move`: player 1 to
move, no boxes owned yet, all undrawn edges available. -/
def sampleGameState : GameState :=
  { boardW := 7, boardH := 1,
    vertical_lines := [(0, 0), (0, 2), (0, 7)],
    horizontal_lines :=
      [(0, 0), (0, 1), (0, 2), (0, 3), (0, 4), (0, 5), (0, 6),
       (1, 0), (1, 3), (1, 4), (1, 5)],
    your_player_id := 1,
    ownerValues := [],
    available_moves :=
      [⟨0, 1, false⟩, ⟨0, 3, false⟩, ⟨0, 4, false⟩, ⟨0, 5, false⟩,
       ⟨0, 6, false⟩, ⟨1, 1, true⟩, ⟨1, 2, true⟩, ⟨1, 6, true⟩] }

/-
Well-formedness of a half-edge state, as the spec's §3 invariants put it:
the three node arrays run in parallel; `nextHe` restricted to the live
half-edges (those not marked `REMOVED` in `otherHe`) is a permutation —
every box's remaining open edges form a rotation cycle; the partner
relation is an involution on live half-edges except at `DEADEND`
boundaries, with equal cached lengths on both halves.  These hold for the
state the Edge-Graph Builder produces and are maintained by the engine's
operations.  Orbit-counting notions used to characterise the two marking
loops of `numBoxesLeft` follow.
-/

/-- Live half-edge: its `otherHe` slot is not the `REMOVED` mark. -/
def liveN (s : DotsAndBoxesState) (j : Nat) : Prop :=
  pyGet s.otherHe (j : Int) ≠ REMOVED

instance (s : DotsAndBoxesState) (j : Nat) : Decidable (liveN s j) := by
  unfold liveN; infer_instance

/-- The rotation successor as a natural number (junk on dead nodes). -/
def fnext (s : DotsAndBoxesState) (j : Nat) : Nat :=
  (pyGet s.nextHe (j : Int)).toNat

/-- The rotation part of well-formedness: `nextHe` has the right length,
agrees with `otherHe` about liveness, maps live nodes to live nodes, and
is injective on them (a permutation of the live set). -/
structure WFnext (s : DotsAndBoxesState) : Prop where
  hlen : s.nextHe.length = s.otherHe.length
  hlive : ∀ j, j < s.otherHe.length →
    (liveN s j ↔ pyGet s.nextHe (j : Int) ≠ REMOVED)
  hnext : ∀ j, j < s.otherHe.length → liveN s j →
    pyGet s.nextHe (j : Int) = ((fnext s j : Nat) : Int) ∧
      fnext s j < s.otherHe.length ∧ liveN s (fnext s j)
  hinj : ∀ a, a < s.otherHe.length → ∀ b, b < s.otherHe.length →
    liveN s a → liveN s b → fnext s a = fnext s b → a = b

/-- The partner part of well-formedness: `heLengths` has the right length
and the live partner relation is an involution with equal cached lengths,
except at `DEADEND` boundaries. -/
structure WFpair (s : DotsAndBoxesState) : Prop where
  hlen : s.heLengths.length = s.otherHe.length
  hpart : ∀ j, j < s.otherHe.length → liveN s j →
    pyGet s.otherHe (j : Int) = DEADEND ∨
    ∃ m, m < s.otherHe.length ∧ m ≠ j ∧ pyGet s.otherHe (j : Int) = (m : Int) ∧
      liveN s m ∧ pyGet s.otherHe (m : Int) = (j : Int) ∧
      pyGet s.heLengths (m : Int) = pyGet s.heLengths (j : Int)

/-- Full well-formedness of a half-edge state. -/
def WFs (s : DotsAndBoxesState) : Prop := WFnext s ∧ WFpair s

/-- A reduced position: well-formed with no degree-1 box (a rotation fixed
point is a capturable square, surfaced as a forced move before search)
and no degree-2 box (the Contraction Engine collapses those). -/
def ReducedN (s : DotsAndBoxesState) : Prop :=
  WFs s ∧ ∀ j, j < s.otherHe.length → liveN s j →
    fnext s j ≠ j ∧ fnext s (fnext s j) ≠ j

/-- Two half-edges on the same rotation cycle, witnessed within the array
length (enough for any live node, whose minimal period is at most the
number of live nodes). -/
def sameOrbitN (s : DotsAndBoxesState) (a b : Nat) : Prop :=
  ∃ k, k < s.otherHe.length + 1 ∧ (fnext s)^[k] a = b

instance (s : DotsAndBoxesState) (a b : Nat) : Decidable (sameOrbitN s a b) :=
  decidable_of_iff
    ((List.range (s.otherHe.length + 1)).any (fun k => (fnext s)^[k] a == b) = true)
    (by unfold sameOrbitN; simp [List.any_eq_true, List.mem_range])

/-- The smallest live index on its rotation cycle: the index at which the
first loop of `numBoxesLeft` counts that cycle. -/
def minRepN (s : DotsAndBoxesState) (j : Nat) : Prop :=
  liveN s j ∧ j < s.otherHe.length ∧
    ∀ r, r < s.otherHe.length → sameOrbitN s j r → j ≤ r

instance (s : DotsAndBoxesState) (j : Nat) : Decidable (minRepN s j) := by
  unfold minRepN
  exact instDecidableAnd

/-- The representative of a partner pair in the second loop of
`numBoxesLeft`: a boundary half-edge, or the half of a live pair whose
partner has the larger index. -/
def repN (s : DotsAndBoxesState) (j : Nat) : Prop :=
  liveN s j ∧ (pyGet s.otherHe (j : Int) = DEADEND ∨
    ((j : Int) < pyGet s.otherHe (j : Int)))

instance (s : DotsAndBoxesState) (j : Nat) : Decidable (repN s j) := by
  unfold repN; infer_instance

/-- The number of live rotation cycles, counted at minimal members. -/
def jointCountF (s : DotsAndBoxesState) : Nat :=
  ((Finset.range s.otherHe.length).filter (fun j => minRepN s j)).card

/-- The sum of the cached lengths over pair representatives. -/
def pairSumF (s : DotsAndBoxesState) : Int :=
  ∑ j ∈ Finset.range s.otherHe.length,
    (if repN s j then pyGet s.heLengths (j : Int) else 0)

/-- One step of the joint-counting loop of `numBoxesLeft` (the body of its
first `for`), named so the loop-invariant proofs below can speak about the
partial folds. -/
def jointStep (s : DotsAndBoxesState) (p : Int × List Bool) (heN : Nat) :
    Int × List Bool :=
  let he : Int := (heN : Int)
  if pyGet s.otherHe he ≠ REMOVED ∧ pyGetB p.2 he = false then
    (p.1 + 1,
      DotsAndBoxesState.markCycle s.nextHe he s.otherHe.length he
        (pySetB p.2 he true))
  else p

/-- One step of the pair-summing loop of `numBoxesLeft` (the body of its
second `for`). -/
def pairStep (s : DotsAndBoxesState) (p : Int × List Bool) (heN : Nat) :
    Int × List Bool :=
  let he : Int := (heN : Int)
  if pyGet s.otherHe he ≠ REMOVED ∧ pyGetB p.2 he = false then
    let oHe := pyGet s.otherHe he
    let c1 := pySetB p.2 he true
    let c2 := if oHe ≠ DEADEND then pySetB c1 oHe true else c1
    (p.1 + pyGet s.heLengths he, c2)
  else p

/-!
## Theorems

First the small unfolding and frame lemmas shared by several claims,
then one theorem (plus witness) per claim.
-/

open DotsAndBoxesState

theorem negamax_zero (st : DotsAndBoxesState) (alpha beta : NegVal) :
    negamax st 0 alpha beta = .fin st.evaluate := rfl

theorem negamax_succ (st : DotsAndBoxesState) (d : Nat) (alpha beta : NegVal) :
    negamax st (d + 1) alpha beta
      = negamaxStep (fun s a b => negamax s d a b) st alpha beta := rfl

theorem removeHe_whoToMove (s : DotsAndBoxesState) (he : Int) :
    (s.removeHe he).whoToMove = s.whoToMove := rfl

theorem removeHe_score (s : DotsAndBoxesState) (he : Int) :
    (s.removeHe he).score = s.score := rfl

theorem removeHe_looneyValue (s : DotsAndBoxesState) (he : Int) :
    (s.removeHe he).looneyValue = s.looneyValue := rfl

theorem simplifyLink_whoToMove (s : DotsAndBoxesState) (he : Int) :
    (s.simplifyLink he).whoToMove = s.whoToMove := by
  unfold DotsAndBoxesState.simplifyLink
  dsimp only
  repeat' split
  all_goals simp_all

theorem simplifyLink_score (s : DotsAndBoxesState) (he : Int) :
    (s.simplifyLink he).score = s.score := by
  unfold DotsAndBoxesState.simplifyLink
  dsimp only
  repeat' split
  all_goals simp_all

theorem simplifyLink_looneyValue (s : DotsAndBoxesState) (he : Int) :
    (s.simplifyLink he).looneyValue = s.looneyValue := by
  unfold DotsAndBoxesState.simplifyLink
  dsimp only
  repeat' split
  all_goals simp_all

theorem linkSuccGraph_whoToMove (s : DotsAndBoxesState) (he : Int) :
    (linkSuccGraph s he).whoToMove = s.whoToMove := by
  unfold linkSuccGraph
  dsimp only
  repeat' split
  all_goals
    simp [simplifyLink_whoToMove, removeHe_whoToMove]

theorem linkSuccGraph_score (s : DotsAndBoxesState) (he : Int) :
    (linkSuccGraph s he).score = s.score := by
  unfold linkSuccGraph
  dsimp only
  repeat' split
  all_goals
    simp [simplifyLink_score, removeHe_score]

theorem linkSucc_whoToMove (s : DotsAndBoxesState) (he : Int) :
    (linkSucc s he).whoToMove = -s.whoToMove := by
  unfold linkSucc
  dsimp only
  split
  all_goals simp [linkSuccGraph_whoToMove]

theorem linkSucc_score_low (s : DotsAndBoxesState) (he : Int)
    (h : ¬ (linkLenHe3 s he (pyGet s.otherHe he)).1 > 2) :
    (linkSucc s he).score = -s.score + (linkLenHe3 s he (pyGet s.otherHe he)).1
      ∧ (linkSucc s he).looneyValue = 0 := by
  unfold linkSucc
  dsimp only
  rw [if_neg h]
  simp [linkSuccGraph_score]

theorem linkSucc_score_high (s : DotsAndBoxesState) (he : Int)
    (h : (linkLenHe3 s he (pyGet s.otherHe he)).1 > 2) :
    (linkSucc s he).score = -s.score + ((linkLenHe3 s he (pyGet s.otherHe he)).1 - 2)
      ∧ (linkSucc s he).looneyValue = 2 := by
  unfold linkSucc
  dsimp only
  rw [if_pos h]
  simp [linkSuccGraph_score]

theorem breakIndep_fields (s : DotsAndBoxesState) (i : Nat) :
    (breakIndep s i).2.whoToMove = -s.whoToMove ∧
      (breakIndep s i).1 = -GIVEINDEP - (i : Int) := by
  unfold breakIndep
  dsimp only
  repeat' split
  all_goals simp

/-- Every successor either keeps the parent's mover sign or negates it. -/
theorem mem_listMoves_whoToMove (s c : DotsAndBoxesState)
    (hc : c ∈ s.listMoves) :
    c.whoToMove = s.whoToMove ∨ c.whoToMove = -s.whoToMove := by
  unfold listMoves listMovesT at hc
  by_cases h : s.looneyValue > 0
  · rw [if_pos h] at hc
    simp only [List.map_cons, List.map_nil, List.mem_cons,
      List.not_mem_nil, or_false] at hc
    rcases hc with hc | hc
    · subst hc; left; rfl
    · subst hc; right; rfl
  · rw [if_neg h] at hc
    simp only [List.map_append, List.mem_append, List.mem_map] at hc
    rcases hc with ⟨⟨t, c'⟩, ht, rfl⟩ | ⟨⟨t, c'⟩, ht, rfl⟩
    · show c'.whoToMove = s.whoToMove ∨ c'.whoToMove = -s.whoToMove
      unfold linkSuccs at ht
      simp only [List.mem_filterMap] at ht
      obtain ⟨heN, _, hf⟩ := ht
      split at hf
      · exact absurd hf (by simp)
      · split at hf
        · exact absurd hf (by simp)
        · simp only [Option.some.injEq, Prod.mk.injEq] at hf
          right
          rw [← hf.2, linkSucc_whoToMove]
    · show c'.whoToMove = s.whoToMove ∨ c'.whoToMove = -s.whoToMove
      unfold breaksOf at ht
      simp only [List.mem_append] at ht
      have key : ∃ i : Nat, (t, c') = breakIndep s i := by
        rcases ht with ht | ht
        · cases hm : argminIndep s.indeps s.indepAreChains false <;> rw [hm] at ht
          · simp at ht
          · simp at ht; exact ⟨_, ht⟩
        · cases hm : argminIndep s.indeps s.indepAreChains true <;> rw [hm] at ht
          · simp at ht
          · simp at ht; exact ⟨_, ht⟩
      obtain ⟨i, hi⟩ := key
      right
      have hc' : c' = (breakIndep s i).2 := by rw [← hi]
      rw [hc']
      exact (breakIndep_fields s i).1


/-- The per-link loop emits exactly the live half-edges that do not defer
to a larger partner, each tagged with itself and paired with its
`linkSucc`. -/
theorem mem_linkSuccs (s : DotsAndBoxesState) (t : Int) (c : DotsAndBoxesState) :
    (t, c) ∈ linkSuccs s ↔
      (0 ≤ t ∧ t < (s.otherHe.length : Int) ∧ pyGet s.otherHe t ≠ REMOVED ∧
        ¬(t < pyGet s.otherHe t) ∧ c = linkSucc s t) := by
  unfold linkSuccs
  constructor
  · intro hmem
    obtain ⟨heN, hin, hf⟩ := List.mem_filterMap.mp hmem
    have hlt := List.mem_range.mp hin
    dsimp only at hf
    split at hf
    · exact absurd hf (by simp)
    · split at hf
      · exact absurd hf (by simp)
      · simp only [Option.some.injEq, Prod.mk.injEq] at hf
        obtain ⟨rfl, rfl⟩ := hf
        refine ⟨Int.natCast_nonneg heN, by exact_mod_cast hlt, by assumption,
          by assumption, rfl⟩
  · rintro ⟨h0, hlt, hrem, hdir, rfl⟩
    refine List.mem_filterMap.mpr ⟨t.toNat, List.mem_range.mpr (by omega), ?_⟩
    dsimp only
    rw [Int.toNat_of_nonneg h0]
    rw [if_neg hrem, if_neg hdir]

/-- The accumulator behaviour of the strict-minimum scan of `listMoves`
(the loop computing `minChain`/`minLoop`), for an arbitrary index list and
starting accumulator. -/
theorem argminFold_spec (indeps : List Int) (kinds : List Bool) (wantChain : Bool) :
    ∀ (l : List Nat) (acc : Option (Int × Nat)),
      (∀ L i, acc = some (L, i) → kinds.getD i false = wantChain ∧ L = indeps.getD i 0) →
      ((l.foldl
          (fun best i =>
            if kinds.getD i false = wantChain then
              let L := indeps.getD i 0
              match best with
              | none => some (L, i)
              | some b => if L < b.1 then some (L, i) else some b
            else best) acc = none →
          acc = none ∧ ∀ j ∈ l, kinds.getD j false ≠ wantChain) ∧
       (∀ L i, l.foldl
          (fun best i =>
            if kinds.getD i false = wantChain then
              let L := indeps.getD i 0
              match best with
              | none => some (L, i)
              | some b => if L < b.1 then some (L, i) else some b
            else best) acc = some (L, i) →
          kinds.getD i false = wantChain ∧ L = indeps.getD i 0 ∧
          (i ∈ l ∨ acc = some (L, i)) ∧
          (∀ j ∈ l, kinds.getD j false = wantChain → L ≤ indeps.getD j 0) ∧
          (∀ L0 i0, acc = some (L0, i0) → L ≤ L0))) := by
  intro l
  induction l with
  | nil =>
    intro acc hinv
    refine ⟨fun h => ⟨h, by simp⟩, fun L i h => ?_⟩
    simp only [List.foldl_nil] at h
    obtain ⟨hk, hL⟩ := hinv L i h
    refine ⟨hk, hL, Or.inr h, by simp, fun L0 i0 h0 => ?_⟩
    rw [h] at h0
    injection h0 with h0
    injection h0 with h1 h2
    omega
  | cons a rest ih =>
    intro acc hinv
    simp only [List.foldl_cons]
    set F : Option (Int × Nat) → Nat → Option (Int × Nat) :=
      (fun best i =>
        if kinds.getD i false = wantChain then
          let L := indeps.getD i 0
          match best with
          | none => some (L, i)
          | some b => if L < b.1 then some (L, i) else some b
        else best) with hF
    have hstep_skip : kinds.getD a false ≠ wantChain → ∀ acc0, F acc0 a = acc0 := by
      intro hka acc0
      simp only [hF]
      rw [if_neg hka]
    have hstep_none : kinds.getD a false = wantChain →
        F none a = some (indeps.getD a 0, a) := by
      intro hka
      simp only [hF]
      rw [if_pos hka]
    have hstep_lt : ∀ bL bi, kinds.getD a false = wantChain → indeps.getD a 0 < bL →
        F (some (bL, bi)) a = some (indeps.getD a 0, a) := by
      intro bL bi hka hlt
      simp only [hF]
      rw [if_pos hka]
      rw [if_pos hlt]
    have hstep_ge : ∀ bL bi, kinds.getD a false = wantChain → ¬indeps.getD a 0 < bL →
        F (some (bL, bi)) a = some (bL, bi) := by
      intro bL bi hka hlt
      simp only [hF]
      rw [if_pos hka]
      rw [if_neg hlt]
    have hacc1 : (F acc a = acc ∧ kinds.getD a false ≠ wantChain) ∨
        (∃ L1 i1, F acc a = some (L1, i1) ∧ kinds.getD i1 false = wantChain ∧
          L1 = indeps.getD i1 0 ∧ L1 ≤ indeps.getD a 0 ∧
          (i1 = a ∨ acc = some (L1, i1)) ∧
          (∀ L0 i0, acc = some (L0, i0) → L1 ≤ L0)) := by
      by_cases hka : kinds.getD a false = wantChain
      · right
        rcases acc with _ | ⟨bL, bi⟩
        · refine ⟨indeps.getD a 0, a, hstep_none hka, hka, rfl, le_refl _, Or.inl rfl, ?_⟩
          intro L0 i0 h0
          exact absurd h0 (by simp)
        · by_cases hlt : indeps.getD a 0 < bL
          · refine ⟨indeps.getD a 0, a, hstep_lt bL bi hka hlt, hka, rfl, le_refl _,
              Or.inl rfl, ?_⟩
            intro L0 i0 h0
            injection h0 with h0
            injection h0 with h1 h2
            omega
          · obtain ⟨hkb, hLb⟩ := hinv bL bi rfl
            refine ⟨bL, bi, hstep_ge bL bi hka hlt, hkb, hLb, by omega, Or.inr rfl, ?_⟩
            intro L0 i0 h0
            injection h0 with h0
            injection h0 with h1 h2
            omega
      · exact Or.inl ⟨hstep_skip hka acc, hka⟩
    have hinv1 : ∀ L i, F acc a = some (L, i) →
        kinds.getD i false = wantChain ∧ L = indeps.getD i 0 := by
      intro L i h
      rcases hacc1 with ⟨heq, _⟩ | ⟨L1, i1, heq, hk1, hL1, _, _, _⟩
      · rw [heq] at h
        exact hinv L i h
      · rw [heq] at h
        injection h with h
        injection h with h1 h2
        subst h1; subst h2
        exact ⟨hk1, hL1⟩
    obtain ⟨IHnone, IHsome⟩ := ih (F acc a) hinv1
    constructor
    · intro hres
      obtain ⟨h1, h2⟩ := IHnone hres
      rcases hacc1 with ⟨heq, hka⟩ | ⟨L1, i1, heq, _, _, _, _, _⟩
      · rw [heq] at h1
        refine ⟨h1, ?_⟩
        intro j hj
        rcases List.mem_cons.mp hj with rfl | hj2
        · exact hka
        · exact h2 j hj2
      · rw [heq] at h1
        exact absurd h1 (by simp)
    · intro L i hres
      obtain ⟨hk, hL, hmem, hmin, haccle⟩ := IHsome L i hres
      refine ⟨hk, hL, ?_, ?_, ?_⟩
      · rcases hmem with h | h
        · exact Or.inl (List.mem_cons_of_mem _ h)
        · rcases hacc1 with ⟨heq, _⟩ | ⟨L1, i1, heq, _, _, _, hor, _⟩
          · rw [heq] at h
            exact Or.inr h
          · rw [heq] at h
            injection h with h
            injection h with h1 h2
            subst h1; subst h2
            rcases hor with rfl | hsome
            · exact Or.inl (List.mem_cons_self _ _)
            · exact Or.inr hsome
      · intro j hj hkj
        rcases List.mem_cons.mp hj with rfl | hj2
        · rcases hacc1 with ⟨_, hka⟩ | ⟨L1, i1, heq, _, _, hle, _, _⟩
          · exact absurd hkj hka
          · have := haccle L1 i1 heq
            omega
        · exact hmin j hj2 hkj
      · intro L0 i0 h0
        rcases hacc1 with ⟨heq, _⟩ | ⟨L1, i1, heq, _, _, _, _, hlemax⟩
        · exact haccle L0 i0 (by rw [heq]; exact h0)
        · have h1 := haccle L1 i1 heq
          have h2 := hlemax L0 i0 h0
          omega

/-- C1: in `_negamax`'s child loop, for a parent whose mover sign is `±1`
and any successor produced by `listMoves`, the code's test
`whoToMove * child.whoToMove == -1` holds exactly when the mover sign
flips between parent and child; `childVal` — the per-child computation
used definitionally by `nmLoop`, hence by `negamax` — recurses with
negated value and swapped, negated bounds in exactly that case, and with
the same sign and the same bounds when the mover is unchanged (captures
that grant an extra turn). -/
theorem C1_negamax_sign_rule (s c : DotsAndBoxesState) (d : Nat)
    (alpha beta : NegVal) (hw : s.whoToMove = 1 ∨ s.whoToMove = -1)
    (hc : c ∈ s.listMoves) :
    (s.whoToMove * c.whoToMove = -1 ↔ c.whoToMove = -s.whoToMove) ∧
    (c.whoToMove = -s.whoToMove →
      childVal (fun ch a b => negamax ch d a b) s.whoToMove alpha beta c
        = (negamax c d beta.neg alpha.neg).neg) ∧
    (c.whoToMove = s.whoToMove →
      childVal (fun ch a b => negamax ch d a b) s.whoToMove alpha beta c
        = negamax c d alpha beta) := by
  have hcw := mem_listMoves_whoToMove s c hc
  have hprod : c.whoToMove = -s.whoToMove → s.whoToMove * c.whoToMove = -1 := by
    intro h1; rcases hw with h2 | h2 <;> rw [h1, h2] <;> norm_num
  have hprod2 : c.whoToMove = s.whoToMove → s.whoToMove * c.whoToMove = 1 := by
    intro h1; rcases hw with h2 | h2 <;> rw [h1, h2] <;> norm_num
  refine ⟨⟨?_, hprod⟩, ?_, ?_⟩
  · intro hp
    rcases hcw with h1 | h1
    · have := hprod2 h1; omega
    · exact h1
  · intro h1
    unfold childVal
    rw [if_pos (hprod h1)]
  · intro h1
    unfold childVal
    rw [if_neg (by have := hprod2 h1; omega)]

theorem C1_negamax_sign_rule_witness :
    (sampleLooney.whoToMove * (eatLooney sampleLooney).whoToMove = -1 ↔
        (eatLooney sampleLooney).whoToMove = -sampleLooney.whoToMove) ∧
    ((eatLooney sampleLooney).whoToMove = -sampleLooney.whoToMove →
      childVal (fun ch a b => negamax ch 1 a b) sampleLooney.whoToMove
          .ninf .pinf (eatLooney sampleLooney)
        = (negamax (eatLooney sampleLooney) 1 NegVal.pinf.neg NegVal.ninf.neg).neg) ∧
    ((eatLooney sampleLooney).whoToMove = sampleLooney.whoToMove →
      childVal (fun ch a b => negamax ch 1 a b) sampleLooney.whoToMove
          .ninf .pinf (eatLooney sampleLooney)
        = negamax (eatLooney sampleLooney) 1 .ninf .pinf) :=
  C1_negamax_sign_rule sampleLooney (eatLooney sampleLooney) 1 .ninf .pinf
    (Or.inl rfl) (by decide)

/-- C4: a position with a pending looney value has exactly the two
successors eat (same mover, score raised by the looney value) and give
(mover flipped, score negated then raised by the looney value), both with
the pending value cleared. -/
theorem C4_looney_moves (s : DotsAndBoxesState) (h : s.looneyValue > 0) :
    s.listMoves = [eatLooney s, giveLooney s] ∧
    (eatLooney s).whoToMove = s.whoToMove ∧
    (eatLooney s).score = s.score + s.looneyValue ∧
    (eatLooney s).looneyValue = 0 ∧
    (giveLooney s).whoToMove = -s.whoToMove ∧
    (giveLooney s).score = -s.score + s.looneyValue ∧
    (giveLooney s).looneyValue = 0 := by
  refine ⟨?_, rfl, rfl, rfl, rfl, rfl, rfl⟩
  unfold listMoves listMovesT
  rw [if_pos h]
  rfl

theorem C4_looney_moves_witness :
    sampleLooney.listMoves = [eatLooney sampleLooney, giveLooney sampleLooney] ∧
    (eatLooney sampleLooney).whoToMove = sampleLooney.whoToMove ∧
    (eatLooney sampleLooney).score = sampleLooney.score + sampleLooney.looneyValue ∧
    (eatLooney sampleLooney).looneyValue = 0 ∧
    (giveLooney sampleLooney).whoToMove = -sampleLooney.whoToMove ∧
    (giveLooney sampleLooney).score = -sampleLooney.score + sampleLooney.looneyValue ∧
    (giveLooney sampleLooney).looneyValue = 0 :=
  C4_looney_moves sampleLooney (by decide)

/-- C6: at depth 0, and on finished positions at any depth, the search
returns `evaluate`; `evaluate` is the score scaled by 100 when no looney
value is pending, and `100 * (score + ceil(numBoxesLeft / 2))` when one
is (the remaining boxes are credited half, rounded up, toward the
mover). -/
theorem C6_terminal_evaluation (s : DotsAndBoxesState) (alpha beta : NegVal) :
    negamax s 0 alpha beta = .fin s.evaluate ∧
    (∀ d : Nat, s.gameIsOver = true → negamax s d alpha beta = .fin s.evaluate) ∧
    (s.looneyValue ≠ 0 → 0 ≤ s.numBoxesLeft →
      s.evaluate = 100 * (s.score + (s.numBoxesLeft + 1) / 2)) ∧
    (s.looneyValue = 0 → s.evaluate = 100 * s.score) := by
  refine ⟨rfl, ?_, ?_, ?_⟩
  · intro d hover
    cases d with
    | zero => rfl
    | succ d =>
      rw [negamax_succ]
      unfold negamaxStep
      rw [if_pos hover]
  · intro hl hnn
    unfold evaluate
    dsimp only
    rw [if_pos hl]
    omega
  · intro hl
    unfold evaluate
    dsimp only
    rw [if_neg (by simp [hl])]
    ring

theorem C6_terminal_evaluation_witness :
    negamax sampleLooney 0 .ninf .pinf = .fin sampleLooney.evaluate ∧
    (sampleLooney.gameIsOver = true →
      negamax sampleLooney 3 .ninf .pinf = .fin sampleLooney.evaluate) ∧
    sampleLooney.evaluate = 100 * (sampleLooney.score + (sampleLooney.numBoxesLeft + 1) / 2) ∧
    (sampleFlat.looneyValue = 0 → sampleFlat.evaluate = 100 * sampleFlat.score) :=
  ⟨(C6_terminal_evaluation sampleLooney .ninf .pinf).1,
   (C6_terminal_evaluation sampleLooney .ninf .pinf).2.1 3,
   (C6_terminal_evaluation sampleLooney .ninf .pinf).2.2.1 (by decide) (by decide),
   (C6_terminal_evaluation sampleFlat .ninf .pinf).2.2.2⟩

/-- C2: whenever the legal-move list is non-empty, `make_move` returns a
member of it.  The proof covers every solver outcome: a legal proposal is
returned as-is; a failed solver call (modelled by `none`, standing for a
raised exception) and an illegal proposal both fall back to a random
element of the list instead of propagating an error. -/
theorem C2_make_move_legal (gs : GameState) (pick : Nat)
    (h : gs.available_moves ≠ []) :
    ∃ mv, make_move gs pick = some mv ∧ mv ∈ gs.available_moves := by
  have hlen : 0 < gs.available_moves.length := List.length_pos.mpr h
  have hm : pick % gs.available_moves.length < gs.available_moves.length :=
    Nat.mod_lt _ hlen
  have hfb : ∃ mv,
      gs.available_moves.get? (pick % gs.available_moves.length) = some mv ∧
        mv ∈ gs.available_moves := by
    refine ⟨gs.available_moves.get ⟨_, hm⟩, ?_, List.get_mem _ _ _⟩
    exact List.get?_eq_get hm
  unfold make_move
  cases hco : considerOf gs with
  | none => exact hfb
  | some mv =>
    by_cases hmem : mv ∈ gs.available_moves
    · exact ⟨mv, by simp [hmem], hmem⟩
    · simp only [if_neg hmem]
      exact hfb

theorem C2_make_move_legal_witness :
    ∃ mv, make_move sampleGameState 0 = some mv ∧
      mv ∈ sampleGameState.available_moves :=
  C2_make_move_legal sampleGameState 0 (by decide)

/-- C10: the solver path is deterministic.  `consider` is a pure function
of `(hLines, vLines, currentScore)` — the source consults no randomness,
no clock, and no mutable global state on that path (the node counters it
increments are write-only) — so two invocations on equal inputs return
the identical triple; and the `pick` argument standing for the single
`random.choice` call influences `make_move` only on the fallback path:
when the solver returns a legal move the result is independent of it. -/
theorem C10_solver_deterministic (gs : GameState) (p1 p2 : Nat)
    (h : ∃ mv, considerOf gs = some mv ∧ mv ∈ gs.available_moves) :
    make_move gs p1 = make_move gs p2 ∧
    (∀ h2 v2 c2, h2 = (builtBoards gs).1 → v2 = (builtBoards gs).2 →
      c2 = currentScoreOf gs → consider h2 v2 c2 = considerOf gs) := by
  obtain ⟨mv, hco, hmem⟩ := h
  constructor
  · unfold make_move
    rw [hco]
    simp [hmem]
  · intro h2 v2 c2 hh hv hc
    subst hh; subst hv; subst hc
    rfl

theorem allocAll_heaps (l : List DotsAndBoxesState) :
    ∀ (hi : List (List Int)) (hb : List (List Bool)),
      ∃ e1 e2, (allocAll l hi hb).2.1 = hi ++ e1 ∧ (allocAll l hi hb).2.2 = hb ++ e2 := by
  induction l with
  | nil =>
    intro hi hb
    exact ⟨[], [], by simp [allocAll], by simp [allocAll]⟩
  | cons s rest ih =>
    intro hi hb
    obtain ⟨e1, e2, h1, h2⟩ :=
      ih (hi ++ [s.otherHe, s.nextHe, s.heLengths, s.indeps]) (hb ++ [s.indepAreChains])
    refine ⟨[s.otherHe, s.nextHe, s.heLengths, s.indeps] ++ e1,
            [s.indepAreChains] ++ e2, ?_, ?_⟩
    · simp only [allocAll, allocState]
      rw [h1, List.append_assoc]
    · simp only [allocAll, allocState]
      rw [h2, List.append_assoc]

theorem allocAll_fresh (l : List DotsAndBoxesState) :
    ∀ (hi : List (List Int)) (hb : List (List Bool)) (c : StateRef),
      c ∈ (allocAll l hi hb).1 →
        (∀ p ∈ intPtrs c, hi.length ≤ p) ∧ hb.length ≤ c.pChains := by
  induction l with
  | nil =>
    intro hi hb c hc
    simp [allocAll] at hc
  | cons s rest ih =>
    intro hi hb c hc
    simp only [allocAll, allocState] at hc
    rcases List.mem_cons.mp hc with rfl | hc
    · constructor
      · intro p hp
        simp only [intPtrs, List.mem_cons, List.not_mem_nil, or_false] at hp
        rcases hp with rfl | rfl | rfl | rfl <;> omega
      · exact Nat.le_refl _
    · have h := ih _ _ c hc
      constructor
      · intro p hp
        have h2 := h.1 p hp
        simp only [List.length_append, List.length_cons, List.length_nil] at h2
        omega
      · have h2 := h.2
        simp only [List.length_append, List.length_cons, List.length_nil] at h2
        omega

theorem getD_set_ne {α : Type} (l : List α) (p q : Nat) (v : α) (d : α)
    (h : p ≠ q) : (l.set p v).getD q d = l.getD q d := by
  simp [List.getD_eq_getElem?_getD, List.getElem?_set_ne h]

theorem getD_append_lt {α : Type} (l e : List α) (p : Nat) (d : α)
    (h : p < l.length) : (l ++ e).getD p d = l.getD p d := by
  simp [List.getD_eq_getElem?_getD, List.getElem?_append_left h]

/-- C9: generating successors neither mutates the parent nor aliases it.
In the heap model of Python's list store, after `s.listMoves()` the
parent's dereferenced fields are unchanged, every successor's five array
pointers are freshly allocated (outside the parent's pointers), and
writing in place through any successor array leaves the parent's
dereferenced state untouched. -/
theorem C9_listMoves_no_mutation (r : StateRef) (hi : List (List Int))
    (hb : List (List Bool)) (hvi : ∀ p ∈ intPtrs r, p < hi.length)
    (hvb : r.pChains < hb.length) :
    readRef (heapListMoves r hi hb).2.1 (heapListMoves r hi hb).2.2 r
        = readRef hi hb r ∧
    (∀ c ∈ (heapListMoves r hi hb).1,
      (∀ p ∈ intPtrs c, hi.length ≤ p ∧ p ∉ intPtrs r) ∧
        hb.length ≤ c.pChains ∧ c.pChains ≠ r.pChains) ∧
    (∀ c ∈ (heapListMoves r hi hb).1, ∀ p ∈ intPtrs c, ∀ i v,
      readRef (heapWrite (heapListMoves r hi hb).2.1 p i v)
          (heapListMoves r hi hb).2.2 r
        = readRef hi hb r) := by
  obtain ⟨e1, e2, h1, h2⟩ := allocAll_heaps (readRef hi hb r).listMoves hi hb
  have hO : r.pOther < hi.length := hvi _ (by simp [intPtrs])
  have hN : r.pNext < hi.length := hvi _ (by simp [intPtrs])
  have hL : r.pLen < hi.length := hvi _ (by simp [intPtrs])
  have hI : r.pIndeps < hi.length := hvi _ (by simp [intPtrs])
  have hread : readRef (hi ++ e1) (hb ++ e2) r = readRef hi hb r := by
    unfold readRef
    rw [getD_append_lt _ _ _ _ hO, getD_append_lt _ _ _ _ hN,
        getD_append_lt _ _ _ _ hL, getD_append_lt _ _ _ _ hI,
        getD_append_lt _ _ _ _ hvb]
  have hfresh := fun c hc => allocAll_fresh (readRef hi hb r).listMoves hi hb c hc
  refine ⟨?_, ?_, ?_⟩
  · show readRef (allocAll _ hi hb).2.1 (allocAll _ hi hb).2.2 r = _
    rw [h1, h2]; exact hread
  · intro c hc
    obtain ⟨hcp, hcb⟩ := hfresh c hc
    refine ⟨fun p hp => ⟨hcp p hp, fun hmem => ?_⟩, hcb, ?_⟩
    · have := hvi p hmem
      have := hcp p hp
      omega
    · have := hvb; omega
  · intro c hc p hp i v
    have hple := (hfresh c hc).1 p hp
    show readRef (heapWrite (allocAll _ hi hb).2.1 p i v) (allocAll _ hi hb).2.2 r = _
    rw [h1, h2]
    unfold heapWrite readRef
    rw [getD_set_ne _ _ _ _ _ (by omega), getD_set_ne _ _ _ _ _ (by omega),
        getD_set_ne _ _ _ _ _ (by omega), getD_set_ne _ _ _ _ _ (by omega)]
    rw [getD_append_lt _ _ _ _ hO, getD_append_lt _ _ _ _ hN,
        getD_append_lt _ _ _ _ hL, getD_append_lt _ _ _ _ hI,
        getD_append_lt _ _ _ _ hvb]

theorem C9_listMoves_no_mutation_witness :
    readRef (heapListMoves ⟨0, 1, 2, 3, 0, 2, 0, 1⟩ [[], [], [], []] [[]]).2.1
        (heapListMoves ⟨0, 1, 2, 3, 0, 2, 0, 1⟩ [[], [], [], []] [[]]).2.2
        ⟨0, 1, 2, 3, 0, 2, 0, 1⟩
      = readRef [[], [], [], []] [[]] ⟨0, 1, 2, 3, 0, 2, 0, 1⟩ ∧
    (∀ c ∈ (heapListMoves ⟨0, 1, 2, 3, 0, 2, 0, 1⟩ [[], [], [], []] [[]]).1,
      (∀ p ∈ intPtrs c, 4 ≤ p ∧ p ∉ intPtrs ⟨0, 1, 2, 3, 0, 2, 0, 1⟩) ∧
        1 ≤ c.pChains ∧ c.pChains ≠ 0) ∧
    (∀ c ∈ (heapListMoves ⟨0, 1, 2, 3, 0, 2, 0, 1⟩ [[], [], [], []] [[]]).1,
      ∀ p ∈ intPtrs c, ∀ i v,
        readRef (heapWrite (heapListMoves ⟨0, 1, 2, 3, 0, 2, 0, 1⟩ [[], [], [], []] [[]]).2.1 p i v)
            (heapListMoves ⟨0, 1, 2, 3, 0, 2, 0, 1⟩ [[], [], [], []] [[]]).2.2
            ⟨0, 1, 2, 3, 0, 2, 0, 1⟩
          = readRef [[], [], [], []] [[]] ⟨0, 1, 2, 3, 0, 2, 0, 1⟩) :=
  C9_listMoves_no_mutation ⟨0, 1, 2, 3, 0, 2, 0, 1⟩ [[], [], [], []] [[]]
    (by decide) (by decide)

/-- When some index in the scan list is a forced capture, the free-square
scan stops early at a forced capture, whatever it has accumulated. -/
theorem classify_early_of_forced (g : DotsAndBoxesState) :
    ∀ (l : List Nat) (loops chains : List Int) (lo : Option Int),
      (∃ heN ∈ l, forcedAt g (heN : Int)) →
      ∃ he0 : Nat, forcedAt g (he0 : Int) ∧
        classifyGo g l loops chains lo = .early (he0 : Int) := by
  intro l
  induction l with
  | nil =>
    intro loops chains lo h
    simp at h
  | cons heN rest ih =>
    intro loops chains lo h
    by_cases h1 : pyGet g.nextHe (heN : Int) = (heN : Int)
    · by_cases h2 : pyGet g.nextHe (pyGet g.otherHe (heN : Int))
          = pyGet g.otherHe (heN : Int)
      · by_cases h3 : pyGet g.heLengths (heN : Int) ≠ 2
        · refine ⟨heN, ⟨h1, Or.inl ⟨h2, h3⟩⟩, ?_⟩
          simp only [classifyGo]
          rw [if_pos h1, if_pos h2, if_pos h3]
        · have hrest : ∃ m ∈ rest, forcedAt g (m : Int) := by
            obtain ⟨m, hm, hfm⟩ := h
            rcases List.mem_cons.mp hm with rfl | hm2
            · exfalso
              rcases hfm.2 with ⟨_, hlen⟩ | ⟨hne, _⟩
              · exact h3 hlen
              · exact hne h2
            · exact ⟨m, hm2, hfm⟩
          obtain ⟨he0, hf0, heq⟩ :=
            ih (loops ++ [(heN : Int)]) chains (some (heN : Int)) hrest
          refine ⟨he0, hf0, ?_⟩
          simp only [classifyGo]
          rw [if_pos h1, if_pos h2, if_neg h3]
          exact heq
      · by_cases h3 : pyGet g.heLengths (heN : Int) ≠ 1
        · refine ⟨heN, ⟨h1, Or.inr ⟨h2, h3⟩⟩, ?_⟩
          simp only [classifyGo]
          rw [if_pos h1, if_neg h2, if_pos h3]
        · have hrest : ∃ m ∈ rest, forcedAt g (m : Int) := by
            obtain ⟨m, hm, hfm⟩ := h
            rcases List.mem_cons.mp hm with rfl | hm2
            · exfalso
              rcases hfm.2 with ⟨heq2, _⟩ | ⟨_, hlen⟩
              · exact h2 heq2
              · exact h3 hlen
            · exact ⟨m, hm2, hfm⟩
          obtain ⟨he0, hf0, heq⟩ :=
            ih loops (chains ++ [(heN : Int)]) (some (heN : Int)) hrest
          refine ⟨he0, hf0, ?_⟩
          simp only [classifyGo]
          rw [if_pos h1, if_neg h2, if_neg h3]
          exact heq
    · have hrest : ∃ m ∈ rest, forcedAt g (m : Int) := by
        obtain ⟨m, hm, hfm⟩ := h
        rcases List.mem_cons.mp hm with rfl | hm2
        · exact absurd hfm.1 h1
        · exact ⟨m, hm2, hfm⟩
      obtain ⟨he0, hf0, heq⟩ := ih loops chains lo hrest
      refine ⟨he0, hf0, ?_⟩
      simp only [classifyGo]
      rw [if_neg h1]
      exact heq

/-- C7: `_consider` short-circuits to a forced move, never reaching the
search phase, whenever the fully contracted root holds a capturable
half-edge off the looney size (a broken loop of cached length other than
2 or a broken chain of length other than 1), and also when the scan ends
with both a looney chain and a looney loop, more than one looney chain,
or more than two looney loops (returning the first loop, the first
chain, and the first loop respectively). -/
theorem C7_forced_short_circuit (hL vL : List (List Bool)) (cs : Int) :
    ((∃ heN : Nat, heN < (simplifyPass (buildRoot hL vL).2).1.nextHe.length ∧
        forcedAt (simplifyPass (buildRoot hL vL).2).1 (heN : Int)) →
      ∃ he0 : Nat, forcedAt (simplifyPass (buildRoot hL vL).2).1 (he0 : Int) ∧
        considerOutcome hL vL cs
          = .forced (decodeMove (buildRoot hL vL).1 (he0 : Int))) ∧
    (∀ loops chains lhe,
      classify (simplifyPass (buildRoot hL vL).2).1 = .done loops chains lhe →
      (chains ≠ [] ∧ loops ≠ [] →
        considerOutcome hL vL cs
          = .forced (decodeMove (buildRoot hL vL).1 (loops.headD REMOVED))) ∧
      (loops = [] → chains.length > 1 →
        considerOutcome hL vL cs
          = .forced (decodeMove (buildRoot hL vL).1 (chains.headD REMOVED))) ∧
      (chains = [] → loops.length > 2 →
        considerOutcome hL vL cs
          = .forced (decodeMove (buildRoot hL vL).1 (loops.headD REMOVED)))) := by
  constructor
  · intro ⟨heN, hlt, hf⟩
    obtain ⟨he0, hf0, heq⟩ :=
      classify_early_of_forced (simplifyPass (buildRoot hL vL).2).1
        (List.range (simplifyPass (buildRoot hL vL).2).1.nextHe.length) [] [] none
        ⟨heN, List.mem_range.mpr hlt, hf⟩
    refine ⟨he0, hf0, ?_⟩
    unfold considerOutcome
    dsimp only
    rw [show classify (simplifyPass (buildRoot hL vL).2).1
          = .early (he0 : Int) from heq]
  · intro loops chains lhe hcl
    refine ⟨?_, ?_, ?_⟩
    · intro ⟨hch, hlo⟩
      unfold considerOutcome
      dsimp only
      simp only [hcl]
      rw [if_pos ⟨List.length_pos.mpr hch, List.length_pos.mpr hlo⟩]
    · intro hlo hch
      unfold considerOutcome
      dsimp only
      simp only [hcl]
      rw [if_neg (by simp [hlo]), if_pos hch]
    · intro hch hlo
      unfold considerOutcome
      dsimp only
      simp only [hcl]
      rw [if_neg (by simp [hch]), if_neg (by simp [hch]), if_pos hlo]

theorem C7_forced_short_circuit_witness :
    ∃ he0 : Nat,
      forcedAt (simplifyPass (buildRoot sampleForcedH sampleForcedV).2).1 (he0 : Int) ∧
      considerOutcome sampleForcedH sampleForcedV 0
        = .forced (decodeMove (buildRoot sampleForcedH sampleForcedV).1 (he0 : Int)) :=
  (C7_forced_short_circuit sampleForcedH sampleForcedV 0).1 ⟨0, by decide, by decide⟩

set_option maxRecDepth 1000000 in
theorem C10_solver_deterministic_witness :
    make_move sampleGameState 5 = make_move sampleGameState 99 ∧
    (∀ h2 v2 c2, h2 = (builtBoards sampleGameState).1 →
      v2 = (builtBoards sampleGameState).2 →
      c2 = currentScoreOf sampleGameState →
      consider h2 v2 c2 = considerOf sampleGameState) :=
  C10_solver_deterministic sampleGameState 5 99
    ⟨⟨1, 1, true⟩, by decide, by decide⟩

/-- Specification of the strict-minimum scan: `none` means no component of
the requested kind exists; `some (L, i)` is a first minimal component of
that kind. -/
theorem argminIndep_spec (indeps : List Int) (kinds : List Bool) (wantChain : Bool) :
    (argminIndep indeps kinds wantChain = none →
       ∀ j : Nat, j < indeps.length → kinds.getD j false ≠ wantChain) ∧
    (∀ L i, argminIndep indeps kinds wantChain = some (L, i) →
       i < indeps.length ∧ kinds.getD i false = wantChain ∧ L = indeps.getD i 0 ∧
       (∀ j : Nat, j < indeps.length → kinds.getD j false = wantChain →
          L ≤ indeps.getD j 0)) := by
  unfold argminIndep
  have h := argminFold_spec indeps kinds wantChain (List.range indeps.length) none
    (by intro L i hx; exact absurd hx (by simp))
  constructor
  · intro hn j hj
    exact (h.1 hn).2 j (List.mem_range.mpr hj)
  · intro L i hs
    obtain ⟨hk, hL, hmem, hmin, _⟩ := h.2 L i hs
    refine ⟨?_, hk, hL, fun j hj hkj => hmin j (List.mem_range.mpr hj) hkj⟩
    rcases hmem with hm | hm
    · exact List.mem_range.mp hm
    · exact absurd hm (by simp)

/-- The break tag of component `i` decodes back to `i`'s kind. -/
theorem breakKind_breakIndep (s : DotsAndBoxesState) (i : Nat) :
    breakKind s (breakIndep s i).1 = s.indepAreChains.getD i false := by
  have h1 : (breakIndep s i).1 = -GIVEINDEP - (i : Int) := (breakIndep_fields s i).2
  rw [breakKind, h1]
  have h2 : (-(-GIVEINDEP - (i : Int)) - GIVEINDEP).toNat = i := by
    unfold GIVEINDEP
    omega
  rw [h2]

/-- Structure of the break moves: at most two, each a first-minimal
independent component of its kind, and at most one of each kind. -/
theorem breaksOf_spec (s : DotsAndBoxesState) :
    (breaksOf s).length ≤ 2 ∧
    (∀ p ∈ breaksOf s, ∃ i : Nat, p = breakIndep s i ∧ i < s.indeps.length ∧
       s.indepAreChains.getD i false = breakKind s p.1 ∧
       (∀ j : Nat, j < s.indeps.length →
          s.indepAreChains.getD j false = s.indepAreChains.getD i false →
          s.indeps.getD i 0 ≤ s.indeps.getD j 0)) ∧
    ((breaksOf s).filter (fun p => breakKind s p.1)).length ≤ 1 ∧
    ((breaksOf s).filter (fun p => ! breakKind s p.1)).length ≤ 1 := by
  have hLs := (argminIndep_spec s.indeps s.indepAreChains false).2
  have hCs := (argminIndep_spec s.indeps s.indepAreChains true).2
  unfold breaksOf
  cases hL : argminIndep s.indeps s.indepAreChains false with
  | none =>
    cases hC : argminIndep s.indeps s.indepAreChains true with
    | none =>
      refine ⟨by simp, ?_, by simp, by simp⟩
      intro p hp
      simp at hp
    | some bC =>
      obtain ⟨hilt, hik, hiL, himin⟩ := hCs bC.1 bC.2 (by rw [hC])
      refine ⟨by simp, ?_, ?_, ?_⟩
      · intro p hp
        simp only [List.nil_append, List.mem_singleton] at hp
        subst hp
        refine ⟨bC.2, rfl, hilt, ?_, ?_⟩
        · rw [breakKind_breakIndep, hik]
        · intro j hj hkj
          rw [hik] at hkj
          rw [← hiL]
          exact himin j hj hkj
      · exact le_trans (List.length_filter_le _ _) (by simp)
      · exact le_trans (List.length_filter_le _ _) (by simp)
  | some bL =>
    obtain ⟨hllt, hlk, hlL, hlmin⟩ := hLs bL.1 bL.2 (by rw [hL])
    cases hC : argminIndep s.indeps s.indepAreChains true with
    | none =>
      refine ⟨by simp, ?_, ?_, ?_⟩
      · intro p hp
        simp only [List.append_nil, List.mem_singleton] at hp
        subst hp
        refine ⟨bL.2, rfl, hllt, ?_, ?_⟩
        · rw [breakKind_breakIndep, hlk]
        · intro j hj hkj
          rw [hlk] at hkj
          rw [← hlL]
          exact hlmin j hj hkj
      · exact le_trans (List.length_filter_le _ _) (by simp)
      · exact le_trans (List.length_filter_le _ _) (by simp)
    | some bC =>
      obtain ⟨hilt, hik, hiL, himin⟩ := hCs bC.1 bC.2 (by rw [hC])
      refine ⟨by simp, ?_, ?_, ?_⟩
      · intro p hp
        simp only [List.cons_append, List.nil_append, List.mem_cons,
          List.not_mem_nil, or_false] at hp
        rcases hp with rfl | rfl
        · refine ⟨bL.2, rfl, hllt, ?_, ?_⟩
          · rw [breakKind_breakIndep, hlk]
          · intro j hj hkj
            rw [hlk] at hkj
            rw [← hlL]
            exact hlmin j hj hkj
        · refine ⟨bC.2, rfl, hilt, ?_, ?_⟩
          · rw [breakKind_breakIndep, hik]
          · intro j hj hkj
            rw [hik] at hkj
            rw [← hiL]
            exact himin j hj hkj
      · have e1 : breakKind s (breakIndep s bL.2).1 = false := by
          rw [breakKind_breakIndep]; exact hlk
        have e2 : breakKind s (breakIndep s bC.2).1 = true := by
          rw [breakKind_breakIndep]; exact hik
        simp [List.filter_cons, e1, e2]
      · have e1 : breakKind s (breakIndep s bL.2).1 = false := by
          rw [breakKind_breakIndep]; exact hlk
        have e2 : breakKind s (breakIndep s bC.2).1 = true := by
          rw [breakKind_breakIndep]; exact hik
        simp [List.filter_cons, e1, e2]

/-- C5: from a position with no pending looney value, `listMoves` emits
the per-link successors followed by the break successors: exactly one
successor per live partner pair (the direction not deferring to a larger
partner; boundary half-edges, whose partner is the `DEADEND` sentinel,
are emitted alone), each flipping the mover, negating the score and
crediting the computed link length — in full when at most 2, else
`length - 2` with the successor's looney value set to 2 — plus at most
one break of a first-minimal independent loop and at most one of a
first-minimal independent chain. -/
theorem C5_listMoves_structure (s : DotsAndBoxesState) (h : s.looneyValue = 0) :
    s.listMovesT = linkSuccs s ++ breaksOf s ∧
    (∀ (t : Int) (c : DotsAndBoxesState), (t, c) ∈ linkSuccs s ↔
       (0 ≤ t ∧ t < (s.otherHe.length : Int) ∧ pyGet s.otherHe t ≠ REMOVED ∧
        ¬(t < pyGet s.otherHe t) ∧ c = linkSucc s t)) ∧
    (∀ a b : Int, 0 ≤ a → a < b → b < (s.otherHe.length : Int) →
       pyGet s.otherHe a = b → pyGet s.otherHe b = a →
       ((b, linkSucc s b) ∈ linkSuccs s ∧ ∀ c, (a, c) ∉ linkSuccs s)) ∧
    (∀ (t : Int) (c : DotsAndBoxesState), (t, c) ∈ linkSuccs s →
       c.whoToMove = -s.whoToMove ∧
       ((linkLenHe3 s t (pyGet s.otherHe t)).1 ≤ 2 →
         c.score = -s.score + (linkLenHe3 s t (pyGet s.otherHe t)).1 ∧
         c.looneyValue = 0) ∧
       (2 < (linkLenHe3 s t (pyGet s.otherHe t)).1 →
         c.score = -s.score + ((linkLenHe3 s t (pyGet s.otherHe t)).1 - 2) ∧
         c.looneyValue = 2)) ∧
    ((breaksOf s).length ≤ 2 ∧
     (∀ p ∈ breaksOf s, ∃ i : Nat, p = breakIndep s i ∧ i < s.indeps.length ∧
        s.indepAreChains.getD i false = breakKind s p.1 ∧
        (∀ j : Nat, j < s.indeps.length →
           s.indepAreChains.getD j false = s.indepAreChains.getD i false →
           s.indeps.getD i 0 ≤ s.indeps.getD j 0)) ∧
     ((breaksOf s).filter (fun p => breakKind s p.1)).length ≤ 1 ∧
     ((breaksOf s).filter (fun p => ! breakKind s p.1)).length ≤ 1) := by
  refine ⟨?_, mem_linkSuccs s, ?_, ?_, breaksOf_spec s⟩
  · unfold listMovesT
    rw [if_neg (by omega)]
  · intro a b h0 hab hbl hoa hob
    constructor
    · refine (mem_linkSuccs s b (linkSucc s b)).mpr ⟨by omega, hbl, ?_, ?_, rfl⟩
      · rw [hob, show REMOVED = (-2 : Int) from rfl]
        omega
      · rw [hob]
        omega
    · intro c hc
      obtain ⟨_, _, _, hdir, _⟩ := (mem_linkSuccs s a c).mp hc
      rw [hoa] at hdir
      exact hdir hab
  · intro t c hc
    obtain ⟨_, _, _, _, rfl⟩ := (mem_linkSuccs s t c).mp hc
    exact ⟨linkSucc_whoToMove s t,
      fun hle => linkSucc_score_low s t (by omega),
      fun hgt => linkSucc_score_high s t hgt⟩

theorem C5_listMoves_structure_witness :
    sampleFlat.listMovesT = linkSuccs sampleFlat ++ breaksOf sampleFlat ∧
    (∀ (t : Int) (c : DotsAndBoxesState), (t, c) ∈ linkSuccs sampleFlat ↔
       (0 ≤ t ∧ t < (sampleFlat.otherHe.length : Int) ∧
        pyGet sampleFlat.otherHe t ≠ REMOVED ∧
        ¬(t < pyGet sampleFlat.otherHe t) ∧ c = linkSucc sampleFlat t)) ∧
    (∀ a b : Int, 0 ≤ a → a < b → b < (sampleFlat.otherHe.length : Int) →
       pyGet sampleFlat.otherHe a = b → pyGet sampleFlat.otherHe b = a →
       ((b, linkSucc sampleFlat b) ∈ linkSuccs sampleFlat ∧
        ∀ c, (a, c) ∉ linkSuccs sampleFlat)) ∧
    (∀ (t : Int) (c : DotsAndBoxesState), (t, c) ∈ linkSuccs sampleFlat →
       c.whoToMove = -sampleFlat.whoToMove ∧
       ((linkLenHe3 sampleFlat t (pyGet sampleFlat.otherHe t)).1 ≤ 2 →
         c.score = -sampleFlat.score +
           (linkLenHe3 sampleFlat t (pyGet sampleFlat.otherHe t)).1 ∧
         c.looneyValue = 0) ∧
       (2 < (linkLenHe3 sampleFlat t (pyGet sampleFlat.otherHe t)).1 →
         c.score = -sampleFlat.score +
           ((linkLenHe3 sampleFlat t (pyGet sampleFlat.otherHe t)).1 - 2) ∧
         c.looneyValue = 2)) ∧
    ((breaksOf sampleFlat).length ≤ 2 ∧
     (∀ p ∈ breaksOf sampleFlat, ∃ i : Nat, p = breakIndep sampleFlat i ∧
        i < sampleFlat.indeps.length ∧
        sampleFlat.indepAreChains.getD i false = breakKind sampleFlat p.1 ∧
        (∀ j : Nat, j < sampleFlat.indeps.length →
           sampleFlat.indepAreChains.getD j false
             = sampleFlat.indepAreChains.getD i false →
           sampleFlat.indeps.getD i 0 ≤ sampleFlat.indeps.getD j 0)) ∧
     ((breaksOf sampleFlat).filter (fun p => breakKind sampleFlat p.1)).length ≤ 1 ∧
     ((breaksOf sampleFlat).filter (fun p => ! breakKind sampleFlat p.1)).length ≤ 1) :=
  C5_listMoves_structure sampleFlat rfl

set_option maxRecDepth 1000000 in
/-- C8 counterexample: on the 7x1 board whose box `B0` has exactly 3 of 4
sides drawn (behind a half-open 2-chain, next to an independent 5-chain),
the engine returns the conceding move `(1, 1, H)`, which completes no box:
the claim "always returns a move that completes a box" fails on the code
in the hot/loony regime when the search prefers the give resolution. -/
theorem C8_capture_counterexample :
    hasThreeSidedBox 7 1 sampleGiveH sampleGiveV = true ∧
    consider sampleGiveH sampleGiveV 0 = some ⟨1, 1, true⟩ ∧
    completesBox 7 1 sampleGiveH sampleGiveV ⟨1, 1, true⟩ = false :=
  ⟨by decide, by decide, by decide⟩

/-- C8 (amended): in the hot/loony regime the returned move is decoded
from whichever looney resolution the deepening search ranks first:
whenever the scan classifies the root as loony (no short-circuit) and the
loop leaves `EATLOONEY` on top, the returned move is the looney
half-edge's own decoded edge; when it leaves `GIVELOONEY` on top it is
the conceding pre-contraction edge (the partner's rotation successor),
which need not complete a box. -/
theorem C8_looney_decode (hL vL : List (List Bool)) (cs : Int)
    (loops chains : List Int) (lhe : Int)
    (g1 g2 g3 root : DotsAndBoxesState) (bestEdgeHe : Int)
    (hcl : classify (simplifyPass (buildRoot hL vL).2).1 = .done loops chains (some lhe))
    (hn1 : ¬(chains.length > 0 ∧ loops.length > 0))
    (hn2 : ¬chains.length > 1)
    (hn3 : ¬loops.length > 2)
    (hg1 : g1 = if chains.length = 1
        then { (simplifyPass (buildRoot hL vL).2).1 with looneyValue := 2 }
        else (simplifyPass (buildRoot hL vL).2).1)
    (hg2 : g2 = if loops.length = 2 then { g1 with looneyValue := 4 } else g1)
    (hg3 : g3 = if g2.looneyValue > 0 then
        (let oHe := pyGet g2.otherHe lhe
         let ga := g2.removeHe lhe
         if oHe ≠ DEADEND then
           let noHe := pyGet ga.nextHe oHe
           (ga.removeHe oHe).simplifyLink noHe
         else ga)
      else g2)
    (hroot : root = { g3 with score := cs, whoToMove := 1 })
    (hlv : root.looneyValue > 0)
    (hbest : bestEdgeHe
      = ((searchLoop ((EATLOONEY, eatLooney root, NegVal.ninf)
            :: [(GIVELOONEY, giveLooney root, NegVal.ninf)]) 9).headD
          (0, root, NegVal.ninf)).1) :
    (bestEdgeHe = EATLOONEY →
       considerOutcome hL vL cs
         = .searched (decodeMove (buildRoot hL vL).1 lhe)) ∧
    (bestEdgeHe = GIVELOONEY →
       considerOutcome hL vL cs
         = .searched (decodeMove (buildRoot hL vL).1
             (pyGet (buildRoot hL vL).2.nextHe
               (pyGet (buildRoot hL vL).2.otherHe lhe)))) := by
  have hlm : root.listMovesT
      = [(EATLOONEY, eatLooney root), (GIVELOONEY, giveLooney root)] := by
    unfold DotsAndBoxesState.listMovesT
    rw [if_pos hlv]
  have hmain : considerOutcome hL vL cs
      = .searched
          (if bestEdgeHe = EATLOONEY then decodeMove (buildRoot hL vL).1 lhe
           else if bestEdgeHe = GIVELOONEY then
             decodeMove (buildRoot hL vL).1
               (pyGet (buildRoot hL vL).2.nextHe
                 (pyGet (buildRoot hL vL).2.otherHe lhe))
           else none) := by
    unfold considerOutcome
    dsimp only
    simp only [hcl]
    rw [if_neg hn1, if_neg hn2, if_neg hn3]
    rw [← hg1, ← hg2, ← hg3, ← hroot]
    rw [hlm]
    dsimp only [List.map_cons, List.map_nil]
    rw [← hbest]
    have hlv3 : g3.looneyValue > 0 := by
      rw [hroot] at hlv
      exact hlv
    rw [if_pos hlv3]
  refine ⟨?_, ?_⟩
  · intro hb
    rw [hmain, if_pos hb]
  · intro hb
    have hne : bestEdgeHe ≠ EATLOONEY := by
      rw [hb]
      unfold GIVELOONEY EATLOONEY
      omega
    rw [hmain, if_neg hne, if_pos hb]

set_option maxRecDepth 1000000 in
theorem C8_looney_decode_witness :
    considerOutcome sampleEatH sampleEatV 0
      = .searched (decodeMove (buildRoot sampleEatH sampleEatV).1 0) :=
  (C8_looney_decode sampleEatH sampleEatV 0 [] [0] 0 _ _ _ _ _
      (by decide) (by decide) (by decide) (by decide) rfl rfl rfl rfl
      (by decide) rfl).1 (by decide)

/-!
### Claim C3: index bridge lemmas

`pyGet`/`pySet` resolved at natural-number indices: the bridge between the
transcription's `Int` indices and the orbit arithmetic of the two marking
loops of `numBoxesLeft`.
-/

theorem pyIdx_natCast (n j : Nat) :
    pyIdx n (j : Int) = if j < n then some j else none := by
  unfold pyIdx
  have h0 : ¬ ((j : Int) < 0) := by omega
  by_cases h : j < n
  · rw [if_pos h]
    simp only [h0, if_false]
    rw [if_pos ⟨by omega, by exact_mod_cast h⟩, Int.toNat_natCast]
  · rw [if_neg h]
    simp only [h0, if_false]
    rw [if_neg (by omega)]

theorem pyGet_lt (l : List Int) (j : Nat) (h : j < l.length) :
    pyGet l (j : Int) = l.getD j REMOVED := by
  unfold pyGet
  rw [pyIdx_natCast, if_pos h]

theorem pyGet_oob (l : List Int) (j : Nat) (h : ¬ j < l.length) :
    pyGet l (j : Int) = REMOVED := by
  unfold pyGet
  rw [pyIdx_natCast, if_neg h]

theorem pySet_length (l : List Int) (i v : Int) :
    (pySet l i v).length = l.length := by
  unfold pySet
  cases pyIdx l.length i <;> simp

theorem pyGet_pySet_self (l : List Int) (j : Nat) (v : Int) (h : j < l.length) :
    pyGet (pySet l (j : Int) v) (j : Int) = v := by
  unfold pySet
  rw [pyIdx_natCast, if_pos h]
  rw [pyGet_lt _ _ (by simpa using h)]
  simp [List.getD_eq_getElem?_getD, List.getElem?_set_self, h]

theorem pyGet_pySet_ne (l : List Int) (i j : Nat) (v : Int) (hij : i ≠ j) :
    pyGet (pySet l (i : Int) v) (j : Int) = pyGet l (j : Int) := by
  unfold pySet
  rw [pyIdx_natCast]
  by_cases hi : i < l.length
  · rw [if_pos hi]
    by_cases hj : j < l.length
    · rw [pyGet_lt _ _ (by simpa using hj), pyGet_lt _ _ hj]
      exact getD_set_ne _ _ _ _ _ hij
    · rw [pyGet_oob _ _ (by simpa using hj), pyGet_oob _ _ hj]
  · rw [if_neg hi]

theorem pyGetB_lt (l : List Bool) (j : Nat) (h : j < l.length) :
    pyGetB l (j : Int) = l.getD j false := by
  unfold pyGetB
  rw [pyIdx_natCast, if_pos h]

theorem pyGetB_oob (l : List Bool) (j : Nat) (h : ¬ j < l.length) :
    pyGetB l (j : Int) = false := by
  unfold pyGetB
  rw [pyIdx_natCast, if_neg h]

theorem pySetB_length (l : List Bool) (i : Int) (v : Bool) :
    (pySetB l i v).length = l.length := by
  unfold pySetB
  cases pyIdx l.length i <;> simp

theorem pyGetB_pySetB_self (l : List Bool) (j : Nat) (v : Bool) (h : j < l.length) :
    pyGetB (pySetB l (j : Int) v) (j : Int) = v := by
  unfold pySetB
  rw [pyIdx_natCast, if_pos h]
  rw [pyGetB_lt _ _ (by simpa using h)]
  simp [List.getD_eq_getElem?_getD, List.getElem?_set_self, h]

theorem pyGetB_pySetB_ne (l : List Bool) (i j : Nat) (v : Bool) (hij : i ≠ j) :
    pyGetB (pySetB l (i : Int) v) (j : Int) = pyGetB l (j : Int) := by
  unfold pySetB
  rw [pyIdx_natCast]
  by_cases hi : i < l.length
  · rw [if_pos hi]
    by_cases hj : j < l.length
    · rw [pyGetB_lt _ _ (by simpa using hj), pyGetB_lt _ _ hj]
      simp [List.getD_eq_getElem?_getD, List.getElem?_set_ne hij]
    · rw [pyGetB_oob _ _ (by simpa using hj), pyGetB_oob _ _ hj]
  · rw [if_neg hi]

theorem pyIdx_some (n : Nat) (x : Int) (j : Nat) (h : pyIdx n x = some j) :
    j < n := by
  simp only [pyIdx] at h
  split_ifs at h
  all_goals first
  | (simp only [Option.some.injEq] at h; omega)
  | cases h

theorem pyGet_cases (l : List Int) (x : Int) :
    pyGet l x = REMOVED ∨ ∃ j : Nat, j < l.length ∧ pyGet l x = pyGet l (j : Int) := by
  cases h : pyIdx l.length x with
  | none =>
    left
    unfold pyGet
    rw [h]
  | some j =>
    have hj : j < l.length := pyIdx_some _ _ _ h
    refine Or.inr ⟨j, hj, ?_⟩
    rw [pyGet_lt _ _ hj]
    unfold pyGet
    rw [h]

/-!
### Claim C3: liveness and orbits of the rotation permutation

Under `WFnext`, `fnext` is a permutation of the live half-edges.  The
lemmas here give closure of liveness under iteration, a period within the
array length (pigeonhole), and that `sameOrbitN` is reflexive, symmetric
and transitive on live half-edges.
-/

theorem liveN_lt_length (s : DotsAndBoxesState) (j : Nat) (hl : liveN s j) :
    j < s.otherHe.length := by
  by_contra h
  exact hl (pyGet_oob _ _ h)

theorem WFnext.fnext_lt {s : DotsAndBoxesState} (hs : WFnext s) {j : Nat}
    (hl : liveN s j) : fnext s j < s.otherHe.length :=
  (hs.hnext j (liveN_lt_length s j hl) hl).2.1

theorem WFnext.fnext_liveN {s : DotsAndBoxesState} (hs : WFnext s) {j : Nat}
    (hl : liveN s j) : liveN s (fnext s j) :=
  (hs.hnext j (liveN_lt_length s j hl) hl).2.2

theorem WFnext.pyGet_nextHe {s : DotsAndBoxesState} (hs : WFnext s) {j : Nat}
    (hl : liveN s j) : pyGet s.nextHe (j : Int) = ((fnext s j : Nat) : Int) :=
  (hs.hnext j (liveN_lt_length s j hl) hl).1

theorem WFnext.fnext_inj {s : DotsAndBoxesState} (hs : WFnext s) {a b : Nat}
    (ha : liveN s a) (hb : liveN s b) (h : fnext s a = fnext s b) : a = b :=
  hs.hinj a (liveN_lt_length s a ha) b (liveN_lt_length s b hb) ha hb h

theorem iterate_liveN {s : DotsAndBoxesState} (hs : WFnext s) {j : Nat}
    (hl : liveN s j) (k : Nat) : liveN s ((fnext s)^[k] j) := by
  induction k with
  | zero => exact hl
  | succ k ih =>
    rw [Function.iterate_succ_apply']
    exact hs.fnext_liveN ih

theorem iterate_cancel {s : DotsAndBoxesState} (hs : WFnext s) {j : Nat}
    (hl : liveN s j) :
    ∀ {a b : Nat}, (fnext s)^[a] j = (fnext s)^[b] j → a ≤ b →
      (fnext s)^[b - a] j = j := by
  intro a
  induction a with
  | zero =>
    intro b h _
    simpa using h.symm
  | succ a ih =>
    intro b h hab
    cases b with
    | zero => omega
    | succ b =>
      rw [Function.iterate_succ_apply', Function.iterate_succ_apply'] at h
      have h2 := hs.fnext_inj (iterate_liveN hs hl a) (iterate_liveN hs hl b) h
      have h3 := ih h2 (by omega)
      simpa [Nat.succ_sub_succ] using h3

theorem exists_isPeriodicPt {s : DotsAndBoxesState} (hs : WFnext s) {j : Nat}
    (hl : liveN s j) :
    ∃ p, 0 < p ∧ p ≤ s.otherHe.length ∧ Function.IsPeriodicPt (fnext s) p j := by
  have hcard : Fintype.card (Fin s.otherHe.length) <
      Fintype.card (Fin (s.otherHe.length + 1)) := by simp
  obtain ⟨a, b, hab, heq⟩ := Fintype.exists_ne_map_eq_of_card_lt
    (fun k : Fin (s.otherHe.length + 1) =>
      (⟨(fnext s)^[(k : Nat)] j,
        liveN_lt_length s _ (iterate_liveN hs hl (k : Nat))⟩ :
        Fin s.otherHe.length)) hcard
  simp only [Fin.mk.injEq] at heq
  rcases Nat.lt_or_ge (a : Nat) (b : Nat) with hlt | hge
  · refine ⟨(b : Nat) - (a : Nat), by omega, by omega, ?_⟩
    exact iterate_cancel hs hl heq (by omega)
  · have hne : (b : Nat) ≠ (a : Nat) := fun h => hab (Fin.ext h.symm)
    refine ⟨(a : Nat) - (b : Nat), by omega, by omega, ?_⟩
    exact iterate_cancel hs hl heq.symm (by omega)

theorem minPeriod_pos {s : DotsAndBoxesState} (hs : WFnext s) {j : Nat}
    (hl : liveN s j) : 0 < Function.minimalPeriod (fnext s) j := by
  obtain ⟨p, hp0, _, hper⟩ := exists_isPeriodicPt hs hl
  exact hper.minimalPeriod_pos hp0

theorem minPeriod_le {s : DotsAndBoxesState} (hs : WFnext s) {j : Nat}
    (hl : liveN s j) : Function.minimalPeriod (fnext s) j ≤ s.otherHe.length := by
  obtain ⟨p, hp0, hpn, hper⟩ := exists_isPeriodicPt hs hl
  exact le_trans (hper.minimalPeriod_le hp0) hpn

theorem sameOrbitN_refl (s : DotsAndBoxesState) (a : Nat) : sameOrbitN s a a :=
  ⟨0, Nat.succ_pos _, rfl⟩

theorem sameOrbitN_of_iterate {s : DotsAndBoxesState} (hs : WFnext s) {j : Nat}
    (hl : liveN s j) (k : Nat) : sameOrbitN s j ((fnext s)^[k] j) := by
  have hp0 := minPeriod_pos hs hl
  have hpn := minPeriod_le hs hl
  refine ⟨k % Function.minimalPeriod (fnext s) j, ?_, ?_⟩
  · have := Nat.mod_lt k hp0
    omega
  · exact Function.iterate_mod_minimalPeriod_eq

theorem sameOrbitN_liveN {s : DotsAndBoxesState} (hs : WFnext s) {a b : Nat}
    (ha : liveN s a) (h : sameOrbitN s a b) : liveN s b := by
  obtain ⟨k, _, rfl⟩ := h
  exact iterate_liveN hs ha k

theorem sameOrbitN_trans {s : DotsAndBoxesState} (hs : WFnext s) {a b c : Nat}
    (ha : liveN s a) (h1 : sameOrbitN s a b) (h2 : sameOrbitN s b c) :
    sameOrbitN s a c := by
  obtain ⟨k1, _, rfl⟩ := h1
  obtain ⟨k2, _, rfl⟩ := h2
  rw [← Function.iterate_add_apply]
  exact sameOrbitN_of_iterate hs ha (k2 + k1)

theorem sameOrbitN_symm {s : DotsAndBoxesState} (hs : WFnext s) {a b : Nat}
    (ha : liveN s a) (h : sameOrbitN s a b) : sameOrbitN s b a := by
  obtain ⟨k, _, rfl⟩ := h
  have hp0 := minPeriod_pos hs ha
  have hpn := minPeriod_le hs ha
  set p := Function.minimalPeriod (fnext s) a with hp
  rcases Nat.eq_zero_or_pos (k % p) with hr | hr
  · have hb : (fnext s)^[k] a = a := by
      rw [← Function.iterate_mod_minimalPeriod_eq (n := k), ← hp, hr]
      rfl
    rw [hb]
    exact sameOrbitN_refl s a
  · refine ⟨p - k % p, by omega, ?_⟩
    rw [← Function.iterate_add_apply]
    have hdiv : p - k % p + k = p * (1 + k / p) := by
      have h1 := Nat.div_add_mod k p
      have h2 : k % p < p := Nat.mod_lt k hp0
      have h3 : p * (1 + k / p) = p + p * (k / p) := by ring
      omega
    rw [hdiv]
    exact (Function.isPeriodicPt_minimalPeriod (fnext s) a).mul_const (1 + k / p)

/-!
### Claim C3: the cycle walk of the first loop of `numBoxesLeft`

`markCycle` started at a live half-edge marks exactly the rest of its
rotation cycle; the fold of `jointStep` therefore counts one per cycle,
at the cycle's minimal member.
-/

theorem markCycle_length (nextHe : List Int) (he : Int) :
    ∀ (fuel : Nat) (nHe : Int) (c : List Bool),
      (DotsAndBoxesState.markCycle nextHe he fuel nHe c).length = c.length := by
  intro fuel
  induction fuel with
  | zero => intro nHe c; rfl
  | succ fuel ih =>
    intro nHe c
    unfold DotsAndBoxesState.markCycle
    split
    · rfl
    · dsimp only
      rw [ih, pySetB_length]

theorem pyGet_nextHe_iterate {s : DotsAndBoxesState} (hs : WFnext s) {i : Nat}
    (hl : liveN s i) (q : Nat) :
    pyGet s.nextHe (((fnext s)^[q] i : Nat) : Int) =
      (((fnext s)^[q+1] i : Nat) : Int) := by
  rw [hs.pyGet_nextHe (iterate_liveN hs hl q), Function.iterate_succ_apply']

theorem iterate_eq_self_iff {s : DotsAndBoxesState} {i : Nat} (k : Nat) :
    (fnext s)^[k] i = i ↔ Function.minimalPeriod (fnext s) i ∣ k :=
  Function.isPeriodicPt_iff_minimalPeriod_dvd

theorem pyGetB_replicate (n m : Nat) :
    pyGetB (List.replicate n false) (m : Int) = false := by
  by_cases h : m < n
  · rw [pyGetB_lt _ _ (by simpa using h)]
    simp [List.getD_eq_getElem?_getD]
  · exact pyGetB_oob _ _ (by simpa using h)

theorem markCycle_spec {s : DotsAndBoxesState} (hs : WFnext s) {i : Nat}
    (hl : liveN s i) :
    ∀ (d q : Nat) (c : List Bool), c.length = s.otherHe.length →
      q < Function.minimalPeriod (fnext s) i →
      Function.minimalPeriod (fnext s) i - 1 - q ≤ d →
      ∀ m : Nat, m < s.otherHe.length →
        (pyGetB (DotsAndBoxesState.markCycle s.nextHe (i : Int) d
            (((fnext s)^[q] i : Nat) : Int) c) (m : Int) = true ↔
          (pyGetB c (m : Int) = true ∨
            ∃ jj : Nat, q < jj ∧ jj < Function.minimalPeriod (fnext s) i ∧
              (fnext s)^[jj] i = m)) := by
  have hp0 := minPeriod_pos hs hl
  intro d
  induction d with
  | zero =>
    intro q c hc hq hd m hm
    have hq1 : q = Function.minimalPeriod (fnext s) i - 1 := by omega
    constructor
    · intro h
      exact Or.inl h
    · rintro (h | ⟨jj, hjj1, hjj2, _⟩)
      · exact h
      · omega
  | succ d ih =>
    intro q c hc hq hd m hm
    unfold DotsAndBoxesState.markCycle
    rw [pyGet_nextHe_iterate hs hl q]
    by_cases hstop : (i : Int) = (((fnext s)^[q+1] i : Nat) : Int)
    · rw [if_pos hstop]
      have hii : (fnext s)^[q+1] i = i := by
        have : ((fnext s)^[q+1] i : Int) = (i : Int) := hstop.symm
        exact_mod_cast this
      have hdvd := (iterate_eq_self_iff (q+1)).mp hii
      have hqp : q + 1 = Function.minimalPeriod (fnext s) i := by
        rcases hdvd with ⟨w, hw⟩
        rcases Nat.eq_zero_or_pos w with rfl | hw0
        · omega
        · nlinarith [Nat.le_mul_of_pos_right (Function.minimalPeriod (fnext s) i) hw0]
      constructor
      · intro h
        exact Or.inl h
      · rintro (h | ⟨jj, hjj1, hjj2, _⟩)
        · exact h
        · omega
    · rw [if_neg hstop]
      dsimp only
      have hq1p : q + 1 < Function.minimalPeriod (fnext s) i := by
        rcases Nat.lt_or_ge (q+1) (Function.minimalPeriod (fnext s) i) with h | h
        · exact h
        · exfalso
          have hle : q + 1 = Function.minimalPeriod (fnext s) i := by omega
          apply hstop
          have : (fnext s)^[q+1] i = i := by
            rw [hle]
            exact Function.iterate_minimalPeriod
          rw [this]
      have hstep := ih (q+1) (pySetB c (((fnext s)^[q+1] i : Nat) : Int) true)
        (by rw [pySetB_length]; exact hc) hq1p (by omega) m hm
      rw [hstep]
      have hfb : (fnext s)^[q+1] i < s.otherHe.length :=
        liveN_lt_length s _ (iterate_liveN hs hl (q+1))
      by_cases hmi : m = (fnext s)^[q+1] i
      · subst hmi
        rw [pyGetB_pySetB_self _ _ _ (by omega)]
        constructor
        · intro _
          exact Or.inr ⟨q+1, by omega, hq1p, rfl⟩
        · intro _
          simp
      · rw [pyGetB_pySetB_ne _ _ _ _ (fun h => hmi h.symm)]
        constructor
        · rintro (h | ⟨jj, hjj1, hjj2, hjj3⟩)
          · exact Or.inl h
          · exact Or.inr ⟨jj, by omega, hjj2, hjj3⟩
        · rintro (h | ⟨jj, hjj1, hjj2, hjj3⟩)
          · exact Or.inl h
          · refine Or.inr ⟨jj, ?_, hjj2, hjj3⟩
            rcases Nat.lt_or_ge (q+1) jj with h2 | h2
            · exact h2
            · exfalso
              have : jj = q + 1 := by omega
              subst this
              exact hmi hjj3.symm

theorem jointLoop_inv (s : DotsAndBoxesState) (hs : WFnext s) :
    ∀ i : Nat, i ≤ s.otherHe.length →
      (((List.range i).foldl (jointStep s)
          (0, List.replicate s.otherHe.length false)).1 =
        ((((Finset.range i).filter (fun j => minRepN s j)).card : Nat) : Int) ∧
      ((List.range i).foldl (jointStep s)
          (0, List.replicate s.otherHe.length false)).2.length =
        s.otherHe.length ∧
      ∀ m : Nat, m < s.otherHe.length →
        (pyGetB ((List.range i).foldl (jointStep s)
            (0, List.replicate s.otherHe.length false)).2 (m : Int) = true ↔
          ∃ j : Nat, j < i ∧ liveN s j ∧ sameOrbitN s j m)) := by
  intro i
  induction i with
  | zero =>
    intro _
    refine ⟨by simp, by simp, ?_⟩
    intro m hm
    simp only [List.range_zero, List.foldl_nil]
    rw [pyGetB_replicate]
    simp
  | succ i ih =>
    intro hin
    obtain ⟨h1, h2, h3⟩ := ih (by omega)
    rw [List.range_succ, List.foldl_append, List.foldl_cons, List.foldl_nil]
    set acc := (List.range i).foldl (jointStep s)
      (0, List.replicate s.otherHe.length false) with hacc
    unfold jointStep
    dsimp only
    by_cases hlive : liveN s i
    · by_cases hmark : pyGetB acc.2 (i : Int) = false
      · rw [if_pos ⟨hlive, hmark⟩]
        have hminrep : minRepN s i := by
          refine ⟨hlive, by omega, ?_⟩
          intro r hr hor
          by_contra hri
          have hrl : liveN s r := sameOrbitN_liveN hs hlive hor
          have hsym := sameOrbitN_symm hs hlive hor
          have : pyGetB acc.2 (i : Int) = true :=
            (h3 i (by omega)).mpr ⟨r, by omega, hrl, hsym⟩
          rw [this] at hmark
          cases hmark
        have hp0 := minPeriod_pos hs hlive
        have hpn := minPeriod_le hs hlive
        refine ⟨?_, ?_, ?_⟩
        · dsimp only
          rw [h1, Finset.range_succ, Finset.filter_insert, if_pos hminrep,
            Finset.card_insert_of_not_mem (by simp)]
          push_cast
          ring
        · dsimp only
          rw [markCycle_length, pySetB_length]
          exact h2
        · intro m hm
          dsimp only
          have hspec := markCycle_spec hs hlive s.otherHe.length 0
            (pySetB acc.2 (i : Int) true)
            (by rw [pySetB_length]; exact h2) hp0 (by omega) m hm
          simp only [Function.iterate_zero_apply] at hspec
          rw [hspec]
          constructor
          · rintro (h | ⟨jj, hjj1, hjj2, hjj3⟩)
            · by_cases hmi : m = i
              · exact ⟨i, by omega, hlive, by rw [hmi]; exact sameOrbitN_refl s i⟩
              · rw [pyGetB_pySetB_ne _ _ _ _ (fun hh => hmi hh.symm)] at h
                obtain ⟨j, hj1, hj2, hj3⟩ := (h3 m hm).mp h
                exact ⟨j, by omega, hj2, hj3⟩
            · exact ⟨i, by omega, hlive, ⟨jj, by omega, hjj3⟩⟩
          · rintro ⟨j, hj1, hj2, hj3⟩
            rcases Nat.lt_or_ge j i with hji | hji
            · left
              by_cases hmi : m = i
              · rw [hmi, pyGetB_pySetB_self _ _ _ (by omega)]
              · rw [pyGetB_pySetB_ne _ _ _ _ (fun hh => hmi hh.symm)]
                exact (h3 m hm).mpr ⟨j, hji, hj2, hj3⟩
            · have hji2 : j = i := by omega
              subst hji2
              obtain ⟨k, hk1, hk2⟩ := hj3
              rcases Nat.eq_zero_or_pos (k % Function.minimalPeriod (fnext s) j)
                with hr | hr
              · left
                have hmj : m = j := by
                  rw [← hk2, ← Function.iterate_mod_minimalPeriod_eq, hr]
                  rfl
                rw [hmj, pyGetB_pySetB_self _ _ _ (by omega)]
              · right
                refine ⟨k % Function.minimalPeriod (fnext s) j, by omega,
                  Nat.mod_lt k hp0, ?_⟩
                rw [Function.iterate_mod_minimalPeriod_eq]
                exact hk2
      · rw [if_neg (fun hh => hmark hh.2)]
        have hmarkT : pyGetB acc.2 (i : Int) = true := by
          cases hb : pyGetB acc.2 (i : Int)
          · exact absurd hb hmark
          · rfl
        obtain ⟨j0, hj01, hj02, hj03⟩ := (h3 i (by omega)).mp hmarkT
        have hnotmin : ¬ minRepN s i := by
          rintro ⟨_, _, hmin⟩
          have hsym := sameOrbitN_symm hs hj02 hj03
          have := hmin j0 (by omega) hsym
          omega
        refine ⟨?_, h2, ?_⟩
        · rw [h1, Finset.range_succ, Finset.filter_insert, if_neg hnotmin]
        · intro m hm
          rw [h3 m hm]
          constructor
          · rintro ⟨j, hj1, hj2, hj3⟩
            exact ⟨j, by omega, hj2, hj3⟩
          · rintro ⟨j, hj1, hj2, hj3⟩
            rcases Nat.lt_or_ge j i with hji | hji
            · exact ⟨j, hji, hj2, hj3⟩
            · have hji2 : j = i := by omega
              subst hji2
              refine ⟨j0, by omega, hj02, ?_⟩
              exact sameOrbitN_trans hs hj02 hj03 hj3
    · rw [if_neg (fun hh => hlive hh.1)]
      have hnotmin : ¬ minRepN s i := fun hh => hlive hh.1
      refine ⟨?_, h2, ?_⟩
      · rw [h1, Finset.range_succ, Finset.filter_insert, if_neg hnotmin]
      · intro m hm
        rw [h3 m hm]
        constructor
        · rintro ⟨j, hj1, hj2, hj3⟩
          exact ⟨j, by omega, hj2, hj3⟩
        · rintro ⟨j, hj1, hj2, hj3⟩
          rcases Nat.lt_or_ge j i with hji | hji
          · exact ⟨j, hji, hj2, hj3⟩
          · have hji2 : j = i := by omega
            subst hji2
            exact absurd hj2 hlive

theorem jointLoop_eq (s : DotsAndBoxesState) (hs : WFnext s) :
    (jointLoop s).1 = ((jointCountF s : Nat) : Int) := by
  have h := (jointLoop_inv s hs s.otherHe.length le_rfl).1
  have he : jointLoop s = (List.range s.otherHe.length).foldl (jointStep s)
      (0, List.replicate s.otherHe.length false) := rfl
  rw [he, h]
  rfl

/-!
### Claim C3: the pair-marking second loop of `numBoxesLeft`

The fold of `pairStep` adds each live partner pair's cached length once,
at the pair's smaller index (boundary half-edges alone), which is exactly
the representative predicate `repN`.
-/

theorem WFpair.partner_cases {s : DotsAndBoxesState} (hp : WFpair s) {j : Nat}
    (hl : liveN s j) :
    pyGet s.otherHe (j : Int) = DEADEND ∨
    ∃ m : Nat, m < s.otherHe.length ∧ m ≠ j ∧
      pyGet s.otherHe (j : Int) = (m : Int) ∧
      liveN s m ∧ pyGet s.otherHe (m : Int) = (j : Int) ∧
      pyGet s.heLengths (m : Int) = pyGet s.heLengths (j : Int) :=
  hp.hpart j (liveN_lt_length s j hl) hl

theorem pairLoop_inv (s : DotsAndBoxesState) (hp : WFpair s) :
    ∀ i : Nat, i ≤ s.otherHe.length →
      (((List.range i).foldl (pairStep s)
          (0, List.replicate s.otherHe.length false)).1 =
        ∑ j ∈ Finset.range i,
          (if repN s j then pyGet s.heLengths (j : Int) else 0) ∧
      ((List.range i).foldl (pairStep s)
          (0, List.replicate s.otherHe.length false)).2.length =
        s.otherHe.length ∧
      ∀ m : Nat, m < s.otherHe.length →
        (pyGetB ((List.range i).foldl (pairStep s)
            (0, List.replicate s.otherHe.length false)).2 (m : Int) = true ↔
          liveN s m ∧ (m < i ∨ ∃ j : Nat, j < i ∧ liveN s j ∧
            pyGet s.otherHe (j : Int) = (m : Int)))) := by
  intro i
  induction i with
  | zero =>
    intro _
    refine ⟨by simp, by simp, ?_⟩
    intro m hm
    simp only [List.range_zero, List.foldl_nil]
    rw [pyGetB_replicate]
    simp
  | succ i ih =>
    intro hin
    obtain ⟨h1, h2, h3⟩ := ih (by omega)
    rw [List.range_succ, List.foldl_append, List.foldl_cons, List.foldl_nil]
    set acc := (List.range i).foldl (pairStep s)
      (0, List.replicate s.otherHe.length false) with hacc
    unfold pairStep
    dsimp only
    by_cases hlive : liveN s i
    · by_cases hmark : pyGetB acc.2 (i : Int) = false
      · rw [if_pos ⟨hlive, hmark⟩]
        have hnotpartner : ¬ ∃ j : Nat, j < i ∧ liveN s j ∧
            pyGet s.otherHe (j : Int) = (i : Int) := by
          intro hex
          have : pyGetB acc.2 (i : Int) = true :=
            (h3 i (by omega)).mpr ⟨hlive, Or.inr hex⟩
          rw [this] at hmark
          cases hmark
        rcases hp.partner_cases hlive with hdead | ⟨pm, hpm1, hpm2, hpm3, hpm4, hpm5, _⟩
        · have hrep : repN s i := ⟨hlive, Or.inl hdead⟩
          refine ⟨?_, ?_, ?_⟩
          · dsimp only
            rw [h1, Finset.sum_range_succ, if_pos hrep]
          · dsimp only
            rw [hdead]
            unfold DEADEND
            rw [if_neg (by simp), pySetB_length]
            exact h2
          · intro m hm
            dsimp only
            rw [hdead]
            unfold DEADEND
            rw [if_neg (by simp)]
            by_cases hmi : m = i
            · subst hmi
              rw [pyGetB_pySetB_self _ _ _ (by omega)]
              simp only [true_iff]
              exact ⟨hlive, Or.inl (by omega)⟩
            · rw [pyGetB_pySetB_ne _ _ _ _ (fun hh => hmi hh.symm)]
              rw [h3 m hm]
              constructor
              · rintro ⟨hlm, hca | ⟨j, hj1, hj2, hj3⟩⟩
                · exact ⟨hlm, Or.inl (by omega)⟩
                · exact ⟨hlm, Or.inr ⟨j, by omega, hj2, hj3⟩⟩
              · rintro ⟨hlm, hca | ⟨j, hj1, hj2, hj3⟩⟩
                · exact ⟨hlm, Or.inl (by omega)⟩
                · rcases Nat.lt_or_ge j i with hji | hji
                  · exact ⟨hlm, Or.inr ⟨j, hji, hj2, hj3⟩⟩
                  · have : j = i := by omega
                    subst this
                    rw [hdead] at hj3
                    exfalso
                    unfold DEADEND at hj3
                    omega
        · have hpmgt : i < pm := by
            rcases Nat.lt_trichotomy pm i with hc | hc | hc
            · exact absurd ⟨pm, hc, hpm4, hpm5⟩ hnotpartner
            · exact absurd hc hpm2
            · exact hc
          have hrep : repN s i := by
            refine ⟨hlive, Or.inr ?_⟩
            rw [hpm3]
            exact_mod_cast hpmgt
          refine ⟨?_, ?_, ?_⟩
          · dsimp only
            rw [h1, Finset.sum_range_succ, if_pos hrep]
          · dsimp only
            rw [hpm3]
            rw [if_pos (by unfold DEADEND; omega), pySetB_length, pySetB_length]
            exact h2
          · intro m hm
            dsimp only
            rw [hpm3, if_pos (by unfold DEADEND; omega)]
            by_cases hmp : m = pm
            · subst hmp
              rw [pyGetB_pySetB_self _ _ _
                (by rw [pySetB_length]; omega)]
              simp only [true_iff]
              exact ⟨hpm4, Or.inr ⟨i, by omega, hlive, hpm3⟩⟩
            · rw [pyGetB_pySetB_ne _ _ _ _ (fun hh => hmp hh.symm)]
              by_cases hmi : m = i
              · subst hmi
                rw [pyGetB_pySetB_self _ _ _ (by omega)]
                simp only [true_iff]
                exact ⟨hlive, Or.inl (by omega)⟩
              · rw [pyGetB_pySetB_ne _ _ _ _ (fun hh => hmi hh.symm)]
                rw [h3 m hm]
                constructor
                · rintro ⟨hlm, hca | ⟨j, hj1, hj2, hj3⟩⟩
                  · exact ⟨hlm, Or.inl (by omega)⟩
                  · exact ⟨hlm, Or.inr ⟨j, by omega, hj2, hj3⟩⟩
                · rintro ⟨hlm, hca | ⟨j, hj1, hj2, hj3⟩⟩
                  · exact ⟨hlm, Or.inl (by omega)⟩
                  · rcases Nat.lt_or_ge j i with hji | hji
                    · exact ⟨hlm, Or.inr ⟨j, hji, hj2, hj3⟩⟩
                    · have : j = i := by omega
                      subst this
                      rw [hpm3] at hj3
                      have : pm = m := by exact_mod_cast hj3
                      exact absurd this.symm hmp
      · rw [if_neg (fun hh => hmark hh.2)]
        have hmarkT : pyGetB acc.2 (i : Int) = true := by
          cases hb : pyGetB acc.2 (i : Int)
          · exact absurd hb hmark
          · rfl
        obtain ⟨_, hcase⟩ := (h3 i (by omega)).mp hmarkT
        rcases hcase with hlt | ⟨j0, hj01, hj02, hj03⟩
        · omega
        · rcases hp.partner_cases hj02 with hdead | ⟨pm, _, hpm2, hpm3, _, hpm5, _⟩
          · rw [hdead] at hj03
            exfalso
            unfold DEADEND at hj03
            omega
          · have hpmi : pm = i := by
              rw [hpm3] at hj03
              exact_mod_cast hj03
            subst hpmi
            have hoi : pyGet s.otherHe (pm : Int) = (j0 : Int) := hpm5
            have hnotrep : ¬ repN s pm := by
              rintro ⟨_, hca | hca⟩
              · rw [hoi] at hca
                unfold DEADEND at hca
                omega
              · rw [hoi] at hca
                have : (pm : Int) < (j0 : Int) := hca
                omega
            refine ⟨?_, h2, ?_⟩
            · rw [h1, Finset.sum_range_succ, if_neg hnotrep]
              ring
            · intro m hm
              rw [h3 m hm]
              constructor
              · rintro ⟨hlm, hca | ⟨j, hj1, hj2, hj3⟩⟩
                · exact ⟨hlm, Or.inl (by omega)⟩
                · exact ⟨hlm, Or.inr ⟨j, by omega, hj2, hj3⟩⟩
              · rintro ⟨hlm, hca | ⟨j, hj1, hj2, hj3⟩⟩
                · rcases Nat.lt_or_ge m pm with hmi | hmi
                  · exact ⟨hlm, Or.inl hmi⟩
                  · have : m = pm := by omega
                    subst this
                    exact ⟨hlm, Or.inr ⟨j0, by omega, hj02, hj03⟩⟩
                · rcases Nat.lt_or_ge j pm with hji | hji
                  · exact ⟨hlm, Or.inr ⟨j, hji, hj2, hj3⟩⟩
                  · have : j = pm := by omega
                    subst this
                    rw [hoi] at hj3
                    have : j0 = m := by exact_mod_cast hj3
                    subst this
                    exact ⟨hlm, Or.inl (by omega)⟩
    · rw [if_neg (fun hh => hlive hh.1)]
      have hnotrep : ¬ repN s i := fun hh => hlive hh.1
      refine ⟨?_, h2, ?_⟩
      · rw [h1, Finset.sum_range_succ, if_neg hnotrep]
        ring
      · intro m hm
        rw [h3 m hm]
        constructor
        · rintro ⟨hlm, hca | ⟨j, hj1, hj2, hj3⟩⟩
          · exact ⟨hlm, Or.inl (by omega)⟩
          · exact ⟨hlm, Or.inr ⟨j, by omega, hj2, hj3⟩⟩
        · rintro ⟨hlm, hca | ⟨j, hj1, hj2, hj3⟩⟩
          · rcases Nat.lt_or_ge m i with hmi | hmi
            · exact ⟨hlm, Or.inl hmi⟩
            · have : m = i := by omega
              subst this
              exact absurd hlm hlive
          · rcases Nat.lt_or_ge j i with hji | hji
            · exact ⟨hlm, Or.inr ⟨j, hji, hj2, hj3⟩⟩
            · have : j = i := by omega
              subst this
              exact absurd hj2 hlive

theorem pairLoop_eq (s : DotsAndBoxesState) (hp : WFpair s) :
    (pairLoop s).1 = pairSumF s := by
  have h := (pairLoop_inv s hp s.otherHe.length le_rfl).1
  have he : pairLoop s = (List.range s.otherHe.length).foldl (pairStep s)
      (0, List.replicate s.otherHe.length false) := rfl
  rw [he, h]
  rfl

/-- The two marking loops of `numBoxesLeft`, rewritten: on a well-formed
state the open-box count is the pending looney value, plus one per live
rotation cycle, plus the cached lengths over live pairs, plus the
independent components. -/
theorem numBoxesLeft_eq (s : DotsAndBoxesState) (hw : WFs s) :
    s.numBoxesLeft = s.looneyValue + ((jointCountF s : Nat) : Int) + pairSumF s +
      s.indeps.foldl (· + ·) 0 := by
  unfold DotsAndBoxesState.numBoxesLeft
  rw [jointLoop_eq s hw.1, pairLoop_eq s hw.2]

/-!
### Claim C3: transfer lemmas for the two counting functions

`jointCountF` is compared across a surgery that deletes a set `D` of
half-edges but preserves all other orbits: the count after equals the
number of cycles that still have a member outside `D`, via the bijection
sending each old minimal representative to the smallest surviving member
of its cycle.  `pairSumF` is compared pointwise off a finite set of
touched slots.
-/

theorem jointCountF_rel (t t' : DotsAndBoxesState) (D : Finset Nat)
    (ht : WFnext t) (ht' : WFnext t')
    (hn : t'.otherHe.length = t.otherHe.length)
    (hlive : ∀ j : Nat, liveN t' j ↔ (liveN t j ∧ j ∉ D))
    (horb : ∀ a b : Nat, liveN t a → a ∉ D → liveN t b → b ∉ D →
       (sameOrbitN t' a b ↔ sameOrbitN t a b)) :
    ((Finset.range t.otherHe.length).filter
        (fun j => minRepN t j ∧ ∃ r ∈ Finset.range t.otherHe.length,
          sameOrbitN t j r ∧ r ∉ D)).card = jointCountF t' := by
  have htgt : jointCountF t' =
      ((Finset.range t.otherHe.length).filter (fun j => minRepN t' j)).card := by
    unfold jointCountF
    rw [hn]
  rw [htgt]
  have hS : ∀ j : Nat, j ∈ (Finset.range t.otherHe.length).filter
      (fun j => minRepN t j ∧ ∃ r ∈ Finset.range t.otherHe.length,
        sameOrbitN t j r ∧ r ∉ D) →
      ((Finset.range t.otherHe.length).filter
        (fun r => sameOrbitN t j r ∧ r ∉ D)).Nonempty := by
    intro j hj
    obtain ⟨-, -, r, hr1, hr2, hr3⟩ := Finset.mem_filter.mp hj
    exact ⟨r, Finset.mem_filter.mpr ⟨hr1, hr2, hr3⟩⟩
  refine Finset.card_bij (fun j hj => ((Finset.range t.otherHe.length).filter
      (fun r => sameOrbitN t j r ∧ r ∉ D)).min' (hS j hj)) ?_ ?_ ?_
  · intro j hj
    dsimp only
    obtain ⟨hjr, hjm, -⟩ := Finset.mem_filter.mp hj
    have hw := Finset.min'_mem _ (hS j hj)
    obtain ⟨hwr, hwo, hwD⟩ := Finset.mem_filter.mp hw
    have hwlt : ((Finset.range t.otherHe.length).filter
        (fun r => sameOrbitN t j r ∧ r ∉ D)).min' (hS j hj) <
        t.otherHe.length := Finset.mem_range.mp hwr
    have hwlive : liveN t (((Finset.range t.otherHe.length).filter
        (fun r => sameOrbitN t j r ∧ r ∉ D)).min' (hS j hj)) :=
      sameOrbitN_liveN ht hjm.1 hwo
    have hwlive' : liveN t' (((Finset.range t.otherHe.length).filter
        (fun r => sameOrbitN t j r ∧ r ∉ D)).min' (hS j hj)) :=
      (hlive _).mpr ⟨hwlive, hwD⟩
    refine Finset.mem_filter.mpr ⟨hwr, hwlive', by omega, ?_⟩
    intro r hr hor
    have hrlive' : liveN t' r := sameOrbitN_liveN ht' hwlive' hor
    obtain ⟨hrlive, hrD⟩ := (hlive r).mp hrlive'
    have hor2 : sameOrbitN t _ r := (horb _ r hwlive hwD hrlive hrD).mp hor
    have hor3 : sameOrbitN t j r := sameOrbitN_trans ht hjm.1 hwo hor2
    exact Finset.min'_le _ r (Finset.mem_filter.mpr
      ⟨Finset.mem_range.mpr (liveN_lt_length t r hrlive), hor3, hrD⟩)
  · intro j1 hj1 j2 hj2 heq
    obtain ⟨hr1, hm1, -⟩ := Finset.mem_filter.mp hj1
    obtain ⟨hr2, hm2, -⟩ := Finset.mem_filter.mp hj2
    have hw1 := Finset.min'_mem _ (hS j1 hj1)
    have hw2 := Finset.min'_mem _ (hS j2 hj2)
    have heq2 : ((Finset.range t.otherHe.length).filter
        (fun r => sameOrbitN t j1 r ∧ r ∉ D)).min' (hS j1 hj1) =
      ((Finset.range t.otherHe.length).filter
        (fun r => sameOrbitN t j2 r ∧ r ∉ D)).min' (hS j2 hj2) := heq
    rw [heq2] at hw1
    obtain ⟨-, ho1, -⟩ := Finset.mem_filter.mp hw1
    obtain ⟨-, ho2, -⟩ := Finset.mem_filter.mp hw2
    have h12 : sameOrbitN t j1 j2 :=
      sameOrbitN_trans ht hm1.1 ho1 (sameOrbitN_symm ht hm2.1 ho2)
    have h21 : sameOrbitN t j2 j1 := sameOrbitN_symm ht hm1.1 h12
    have hle1 := hm1.2.2 j2 (Finset.mem_range.mp hr2) h12
    have hle2 := hm2.2.2 j1 (Finset.mem_range.mp hr1) h21
    omega
  · intro b hb
    obtain ⟨hbr, hbm⟩ := Finset.mem_filter.mp hb
    obtain ⟨hblive, hbD⟩ := (hlive b).mp hbm.1
    have hTne : ((Finset.range t.otherHe.length).filter
        (fun r => sameOrbitN t b r)).Nonempty :=
      ⟨b, Finset.mem_filter.mpr ⟨hbr, sameOrbitN_refl t b⟩⟩
    set j := ((Finset.range t.otherHe.length).filter
      (fun r => sameOrbitN t b r)).min' hTne with hjdef
    have hjmem := Finset.min'_mem _ hTne
    obtain ⟨hjr, hjo⟩ := Finset.mem_filter.mp hjmem
    have hjlive : liveN t j := sameOrbitN_liveN ht hblive hjo
    have hjob : sameOrbitN t j b := sameOrbitN_symm ht hblive hjo
    have hjmin : minRepN t j := by
      refine ⟨hjlive, Finset.mem_range.mp hjr, ?_⟩
      intro r hr hor
      have hbor : sameOrbitN t b r := sameOrbitN_trans ht hblive hjo hor
      exact Finset.min'_le _ r (Finset.mem_filter.mpr
        ⟨Finset.mem_range.mpr hr, hbor⟩)
    have hjsurv : j ∈ (Finset.range t.otherHe.length).filter
        (fun j => minRepN t j ∧ ∃ r ∈ Finset.range t.otherHe.length,
          sameOrbitN t j r ∧ r ∉ D) :=
      Finset.mem_filter.mpr ⟨hjr, hjmin, b, hbr, hjob, hbD⟩
    refine ⟨j, hjsurv, ?_⟩
    dsimp only
    have hbS : b ∈ (Finset.range t.otherHe.length).filter
        (fun r => sameOrbitN t j r ∧ r ∉ D) :=
      Finset.mem_filter.mpr ⟨hbr, hjob, hbD⟩
    refine le_antisymm (Finset.min'_le _ b hbS) (Finset.le_min' _ _ _ ?_)
    intro r hrS
    obtain ⟨hrr, hro, hrD⟩ := Finset.mem_filter.mp hrS
    have hrlive : liveN t r := sameOrbitN_liveN ht hjlive hro
    have hrlive' : liveN t' r := (hlive r).mpr ⟨hrlive, hrD⟩
    have hbor : sameOrbitN t b r :=
      sameOrbitN_trans ht hblive hjo hro
    have hbor' : sameOrbitN t' b r :=
      (horb b r hblive hbD hrlive hrD).mpr hbor
    exact hbm.2.2 r (by rw [hn]; exact Finset.mem_range.mp hrr) hbor'

theorem jointCountF_eq_of_survive (t t' : DotsAndBoxesState) (D : Finset Nat)
    (ht : WFnext t) (ht' : WFnext t')
    (hn : t'.otherHe.length = t.otherHe.length)
    (hlive : ∀ j : Nat, liveN t' j ↔ (liveN t j ∧ j ∉ D))
    (horb : ∀ a b : Nat, liveN t a → a ∉ D → liveN t b → b ∉ D →
       (sameOrbitN t' a b ↔ sameOrbitN t a b))
    (hall : ∀ j : Nat, minRepN t j →
       ∃ r ∈ Finset.range t.otherHe.length, sameOrbitN t j r ∧ r ∉ D) :
    jointCountF t' = jointCountF t := by
  rw [← jointCountF_rel t t' D ht ht' hn hlive horb]
  unfold jointCountF
  congr 1
  apply Finset.filter_congr
  intro j _
  constructor
  · intro h
    exact h.1
  · intro h
    exact ⟨h, hall j h⟩

theorem jointCountF_sub_one (t t' : DotsAndBoxesState) (D : Finset Nat)
    (ht : WFnext t) (ht' : WFnext t')
    (hn : t'.otherHe.length = t.otherHe.length)
    (hlive : ∀ j : Nat, liveN t' j ↔ (liveN t j ∧ j ∉ D))
    (horb : ∀ a b : Nat, liveN t a → a ∉ D → liveN t b → b ∉ D →
       (sameOrbitN t' a b ↔ sameOrbitN t a b))
    (w : Nat) (hw : minRepN t w)
    (hwD : ∀ r : Nat, sameOrbitN t w r → r ∈ D)
    (hall : ∀ j : Nat, minRepN t j → j ≠ w →
       ∃ r ∈ Finset.range t.otherHe.length, sameOrbitN t j r ∧ r ∉ D) :
    jointCountF t = jointCountF t' + 1 := by
  rw [← jointCountF_rel t t' D ht ht' hn hlive horb]
  have hset : (Finset.range t.otherHe.length).filter
      (fun j => minRepN t j ∧ ∃ r ∈ Finset.range t.otherHe.length,
        sameOrbitN t j r ∧ r ∉ D) =
      ((Finset.range t.otherHe.length).filter (fun j => minRepN t j)).erase w := by
    ext j
    rw [Finset.mem_erase, Finset.mem_filter, Finset.mem_filter]
    constructor
    · rintro ⟨hjr, hjm, r, hr1, hr2, hr3⟩
      refine ⟨?_, hjr, hjm⟩
      intro hjw
      subst hjw
      exact hr3 (hwD r hr2)
    · rintro ⟨hjw, hjr, hjm⟩
      exact ⟨hjr, hjm, hall j hjm hjw⟩
  have hwmem : w ∈ (Finset.range t.otherHe.length).filter (fun j => minRepN t j) :=
    Finset.mem_filter.mpr ⟨Finset.mem_range.mpr hw.2.1, hw⟩
  have hpos := Finset.card_pos.mpr ⟨w, hwmem⟩
  rw [hset, Finset.card_erase_of_mem hwmem]
  unfold jointCountF
  omega

theorem repN_congr (t t' : DotsAndBoxesState) (j : Nat)
    (h : pyGet t'.otherHe (j : Int) = pyGet t.otherHe (j : Int)) :
    repN t' j ↔ repN t j := by
  unfold repN liveN
  rw [h]

theorem pairSumF_rel (t t' : DotsAndBoxesState) (S : Finset Nat)
    (hn : t'.otherHe.length = t.otherHe.length)
    (hoff : ∀ j : Nat, j < t.otherHe.length → j ∉ S →
       pyGet t'.otherHe (j : Int) = pyGet t.otherHe (j : Int) ∧
       pyGet t'.heLengths (j : Int) = pyGet t.heLengths (j : Int)) :
    pairSumF t' + ∑ j ∈ (Finset.range t.otherHe.length).filter (fun j => j ∈ S),
        (if repN t j then pyGet t.heLengths (j : Int) else 0) =
      pairSumF t + ∑ j ∈ (Finset.range t.otherHe.length).filter (fun j => j ∈ S),
        (if repN t' j then pyGet t'.heLengths (j : Int) else 0) := by
  have hsplit : ∀ (u : DotsAndBoxesState),
      u.otherHe.length = t.otherHe.length →
      pairSumF u = (∑ j ∈ (Finset.range t.otherHe.length).filter (fun j => j ∈ S),
          (if repN u j then pyGet u.heLengths (j : Int) else 0)) +
        ∑ j ∈ (Finset.range t.otherHe.length).filter (fun j => j ∉ S),
          (if repN u j then pyGet u.heLengths (j : Int) else 0) := by
    intro u hu
    unfold pairSumF
    rw [hu]
    rw [Finset.sum_filter_add_sum_filter_not]
  rw [hsplit t rfl, hsplit t' hn]
  have hsame : ∑ j ∈ (Finset.range t.otherHe.length).filter (fun j => j ∉ S),
      (if repN t' j then pyGet t'.heLengths (j : Int) else 0) =
      ∑ j ∈ (Finset.range t.otherHe.length).filter (fun j => j ∉ S),
        (if repN t j then pyGet t.heLengths (j : Int) else 0) := by
    apply Finset.sum_congr rfl
    intro j hj
    obtain ⟨hjr, hjS⟩ := Finset.mem_filter.mp hj
    obtain ⟨h1, h2⟩ := hoff j (Finset.mem_range.mp hjr) hjS
    rw [h2]
    by_cases hrep : repN t j
    · rw [if_pos hrep, if_pos ((repN_congr t t' j h1).mpr hrep)]
    · rw [if_neg hrep, if_neg (fun hh => hrep ((repN_congr t t' j h1).mp hh))]
  rw [hsame]
  ring

theorem foldl_add_eq (l : List Int) : ∀ a : Int, l.foldl (· + ·) a = a + l.sum := by
  induction l with
  | nil => intro a; simp
  | cons x l ih =>
    intro a
    rw [List.foldl_cons, ih, List.sum_cons]
    ring

theorem sum_eraseIdx (l : List Int) : ∀ i : Nat, i < l.length →
    (l.eraseIdx i).sum = l.sum - l.getD i 0 := by
  induction l with
  | nil => intro i h; simp at h
  | cons a l ih =>
    intro i h
    cases i with
    | zero => simp [List.eraseIdx]
    | succ i =>
      have hi : i < l.length := by simpa using h
      rw [List.eraseIdx_cons_succ, List.sum_cons, ih i hi]
      simp [List.getD_cons_succ]
      ring

/-!
### Claim C3: when `simplifyLink` fires

On a well-formed state every `nextHe` read yields `REMOVED` or a live
index, so the guard `he1 != he and he2 == he` of `simplifyLink` can only
succeed at a live half-edge sitting on a rotation 2-cycle; everywhere
else the contraction is the identity.
-/

theorem nextVal_cases {s : DotsAndBoxesState} (hs : WFnext s) (x : Int) :
    pyGet s.nextHe x = REMOVED ∨
    ∃ v : Nat, v < s.otherHe.length ∧ liveN s v ∧
      pyGet s.nextHe x = (v : Int) := by
  rcases pyGet_cases s.nextHe x with h | ⟨j, hj, hx⟩
  · exact Or.inl h
  · have hj2 : j < s.otherHe.length := hs.hlen ▸ hj
    by_cases hl : liveN s j
    · exact Or.inr ⟨fnext s j, hs.fnext_lt hl, hs.fnext_liveN hl,
        by rw [hx]; exact hs.pyGet_nextHe hl⟩
    · left
      rw [hx]
      by_cases hr : pyGet s.nextHe (j : Int) = REMOVED
      · exact hr
      · exact absurd ((hs.hlive j hj2).mpr hr) hl

theorem simplifyLink_eq_self (s : DotsAndBoxesState) (x : Int)
    (hcond : ¬ (pyGet s.nextHe x ≠ x ∧
      pyGet s.nextHe (pyGet s.nextHe x) = x)) :
    s.simplifyLink x = s := by
  unfold DotsAndBoxesState.simplifyLink
  dsimp only
  by_cases hd : pyGet s.nextHe x = DEADEND
  · rw [if_pos hd]
  · rw [if_neg hd, if_neg hcond]

theorem simplifyLink_cases {s : DotsAndBoxesState} (hs : WFnext s) (x : Int) :
    s.simplifyLink x = s ∨
    ∃ h : Nat, h < s.otherHe.length ∧ liveN s h ∧ x = (h : Int) ∧
      fnext s h ≠ h ∧ fnext s (fnext s h) = h := by
  by_cases hcond : pyGet s.nextHe x ≠ x ∧
      pyGet s.nextHe (pyGet s.nextHe x) = x
  · obtain ⟨hne, heq⟩ := hcond
    rcases nextVal_cases hs x with hA | ⟨v, hv, hlv, hAv⟩
    · rw [hA] at hne heq
      rcases nextVal_cases hs (REMOVED : Int) with hB | ⟨w, hw, hlw, hBw⟩
      · rw [hB] at heq
        exact absurd heq hne
      · rw [hBw] at heq
        rw [← heq] at hA
        rw [hs.pyGet_nextHe hlw] at hA
        exfalso
        unfold REMOVED at hA
        omega
    · rw [hAv] at hne heq
      have hfl : liveN s (fnext s v) := hs.fnext_liveN hlv
      have hxh : x = ((fnext s v : Nat) : Int) := by
        rw [← heq, hs.pyGet_nextHe hlv]
      have hfv : fnext s (fnext s v) = v := by
        have h2 : pyGet s.nextHe (((fnext s v : Nat)) : Int) = (v : Int) := by
          rw [← hxh]
          exact hAv
        rw [hs.pyGet_nextHe hfl] at h2
        exact_mod_cast h2
      have hvne : v ≠ fnext s v := by
        intro hcontra
        apply hne
        rw [hxh, ← hcontra]
      right
      refine ⟨fnext s v, hs.fnext_lt hlv, hfl, hxh, ?_, ?_⟩
      · rw [hfv]
        exact hvne
      · rw [hfv]
  · exact Or.inl (simplifyLink_eq_self s x hcond)

theorem simplifyLink_not_live {s : DotsAndBoxesState} (hs : WFnext s) (x : Int)
    (hx : ∀ j : Nat, liveN s j → x ≠ (j : Int)) :
    s.simplifyLink x = s := by
  rcases simplifyLink_cases hs x with h | ⟨h, _, hl, hxh, _, _⟩
  · exact h
  · exact absurd hxh (hx h hl)

theorem simplifyLink_fire (s : DotsAndBoxesState) (hs : WFnext s) {h : Nat}
    (hl : liveN s h) (hne : fnext s h ≠ h) (hcyc : fnext s (fnext s h) = h) :
    s.simplifyLink (h : Int) =
      (let otherHe1 := pyGet s.otherHe ((fnext s h : Nat) : Int)
       let otherHe2 := pyGet s.otherHe (h : Int)
       let s1 :=
         if otherHe1 = (h : Int) then
           { s with indeps := s.indeps ++ [1 + pyGet s.heLengths otherHe2],
                    indepAreChains := s.indepAreChains ++ [false] }
         else
           let length := 1 + pyGet s.heLengths ((fnext s h : Nat) : Int) +
             pyGet s.heLengths (h : Int)
           let sa :=
             if otherHe1 ≠ DEADEND then
               { s with otherHe := pySet s.otherHe otherHe1 otherHe2,
                        heLengths := pySet s.heLengths otherHe1 length }
             else s
           let sb :=
             if otherHe2 ≠ DEADEND then
               { sa with otherHe := pySet sa.otherHe otherHe2 otherHe1,
                         heLengths := pySet sa.heLengths otherHe2 length }
             else sa
           if otherHe1 = DEADEND ∧ otherHe2 = DEADEND then
             { sb with indeps := sb.indeps ++ [length],
                       indepAreChains := sb.indepAreChains ++ [true] }
           else sb
       { s1 with
           heLengths := pySet (pySet s1.heLengths ((fnext s h : Nat) : Int) REMOVED)
             (h : Int) REMOVED,
           otherHe := pySet (pySet s1.otherHe ((fnext s h : Nat) : Int) REMOVED)
             (h : Int) REMOVED,
           nextHe := pySet (pySet s1.nextHe ((fnext s h : Nat) : Int) REMOVED)
             (h : Int) REMOVED }) := by
  have e1 : pyGet s.nextHe (h : Int) = ((fnext s h : Nat) : Int) :=
    hs.pyGet_nextHe hl
  have e2 : pyGet s.nextHe ((fnext s h : Nat) : Int) = (h : Int) := by
    rw [hs.pyGet_nextHe (hs.fnext_liveN hl), hcyc]
  unfold DotsAndBoxesState.simplifyLink
  dsimp only
  rw [e1, e2]
  rw [if_neg (by unfold DEADEND; omega)]
  rw [if_pos ⟨by exact_mod_cast fun hh => hne (by exact_mod_cast hh), rfl⟩]

/-!
### Claim C3: removing a rotation 2-cycle

Both branches of a firing `simplifyLink` delete the 2-cycle `{he, he1}`
from the live set and leave `nextHe` unchanged elsewhere, so the joint
count drops by exactly one and every other orbit is untouched.
-/

theorem liveN_of_natCast {t : DotsAndBoxesState} {j : Nat} {m : Nat}
    (h : pyGet t.otherHe (j : Int) = (m : Int)) : liveN t j := by
  unfold liveN
  rw [h]
  intro hh
  unfold REMOVED at hh
  omega

theorem iterate_congr (t t' : DotsAndBoxesState) (P : Nat → Prop)
    (hstep : ∀ z : Nat, P z → fnext t' z = fnext t z ∧ P (fnext t z)) :
    ∀ (k : Nat) (a : Nat), P a →
      (fnext t')^[k] a = (fnext t)^[k] a ∧ P ((fnext t)^[k] a) := by
  intro k
  induction k with
  | zero => intro a ha; exact ⟨rfl, ha⟩
  | succ k ih =>
    intro a ha
    rw [Function.iterate_succ_apply, Function.iterate_succ_apply]
    obtain ⟨he, hp⟩ := hstep a ha
    rw [he]
    exact ih (fnext t a) hp

theorem sameOrbitN_congr (t t' : DotsAndBoxesState) (P : Nat → Prop)
    (hlen : t'.otherHe.length = t.otherHe.length)
    (hstep : ∀ z : Nat, P z → fnext t' z = fnext t z ∧ P (fnext t z))
    (a b : Nat) (ha : P a) : sameOrbitN t' a b ↔ sameOrbitN t a b := by
  unfold sameOrbitN
  rw [hlen]
  constructor
  · rintro ⟨k, hk, hkb⟩
    refine ⟨k, hk, ?_⟩
    rw [← (iterate_congr t t' P hstep k a ha).1]
    exact hkb
  · rintro ⟨k, hk, hkb⟩
    refine ⟨k, hk, ?_⟩
    rw [(iterate_congr t t' P hstep k a ha).1]
    exact hkb

theorem twoCycle_closed {t : DotsAndBoxesState} (ht : WFnext t)
    {h h1 : Nat} (hl : liveN t h) (hl1 : liveN t h1)
    (hf : fnext t h = h1) (hf1 : fnext t h1 = h) :
    ∀ z : Nat, liveN t z → ¬(z = h ∨ z = h1) → ¬(fnext t z = h ∨ fnext t z = h1) := by
  intro z hz hzD hc
  rcases hc with hc | hc
  · rw [← hf1] at hc
    exact hzD (Or.inr (ht.fnext_inj hz hl1 hc))
  · rw [← hf] at hc
    exact hzD (Or.inl (ht.fnext_inj hz hl hc))

theorem twoCycle_orbit_mem {t : DotsAndBoxesState}
    {h h1 : Nat} (hf : fnext t h = h1) (hf1 : fnext t h1 = h) :
    ∀ k : Nat, ((fnext t)^[k] h = h ∨ (fnext t)^[k] h = h1) ∧
      ((fnext t)^[k] h1 = h ∨ (fnext t)^[k] h1 = h1) := by
  intro k
  induction k with
  | zero => exact ⟨Or.inl rfl, Or.inr rfl⟩
  | succ k ih =>
    rw [Function.iterate_succ_apply', Function.iterate_succ_apply']
    obtain ⟨ih1, ih2⟩ := ih
    constructor
    · rcases ih1 with e | e <;> rw [e]
      · rw [hf]; exact Or.inr rfl
      · rw [hf1]; exact Or.inl rfl
    · rcases ih2 with e | e <;> rw [e]
      · rw [hf]; exact Or.inr rfl
      · rw [hf1]; exact Or.inl rfl

theorem twoCycle_WFnext (t t' : DotsAndBoxesState) (ht : WFnext t)
    {h h1 : Nat} (hl : liveN t h) (hl1 : liveN t h1)
    (hf : fnext t h = h1) (hf1 : fnext t h1 = h)
    (hlen1 : t'.otherHe.length = t.otherHe.length)
    (hlen2 : t'.nextHe.length = t.nextHe.length)
    (hlive : ∀ j : Nat, liveN t' j ↔ (liveN t j ∧ ¬(j = h ∨ j = h1)))
    (hnextAt : ∀ j : Nat, j < t.otherHe.length →
       pyGet t'.nextHe (j : Int) =
         (if j = h ∨ j = h1 then REMOVED else pyGet t.nextHe (j : Int))) :
    WFnext t' ∧
      (∀ z : Nat, liveN t z → ¬(z = h ∨ z = h1) → fnext t' z = fnext t z) := by
  have hstep : ∀ z : Nat, liveN t z → ¬(z = h ∨ z = h1) →
      fnext t' z = fnext t z := by
    intro z hz hzD
    unfold fnext
    rw [hnextAt z (liveN_lt_length t z hz), if_neg hzD]
  refine ⟨⟨?_, ?_, ?_, ?_⟩, hstep⟩
  · rw [hlen2, ht.hlen, hlen1]
  · intro j hj
    rw [hlen1] at hj
    rw [hnextAt j hj]
    by_cases hD : j = h ∨ j = h1
    · rw [if_pos hD]
      constructor
      · intro hlj
        exact absurd ((hlive j).mp hlj).2 (fun hk => hk hD)
      · intro hk
        exact absurd rfl hk
    · rw [if_neg hD]
      rw [hlive j]
      constructor
      · intro hlj
        exact (ht.hlive j (hlen1 ▸ hj)).mp hlj.1
      · intro hv
        exact ⟨(ht.hlive j (hlen1 ▸ hj)).mpr hv, hD⟩
  · intro j hj hlj
    obtain ⟨hjt, hjD⟩ := (hlive j).mp hlj
    have hfj := hstep j hjt hjD
    have hofD := twoCycle_closed ht hl hl1 hf hf1 j hjt hjD
    refine ⟨?_, ?_, ?_⟩
    · rw [hnextAt j (by rw [hlen1] at hj; exact hj), if_neg hjD, hfj]
      exact ht.pyGet_nextHe hjt
    · rw [hfj, hlen1]
      exact ht.fnext_lt hjt
    · rw [hfj]
      exact (hlive _).mpr ⟨ht.fnext_liveN hjt, hofD⟩
  · intro a ha b hb hla hlb heq
    obtain ⟨hat, haD⟩ := (hlive a).mp hla
    obtain ⟨hbt, hbD⟩ := (hlive b).mp hlb
    rw [hstep a hat haD, hstep b hbt hbD] at heq
    exact ht.fnext_inj hat hbt heq

theorem twoCycle_joint (t t' : DotsAndBoxesState) (ht : WFnext t) (ht' : WFnext t')
    {h h1 : Nat} (hl : liveN t h) (hl1 : liveN t h1) (hne : h1 ≠ h)
    (hf : fnext t h = h1) (hf1 : fnext t h1 = h)
    (hn : t'.otherHe.length = t.otherHe.length)
    (hlive : ∀ j : Nat, liveN t' j ↔ (liveN t j ∧ ¬(j = h ∨ j = h1)))
    (hnext : ∀ z : Nat, liveN t z → ¬(z = h ∨ z = h1) → fnext t' z = fnext t z) :
    jointCountF t = jointCountF t' + 1 := by
  have hstep : ∀ z : Nat, (liveN t z ∧ ¬(z = h ∨ z = h1)) →
      fnext t' z = fnext t z ∧
        (liveN t (fnext t z) ∧ ¬(fnext t z = h ∨ fnext t z = h1)) := by
    rintro z ⟨hz, hzD⟩
    exact ⟨hnext z hz hzD, ht.fnext_liveN hz,
      twoCycle_closed ht hl hl1 hf hf1 z hz hzD⟩
  have hliveD : ∀ j : Nat, liveN t' j ↔ (liveN t j ∧ j ∉ ({h, h1} : Finset Nat)) := by
    intro j
    rw [hlive j]
    simp [Finset.mem_insert, Finset.mem_singleton]
  have horb : ∀ a b : Nat, liveN t a → a ∉ ({h, h1} : Finset Nat) →
      liveN t b → b ∉ ({h, h1} : Finset Nat) →
      (sameOrbitN t' a b ↔ sameOrbitN t a b) := by
    intro a b hla haD hlb hbD
    refine sameOrbitN_congr t t'
      (fun z => liveN t z ∧ ¬(z = h ∨ z = h1)) hn hstep a b ⟨hla, ?_⟩
    simp only [Finset.mem_insert, Finset.mem_singleton] at haD
    exact haD
  have hmemD : ∀ j : Nat, j ∈ ({h, h1} : Finset Nat) ↔ (j = h ∨ j = h1) := by
    intro j
    simp [Finset.mem_insert, Finset.mem_singleton]
  have horbD : ∀ w r : Nat, (w = h ∨ w = h1) → sameOrbitN t w r →
      (r = h ∨ r = h1) := by
    rintro w r hw ⟨k, _, hk⟩
    rcases hw with rfl | rfl
    · rw [← hk]
      exact (twoCycle_orbit_mem hf hf1 k).1
    · rw [← hk]
      exact (twoCycle_orbit_mem hf hf1 k).2
  have hn1 : 1 < t.otherHe.length + 1 := by
    have := liveN_lt_length t h hl
    omega
  rcases Nat.lt_or_ge h h1 with hlt | hge
  · refine jointCountF_sub_one t t' ({h, h1} : Finset Nat) ht ht' hn
      (fun j => by rw [hliveD j]) horb h ?_ ?_ ?_
    · refine ⟨hl, liveN_lt_length t h hl, ?_⟩
      intro r hr hor
      rcases horbD h r (Or.inl rfl) hor with rfl | rfl
      · exact le_rfl
      · omega
    · intro r hor
      rw [hmemD r]
      exact horbD h r (Or.inl rfl) hor
    · intro j hjm hjw
      have hjD : j ∉ ({h, h1} : Finset Nat) := by
        rw [hmemD j]
        rintro (rfl | rfl)
        · exact hjw rfl
        · have := hjm.2.2 h (liveN_lt_length t h hl) ⟨1, hn1, hf1⟩
          omega
      exact ⟨j, Finset.mem_range.mpr hjm.2.1, sameOrbitN_refl t j, hjD⟩
  · have hlt : h1 < h := by omega
    refine jointCountF_sub_one t t' ({h, h1} : Finset Nat) ht ht' hn
      (fun j => by rw [hliveD j]) horb h1 ?_ ?_ ?_
    · refine ⟨hl1, liveN_lt_length t h1 hl1, ?_⟩
      intro r hr hor
      rcases horbD h1 r (Or.inr rfl) hor with rfl | rfl
      · omega
      · exact le_rfl
    · intro r hor
      rw [hmemD r]
      exact horbD h1 r (Or.inr rfl) hor
    · intro j hjm hjw
      have hjD : j ∉ ({h, h1} : Finset Nat) := by
        rw [hmemD j]
        rintro (rfl | rfl)
        · have := hjm.2.2 h1 (liveN_lt_length t h1 hl1) ⟨1, hn1, hf⟩
          omega
        · exact hjw rfl
      exact ⟨j, Finset.mem_range.mpr hjm.2.1, sameOrbitN_refl t j, hjD⟩

theorem pair_terms (t : DotsAndBoxesState) {a b : Nat} (hab : a ≠ b)
    (hoa : pyGet t.otherHe (a : Int) = (b : Int))
    (hob : pyGet t.otherHe (b : Int) = (a : Int))
    (hlen : pyGet t.heLengths (a : Int) = pyGet t.heLengths (b : Int)) :
    (if repN t a then pyGet t.heLengths (a : Int) else 0) +
      (if repN t b then pyGet t.heLengths (b : Int) else 0) =
      pyGet t.heLengths (a : Int) := by
  have hla : liveN t a := liveN_of_natCast hoa
  have hlb : liveN t b := liveN_of_natCast hob
  rcases Nat.lt_or_ge a b with hlt | hge
  · have hra : repN t a := ⟨hla, Or.inr (by rw [hoa]; exact_mod_cast hlt)⟩
    have hrb : ¬ repN t b := by
      rintro ⟨-, hca | hca⟩
      · rw [hob] at hca
        unfold DEADEND at hca
        omega
      · rw [hob] at hca
        omega
    rw [if_pos hra, if_neg hrb]
    ring
  · have hlt : b < a := by omega
    have hrb : repN t b := ⟨hlb, Or.inr (by rw [hob]; exact_mod_cast hlt)⟩
    have hra : ¬ repN t a := by
      rintro ⟨-, hca | hca⟩
      · rw [hoa] at hca
        unfold DEADEND at hca
        omega
      · rw [hoa] at hca
        omega
    rw [if_neg hra, if_pos hrb, hlen]
    ring

theorem dead_term (t : DotsAndBoxesState) (j : Nat) (hd : ¬ liveN t j) :
    (if repN t j then pyGet t.heLengths (j : Int) else 0) = 0 := by
  rw [if_neg (fun hr => hd hr.1)]

theorem simplifyLink_fire_loop (t : DotsAndBoxesState) (ht : WFnext t)
    {h : Nat} (hl : liveN t h) (hne : fnext t h ≠ h)
    (hcyc : fnext t (fnext t h) = h)
    (hloop : pyGet t.otherHe ((fnext t h : Nat) : Int) = (h : Int)) :
    t.simplifyLink (h : Int) =
      { otherHe := pySet (pySet t.otherHe ((fnext t h : Nat) : Int) REMOVED)
          (h : Int) REMOVED,
        nextHe := pySet (pySet t.nextHe ((fnext t h : Nat) : Int) REMOVED)
          (h : Int) REMOVED,
        heLengths := pySet (pySet t.heLengths ((fnext t h : Nat) : Int) REMOVED)
          (h : Int) REMOVED,
        indeps := t.indeps ++ [1 + pyGet t.heLengths (pyGet t.otherHe (h : Int))],
        indepAreChains := t.indepAreChains ++ [false],
        looneyValue := t.looneyValue,
        score := t.score,
        whoToMove := t.whoToMove } := by
  rw [simplifyLink_fire t ht hl hne hcyc]
  dsimp only
  rw [if_pos hloop]

theorem simplifyLink_fire_chain_LL (t : DotsAndBoxesState) (ht : WFnext t)
    {h pm qm : Nat} (hl : liveN t h) (hne : fnext t h ≠ h)
    (hcyc : fnext t (fnext t h) = h)
    (hpm : pyGet t.otherHe ((fnext t h : Nat) : Int) = (pm : Int))
    (hqm : pyGet t.otherHe (h : Int) = (qm : Int))
    (hpmh : pm ≠ h) :
    t.simplifyLink (h : Int) =
      { otherHe := pySet (pySet (pySet (pySet t.otherHe (pm : Int) (qm : Int))
          (qm : Int) (pm : Int)) ((fnext t h : Nat) : Int) REMOVED) (h : Int) REMOVED,
        nextHe := pySet (pySet t.nextHe ((fnext t h : Nat) : Int) REMOVED)
          (h : Int) REMOVED,
        heLengths := pySet (pySet (pySet (pySet t.heLengths (pm : Int)
            (1 + pyGet t.heLengths ((fnext t h : Nat) : Int) +
              pyGet t.heLengths (h : Int)))
          (qm : Int)
            (1 + pyGet t.heLengths ((fnext t h : Nat) : Int) +
              pyGet t.heLengths (h : Int)))
          ((fnext t h : Nat) : Int) REMOVED) (h : Int) REMOVED,
        indeps := t.indeps,
        indepAreChains := t.indepAreChains,
        looneyValue := t.looneyValue,
        score := t.score,
        whoToMove := t.whoToMove } := by
  rw [simplifyLink_fire t ht hl hne hcyc]
  dsimp only
  rw [hpm, hqm]
  have c1 : ¬ ((pm : Int) = (h : Int)) := by
    intro hh
    exact hpmh (by exact_mod_cast hh)
  have c2 : ((pm : Int)) ≠ DEADEND := by unfold DEADEND; omega
  have c3 : ((qm : Int)) ≠ DEADEND := by unfold DEADEND; omega
  have c4 : ¬ (((pm : Int)) = DEADEND ∧ ((qm : Int)) = DEADEND) := by
    rintro ⟨hh, -⟩
    exact c2 hh
  rw [if_neg c1, if_pos c2, if_pos c3, if_neg c4]

theorem simplifyLink_fire_chain_LD (t : DotsAndBoxesState) (ht : WFnext t)
    {h pm : Nat} (hl : liveN t h) (hne : fnext t h ≠ h)
    (hcyc : fnext t (fnext t h) = h)
    (hpm : pyGet t.otherHe ((fnext t h : Nat) : Int) = (pm : Int))
    (hqm : pyGet t.otherHe (h : Int) = DEADEND)
    (hpmh : pm ≠ h) :
    t.simplifyLink (h : Int) =
      { otherHe := pySet (pySet (pySet t.otherHe (pm : Int) DEADEND)
          ((fnext t h : Nat) : Int) REMOVED) (h : Int) REMOVED,
        nextHe := pySet (pySet t.nextHe ((fnext t h : Nat) : Int) REMOVED)
          (h : Int) REMOVED,
        heLengths := pySet (pySet (pySet t.heLengths (pm : Int)
            (1 + pyGet t.heLengths ((fnext t h : Nat) : Int) +
              pyGet t.heLengths (h : Int)))
          ((fnext t h : Nat) : Int) REMOVED) (h : Int) REMOVED,
        indeps := t.indeps,
        indepAreChains := t.indepAreChains,
        looneyValue := t.looneyValue,
        score := t.score,
        whoToMove := t.whoToMove } := by
  rw [simplifyLink_fire t ht hl hne hcyc]
  dsimp only
  rw [hpm, hqm]
  have c1 : ¬ ((pm : Int) = (h : Int)) := by
    intro hh
    exact hpmh (by exact_mod_cast hh)
  have c2 : ((pm : Int)) ≠ DEADEND := by unfold DEADEND; omega
  have c3 : ¬ ((DEADEND : Int) ≠ DEADEND) := fun hh => hh rfl
  have c4 : ¬ (((pm : Int)) = DEADEND ∧ (DEADEND : Int) = DEADEND) := by
    rintro ⟨hh, -⟩
    exact c2 hh
  rw [if_neg c1, if_pos c2, if_neg c3, if_neg c4]

theorem simplifyLink_fire_chain_DL (t : DotsAndBoxesState) (ht : WFnext t)
    {h qm : Nat} (hl : liveN t h) (hne : fnext t h ≠ h)
    (hcyc : fnext t (fnext t h) = h)
    (hpm : pyGet t.otherHe ((fnext t h : Nat) : Int) = DEADEND)
    (hqm : pyGet t.otherHe (h : Int) = (qm : Int)) :
    t.simplifyLink (h : Int) =
      { otherHe := pySet (pySet (pySet t.otherHe (qm : Int) DEADEND)
          ((fnext t h : Nat) : Int) REMOVED) (h : Int) REMOVED,
        nextHe := pySet (pySet t.nextHe ((fnext t h : Nat) : Int) REMOVED)
          (h : Int) REMOVED,
        heLengths := pySet (pySet (pySet t.heLengths (qm : Int)
            (1 + pyGet t.heLengths ((fnext t h : Nat) : Int) +
              pyGet t.heLengths (h : Int)))
          ((fnext t h : Nat) : Int) REMOVED) (h : Int) REMOVED,
        indeps := t.indeps,
        indepAreChains := t.indepAreChains,
        looneyValue := t.looneyValue,
        score := t.score,
        whoToMove := t.whoToMove } := by
  rw [simplifyLink_fire t ht hl hne hcyc]
  dsimp only
  rw [hpm, hqm]
  have c1 : ¬ ((DEADEND : Int) = (h : Int)) := by unfold DEADEND; omega
  have c2 : ¬ ((DEADEND : Int) ≠ DEADEND) := fun hh => hh rfl
  have c3 : ((qm : Int)) ≠ DEADEND := by unfold DEADEND; omega
  have c4 : ¬ ((DEADEND : Int) = DEADEND ∧ ((qm : Int)) = DEADEND) := by
    rintro ⟨-, hh⟩
    exact c3 hh
  rw [if_neg c1, if_neg c2, if_pos c3, if_neg c4]

theorem simplifyLink_fire_chain_DD (t : DotsAndBoxesState) (ht : WFnext t)
    {h : Nat} (hl : liveN t h) (hne : fnext t h ≠ h)
    (hcyc : fnext t (fnext t h) = h)
    (hpm : pyGet t.otherHe ((fnext t h : Nat) : Int) = DEADEND)
    (hqm : pyGet t.otherHe (h : Int) = DEADEND) :
    t.simplifyLink (h : Int) =
      { otherHe := pySet (pySet t.otherHe ((fnext t h : Nat) : Int) REMOVED)
          (h : Int) REMOVED,
        nextHe := pySet (pySet t.nextHe ((fnext t h : Nat) : Int) REMOVED)
          (h : Int) REMOVED,
        heLengths := pySet (pySet t.heLengths ((fnext t h : Nat) : Int) REMOVED)
          (h : Int) REMOVED,
        indeps := t.indeps ++ [1 + pyGet t.heLengths ((fnext t h : Nat) : Int) +
          pyGet t.heLengths (h : Int)],
        indepAreChains := t.indepAreChains ++ [true],
        looneyValue := t.looneyValue,
        score := t.score,
        whoToMove := t.whoToMove } := by
  rw [simplifyLink_fire t ht hl hne hcyc]
  dsimp only
  rw [hpm, hqm]
  have c1 : ¬ ((DEADEND : Int) = (h : Int)) := by unfold DEADEND; omega
  have c2 : ¬ ((DEADEND : Int) ≠ DEADEND) := fun hh => hh rfl
  have c4 : (DEADEND : Int) = DEADEND ∧ (DEADEND : Int) = DEADEND := ⟨rfl, rfl⟩
  rw [if_neg c1, if_neg c2, if_neg c2, if_pos c4]

theorem simplifyLink_loop_num (t : DotsAndBoxesState) (ht : WFnext t)
    (hp : WFpair t) {h : Nat} (hl : liveN t h) (hne : fnext t h ≠ h)
    (hcyc : fnext t (fnext t h) = h)
    (hloop : pyGet t.otherHe ((fnext t h : Nat) : Int) = (h : Int)) :
    WFs (t.simplifyLink (h : Int)) ∧
      (t.simplifyLink (h : Int)).numBoxesLeft = t.numBoxesLeft := by
  have hfo := simplifyLink_fire_loop t ht hl hne hcyc hloop
  set t' := t.simplifyLink (h : Int) with ht'def
  set h1 := fnext t h with hh1
  have hf : fnext t h = h1 := hh1.symm
  have hf1 : fnext t h1 = h := by rw [hh1]; exact hcyc
  have hl1 : liveN t h1 := by rw [hh1]; exact ht.fnext_liveN hl
  have hlt : h < t.otherHe.length := liveN_lt_length t h hl
  have hlt1 : h1 < t.otherHe.length := liveN_lt_length t h1 hl1
  have hne' : h1 ≠ h := by rw [hh1]; exact hne
  have hO : t'.otherHe =
      pySet (pySet t.otherHe (h1 : Int) REMOVED) (h : Int) REMOVED := by rw [hfo]
  have hN : t'.nextHe =
      pySet (pySet t.nextHe (h1 : Int) REMOVED) (h : Int) REMOVED := by rw [hfo]
  have hH : t'.heLengths =
      pySet (pySet t.heLengths (h1 : Int) REMOVED) (h : Int) REMOVED := by rw [hfo]
  have hI : t'.indeps =
      t.indeps ++ [1 + pyGet t.heLengths (pyGet t.otherHe (h : Int))] := by rw [hfo]
  have hLV : t'.looneyValue = t.looneyValue := by rw [hfo]
  -- the loop pair: h and h1 are partners with equal cached lengths
  have hrevLen : pyGet t.otherHe (h : Int) = (h1 : Int) ∧
      pyGet t.heLengths (h : Int) = pyGet t.heLengths (h1 : Int) := by
    rcases hp.partner_cases hl1 with hd | ⟨m, hm1, hm2, hm3, hm4, hm5, hm6⟩
    · rw [hloop] at hd
      exfalso
      unfold DEADEND at hd
      omega
    · have hmh : m = h := by
        rw [hloop] at hm3
        exact_mod_cast hm3.symm
      subst hmh
      exact ⟨hm5, hm6⟩
  obtain ⟨hrev, hLeq⟩ := hrevLen
  have hlen1 : t'.otherHe.length = t.otherHe.length := by
    rw [hO, pySet_length, pySet_length]
  have hlen2 : t'.nextHe.length = t.nextHe.length := by
    rw [hN, pySet_length, pySet_length]
  have hlen3 : t'.heLengths.length = t.heLengths.length := by
    rw [hH, pySet_length, pySet_length]
  have hOat : ∀ j : Nat, j < t.otherHe.length →
      pyGet t'.otherHe (j : Int) =
        (if j = h ∨ j = h1 then REMOVED else pyGet t.otherHe (j : Int)) := by
    intro j hj
    rw [hO]
    by_cases hjh : j = h
    · subst hjh
      rw [pyGet_pySet_self _ _ _ (by rw [pySet_length]; exact hj)]
      rw [if_pos (Or.inl rfl)]
    · rw [pyGet_pySet_ne _ _ _ _ (fun hh => hjh hh.symm)]
      by_cases hjh1 : j = h1
      · subst hjh1
        rw [pyGet_pySet_self _ _ _ hlt1]
        rw [if_pos (Or.inr rfl)]
      · rw [pyGet_pySet_ne _ _ _ _ (fun hh => hjh1 hh.symm)]
        rw [if_neg (by rintro (hh | hh) <;> [exact hjh hh; exact hjh1 hh])]
  have hNat2 : ∀ j : Nat, j < t.otherHe.length →
      pyGet t'.nextHe (j : Int) =
        (if j = h ∨ j = h1 then REMOVED else pyGet t.nextHe (j : Int)) := by
    intro j hj
    rw [hN]
    by_cases hjh : j = h
    · subst hjh
      rw [pyGet_pySet_self _ _ _ (by rw [pySet_length, ht.hlen]; exact hj)]
      rw [if_pos (Or.inl rfl)]
    · rw [pyGet_pySet_ne _ _ _ _ (fun hh => hjh hh.symm)]
      by_cases hjh1 : j = h1
      · subst hjh1
        rw [pyGet_pySet_self _ _ _ (by rw [ht.hlen]; exact hlt1)]
        rw [if_pos (Or.inr rfl)]
      · rw [pyGet_pySet_ne _ _ _ _ (fun hh => hjh1 hh.symm)]
        rw [if_neg (by rintro (hh | hh) <;> [exact hjh hh; exact hjh1 hh])]
  have hHat : ∀ j : Nat, j < t.otherHe.length →
      pyGet t'.heLengths (j : Int) =
        (if j = h ∨ j = h1 then REMOVED else pyGet t.heLengths (j : Int)) := by
    intro j hj
    rw [hH]
    by_cases hjh : j = h
    · subst hjh
      rw [pyGet_pySet_self _ _ _ (by rw [pySet_length, hp.hlen]; exact hj)]
      rw [if_pos (Or.inl rfl)]
    · rw [pyGet_pySet_ne _ _ _ _ (fun hh => hjh hh.symm)]
      by_cases hjh1 : j = h1
      · subst hjh1
        rw [pyGet_pySet_self _ _ _ (by rw [hp.hlen]; exact hlt1)]
        rw [if_pos (Or.inr rfl)]
      · rw [pyGet_pySet_ne _ _ _ _ (fun hh => hjh1 hh.symm)]
        rw [if_neg (by rintro (hh | hh) <;> [exact hjh hh; exact hjh1 hh])]
  have hliveIff : ∀ j : Nat, liveN t' j ↔ (liveN t j ∧ ¬(j = h ∨ j = h1)) := by
    intro j
    by_cases hj : j < t.otherHe.length
    · unfold liveN
      rw [hOat j hj]
      by_cases hD : j = h ∨ j = h1
      · rw [if_pos hD]
        constructor
        · intro hh
          exact absurd rfl hh
        · rintro ⟨-, hk⟩
          exact absurd hD hk
      · rw [if_neg hD]
        exact ⟨fun hh => ⟨hh, hD⟩, fun hh => hh.1⟩
    · constructor
      · intro hh
        exact absurd (by rw [← hlen1]; exact liveN_lt_length t' j hh) hj
      · rintro ⟨hh, -⟩
        exact absurd (liveN_lt_length t j hh) hj
  obtain ⟨hWFn, hstep⟩ := twoCycle_WFnext t t' ht hl hl1 hf hf1 hlen1 hlen2
    hliveIff hNat2
  have hWFp : WFpair t' := by
    refine ⟨by rw [hlen3, hp.hlen, hlen1], ?_⟩
    intro j hj hlj
    rw [hlen1] at hj
    obtain ⟨hjt, hjD⟩ := (hliveIff j).mp hlj
    rw [hOat j hj, if_neg hjD, hHat j hj, if_neg hjD]
    rcases hp.partner_cases hjt with hd | ⟨m, hm1, hm2, hm3, hm4, hm5, hm6⟩
    · exact Or.inl hd
    · have hmD : ¬(m = h ∨ m = h1) := by
        rintro (rfl | rfl)
        · rw [hrev] at hm5
          exact hjD (Or.inr (by exact_mod_cast hm5.symm))
        · rw [hloop] at hm5
          exact hjD (Or.inl (by exact_mod_cast hm5.symm))
      refine Or.inr ⟨m, by omega, hm2, hm3, (hliveIff m).mpr ⟨hm4, hmD⟩, ?_, ?_⟩
      · rw [hOat m hm1, if_neg hmD]
        exact hm5
      · rw [hHat m hm1, if_neg hmD]
        exact hm6
  have hJ : jointCountF t = jointCountF t' + 1 :=
    twoCycle_joint t t' ht hWFn hl hl1 hne' hf hf1 hlen1 hliveIff hstep
  have hSsub : ∀ j ∈ ({h, h1} : Finset Nat), j < t.otherHe.length := by
    intro j hj
    rcases Finset.mem_insert.mp hj with rfl | hj2
    · exact hlt
    · rw [Finset.mem_singleton.mp hj2]
      exact hlt1
  have hfilter : (Finset.range t.otherHe.length).filter
      (fun j => j ∈ ({h, h1} : Finset Nat)) = ({h, h1} : Finset Nat) := by
    ext j
    simp only [Finset.mem_filter, Finset.mem_range]
    constructor
    · rintro ⟨-, hj⟩
      exact hj
    · intro hj
      exact ⟨hSsub j hj, hj⟩
  have hmemD : ∀ j : Nat, j ∈ ({h, h1} : Finset Nat) ↔ (j = h ∨ j = h1) := by
    intro j
    simp [Finset.mem_insert, Finset.mem_singleton]
  have hPrel := pairSumF_rel t t' ({h, h1} : Finset Nat) hlen1 (by
    intro j hj hjS
    rw [hmemD j] at hjS
    rw [hOat j hj, if_neg hjS, hHat j hj, if_neg hjS]
    exact ⟨rfl, rfl⟩)
  rw [hfilter] at hPrel
  have hhne : h ≠ h1 := fun hh => hne' hh.symm
  have hPt : ∑ j ∈ ({h, h1} : Finset Nat),
      (if repN t j then pyGet t.heLengths (j : Int) else 0) =
      pyGet t.heLengths (h : Int) := by
    rw [Finset.sum_pair hhne]
    exact pair_terms t hhne hrev hloop hLeq
  have hPt' : ∑ j ∈ ({h, h1} : Finset Nat),
      (if repN t' j then pyGet t'.heLengths (j : Int) else 0) = 0 := by
    rw [Finset.sum_pair hhne]
    rw [dead_term t' h (by rw [hliveIff h]; rintro ⟨-, hk⟩; exact hk (Or.inl rfl))]
    rw [dead_term t' h1 (by rw [hliveIff h1]; rintro ⟨-, hk⟩; exact hk (Or.inr rfl))]
    ring
  rw [hPt, hPt'] at hPrel
  have hIsum : t'.indeps.foldl (· + ·) 0 =
      t.indeps.foldl (· + ·) 0 + (1 + pyGet t.heLengths (h : Int)) := by
    rw [hI, hrev, foldl_add_eq, foldl_add_eq, List.sum_append, List.sum_singleton,
      ← hLeq]
    ring
  refine ⟨⟨hWFn, hWFp⟩, ?_⟩
  rw [numBoxesLeft_eq t ⟨ht, hp⟩, numBoxesLeft_eq t' ⟨hWFn, hWFp⟩, hLV, hIsum]
  omega

theorem simplifyLink_chain_LL_num (t : DotsAndBoxesState) (ht : WFnext t)
    (hp : WFpair t) {h pm qm : Nat} (hl : liveN t h) (hne : fnext t h ≠ h)
    (hcyc : fnext t (fnext t h) = h)
    (hpm3 : pyGet t.otherHe ((fnext t h : Nat) : Int) = (pm : Int))
    (hpm4 : liveN t pm)
    (hpm5 : pyGet t.otherHe (pm : Int) = ((fnext t h : Nat) : Int))
    (hpm6 : pyGet t.heLengths (pm : Int) = pyGet t.heLengths ((fnext t h : Nat) : Int))
    (hpm2 : pm ≠ fnext t h) (hpmh : pm ≠ h)
    (hqm3 : pyGet t.otherHe (h : Int) = (qm : Int))
    (hqm4 : liveN t qm)
    (hqm5 : pyGet t.otherHe (qm : Int) = (h : Int))
    (hqm6 : pyGet t.heLengths (qm : Int) = pyGet t.heLengths (h : Int))
    (hqm2 : qm ≠ h) :
    WFs (t.simplifyLink (h : Int)) ∧
      (t.simplifyLink (h : Int)).numBoxesLeft = t.numBoxesLeft := by
  have hfo := simplifyLink_fire_chain_LL t ht hl hne hcyc hpm3 hqm3 hpmh
  set t' := t.simplifyLink (h : Int) with ht'def
  set h1 := fnext t h with hh1
  set L := 1 + pyGet t.heLengths (h1 : Int) + pyGet t.heLengths (h : Int) with hLdef
  have hf : fnext t h = h1 := hh1.symm
  have hf1 : fnext t h1 = h := by rw [hh1]; exact hcyc
  have hl1 : liveN t h1 := by rw [hh1]; exact ht.fnext_liveN hl
  have hlt : h < t.otherHe.length := liveN_lt_length t h hl
  have hlt1 : h1 < t.otherHe.length := liveN_lt_length t h1 hl1
  have hltpm : pm < t.otherHe.length := liveN_lt_length t pm hpm4
  have hltqm : qm < t.otherHe.length := liveN_lt_length t qm hqm4
  have hne' : h1 ≠ h := by rw [hh1]; exact hne
  have hqm1 : qm ≠ h1 := by
    intro hk
    rw [← hk] at hpm3
    rw [hqm5] at hpm3
    have hph : pm = h := by exact_mod_cast hpm3.symm
    exact hpmh hph
  have hpmqm : pm ≠ qm := by
    intro hk
    rw [hk, hqm5] at hpm5
    have hph : h1 = h := by exact_mod_cast hpm5.symm
    exact hne' hph
  have hO : t'.otherHe = pySet (pySet (pySet (pySet t.otherHe (pm : Int) (qm : Int))
      (qm : Int) (pm : Int)) (h1 : Int) REMOVED) (h : Int) REMOVED := by rw [hfo]
  have hN : t'.nextHe =
      pySet (pySet t.nextHe (h1 : Int) REMOVED) (h : Int) REMOVED := by rw [hfo]
  have hH : t'.heLengths = pySet (pySet (pySet (pySet t.heLengths (pm : Int) L)
      (qm : Int) L) (h1 : Int) REMOVED) (h : Int) REMOVED := by rw [hfo]
  have hI : t'.indeps = t.indeps := by rw [hfo]
  have hLV : t'.looneyValue = t.looneyValue := by rw [hfo]
  have hlen1 : t'.otherHe.length = t.otherHe.length := by
    rw [hO, pySet_length, pySet_length, pySet_length, pySet_length]
  have hlen2 : t'.nextHe.length = t.nextHe.length := by
    rw [hN, pySet_length, pySet_length]
  have hlen3 : t'.heLengths.length = t.heLengths.length := by
    rw [hH, pySet_length, pySet_length, pySet_length, pySet_length]
  have hOat_h : pyGet t'.otherHe (h : Int) = REMOVED := by
    rw [hO]
    rw [pyGet_pySet_self _ _ _
      (by rw [pySet_length, pySet_length, pySet_length]; exact hlt)]
  have hOat_h1 : pyGet t'.otherHe (h1 : Int) = REMOVED := by
    rw [hO, pyGet_pySet_ne _ _ _ _ (fun hh => hne' hh.symm)]
    rw [pyGet_pySet_self _ _ _
      (by rw [pySet_length, pySet_length]; exact hlt1)]
  have hOat_pm : pyGet t'.otherHe (pm : Int) = (qm : Int) := by
    rw [hO, pyGet_pySet_ne _ _ _ _ (fun hh => hpmh hh.symm),
      pyGet_pySet_ne _ _ _ _ (fun hh => hpm2 hh.symm),
      pyGet_pySet_ne _ _ _ _ (fun hh => hpmqm hh.symm),
      pyGet_pySet_self _ _ _ hltpm]
  have hOat_qm : pyGet t'.otherHe (qm : Int) = (pm : Int) := by
    rw [hO, pyGet_pySet_ne _ _ _ _ (fun hh => hqm2 hh.symm),
      pyGet_pySet_ne _ _ _ _ (fun hh => hqm1 hh.symm),
      pyGet_pySet_self _ _ _ (by rw [pySet_length]; exact hltqm)]
  have hOat_other : ∀ j : Nat, j ≠ h → j ≠ h1 → j ≠ pm → j ≠ qm →
      pyGet t'.otherHe (j : Int) = pyGet t.otherHe (j : Int) := by
    intro j b1 b2 b3 b4
    rw [hO, pyGet_pySet_ne _ _ _ _ (fun hh => b1 hh.symm),
      pyGet_pySet_ne _ _ _ _ (fun hh => b2 hh.symm),
      pyGet_pySet_ne _ _ _ _ (fun hh => b4 hh.symm),
      pyGet_pySet_ne _ _ _ _ (fun hh => b3 hh.symm)]
  have hHat_h : pyGet t'.heLengths (h : Int) = REMOVED := by
    rw [hH]
    rw [pyGet_pySet_self _ _ _
      (by rw [pySet_length, pySet_length, pySet_length, hp.hlen]; exact hlt)]
  have hHat_h1 : pyGet t'.heLengths (h1 : Int) = REMOVED := by
    rw [hH, pyGet_pySet_ne _ _ _ _ (fun hh => hne' hh.symm)]
    rw [pyGet_pySet_self _ _ _
      (by rw [pySet_length, pySet_length, hp.hlen]; exact hlt1)]
  have hHat_pm : pyGet t'.heLengths (pm : Int) = L := by
    rw [hH, pyGet_pySet_ne _ _ _ _ (fun hh => hpmh hh.symm),
      pyGet_pySet_ne _ _ _ _ (fun hh => hpm2 hh.symm),
      pyGet_pySet_ne _ _ _ _ (fun hh => hpmqm hh.symm),
      pyGet_pySet_self _ _ _ (by rw [hp.hlen]; exact hltpm)]
  have hHat_qm : pyGet t'.heLengths (qm : Int) = L := by
    rw [hH, pyGet_pySet_ne _ _ _ _ (fun hh => hqm2 hh.symm),
      pyGet_pySet_ne _ _ _ _ (fun hh => hqm1 hh.symm),
      pyGet_pySet_self _ _ _ (by rw [pySet_length, hp.hlen]; exact hltqm)]
  have hHat_other : ∀ j : Nat, j ≠ h → j ≠ h1 → j ≠ pm → j ≠ qm →
      pyGet t'.heLengths (j : Int) = pyGet t.heLengths (j : Int) := by
    intro j b1 b2 b3 b4
    rw [hH, pyGet_pySet_ne _ _ _ _ (fun hh => b1 hh.symm),
      pyGet_pySet_ne _ _ _ _ (fun hh => b2 hh.symm),
      pyGet_pySet_ne _ _ _ _ (fun hh => b4 hh.symm),
      pyGet_pySet_ne _ _ _ _ (fun hh => b3 hh.symm)]
  have hNat2 : ∀ j : Nat, j < t.otherHe.length →
      pyGet t'.nextHe (j : Int) =
        (if j = h ∨ j = h1 then REMOVED else pyGet t.nextHe (j : Int)) := by
    intro j hj
    rw [hN]
    by_cases hjh : j = h
    · subst hjh
      rw [pyGet_pySet_self _ _ _ (by rw [pySet_length, ht.hlen]; exact hj)]
      rw [if_pos (Or.inl rfl)]
    · rw [pyGet_pySet_ne _ _ _ _ (fun hh => hjh hh.symm)]
      by_cases hjh1 : j = h1
      · subst hjh1
        rw [pyGet_pySet_self _ _ _ (by rw [ht.hlen]; exact hlt1)]
        rw [if_pos (Or.inr rfl)]
      · rw [pyGet_pySet_ne _ _ _ _ (fun hh => hjh1 hh.symm)]
        rw [if_neg (by rintro (hh | hh) <;> [exact hjh hh; exact hjh1 hh])]
  have hliveIff : ∀ j : Nat, liveN t' j ↔ (liveN t j ∧ ¬(j = h ∨ j = h1)) := by
    intro j
    by_cases hjh : j = h
    · subst hjh
      unfold liveN
      rw [hOat_h]
      constructor
      · intro hh
        exact absurd rfl hh
      · rintro ⟨-, hk⟩
        exact absurd (Or.inl rfl) hk
    · by_cases hjh1 : j = h1
      · subst hjh1
        unfold liveN
        rw [hOat_h1]
        constructor
        · intro hh
          exact absurd rfl hh
        · rintro ⟨-, hk⟩
          exact absurd (Or.inr rfl) hk
      · have hD : ¬(j = h ∨ j = h1) := by
          rintro (hh | hh) <;> [exact hjh hh; exact hjh1 hh]
        by_cases hjpm : j = pm
        · subst hjpm
          unfold liveN
          rw [hOat_pm]
          constructor
          · intro _
            exact ⟨hpm4, hD⟩
          · rintro ⟨-, -⟩
            unfold REMOVED
            omega
        · by_cases hjqm : j = qm
          · subst hjqm
            unfold liveN
            rw [hOat_qm]
            constructor
            · intro _
              exact ⟨hqm4, hD⟩
            · rintro ⟨-, -⟩
              unfold REMOVED
              omega
          · unfold liveN
            rw [hOat_other j hjh hjh1 hjpm hjqm]
            exact ⟨fun hh => ⟨hh, hD⟩, fun hh => hh.1⟩
  obtain ⟨hWFn, hstep⟩ := twoCycle_WFnext t t' ht hl hl1 hf hf1 hlen1 hlen2
    hliveIff hNat2
  have hWFp : WFpair t' := by
    refine ⟨by rw [hlen3, hp.hlen, hlen1], ?_⟩
    intro j hj hlj
    rw [hlen1] at hj
    obtain ⟨hjt, hjD⟩ := (hliveIff j).mp hlj
    by_cases hjpm : j = pm
    · subst hjpm
      refine Or.inr ⟨qm, by omega, fun hh => hpmqm hh.symm, hOat_pm,
        (hliveIff qm).mpr ⟨hqm4, by
          rintro (hh | hh) <;> [exact hqm2 hh; exact hqm1 hh]⟩,
        hOat_qm, by rw [hHat_qm, hHat_pm]⟩
    · by_cases hjqm : j = qm
      · subst hjqm
        refine Or.inr ⟨pm, by omega, fun hh => hpmqm hh, hOat_qm,
          (hliveIff pm).mpr ⟨hpm4, by
            rintro (hh | hh) <;> [exact hpmh hh; exact hpm2 hh]⟩,
          hOat_pm, by rw [hHat_pm, hHat_qm]⟩
      · have hjh : j ≠ h := fun hh => hjD (Or.inl hh)
        have hjh1 : j ≠ h1 := fun hh => hjD (Or.inr hh)
        rw [hOat_other j hjh hjh1 hjpm hjqm]
        rcases hp.partner_cases hjt with hd | ⟨m, hm1, hm2, hm3, hm4, hm5, hm6⟩
        · exact Or.inl hd
        · have hmh : m ≠ h := by
            intro hk
            rw [hk, hqm3] at hm5
            have hcast : j = qm := by exact_mod_cast hm5.symm
            exact hjqm hcast
          have hmh1 : m ≠ h1 := by
            intro hk
            rw [hk, hpm3] at hm5
            have hcast : j = pm := by exact_mod_cast hm5.symm
            exact hjpm hcast
          have hmpm : m ≠ pm := by
            intro hk
            rw [hk, hpm5] at hm5
            have hcast : j = h1 := by exact_mod_cast hm5.symm
            exact hjh1 hcast
          have hmqm : m ≠ qm := by
            intro hk
            rw [hk, hqm5] at hm5
            have hcast : j = h := by exact_mod_cast hm5.symm
            exact hjh hcast
          refine Or.inr ⟨m, by omega, hm2, hm3,
            (hliveIff m).mpr ⟨hm4, by
              rintro (hh | hh) <;> [exact hmh hh; exact hmh1 hh]⟩, ?_, ?_⟩
          · rw [hOat_other m hmh hmh1 hmpm hmqm]
            exact hm5
          · rw [hHat_other m hmh hmh1 hmpm hmqm,
              hHat_other j hjh hjh1 hjpm hjqm]
            exact hm6
  have hJ : jointCountF t = jointCountF t' + 1 :=
    twoCycle_joint t t' ht hWFn hl hl1 hne' hf hf1 hlen1 hliveIff hstep
  have hSmem : ∀ j : Nat,
      j ∈ (({h1, pm} : Finset Nat) ∪ ({h, qm} : Finset Nat)) ↔
        ((j = h1 ∨ j = pm) ∨ (j = h ∨ j = qm)) := by
    intro j
    simp only [Finset.mem_union, Finset.mem_insert, Finset.mem_singleton]
  have hfilter : (Finset.range t.otherHe.length).filter
      (fun j => j ∈ (({h1, pm} : Finset Nat) ∪ ({h, qm} : Finset Nat))) =
      (({h1, pm} : Finset Nat) ∪ ({h, qm} : Finset Nat)) := by
    ext j
    simp only [Finset.mem_filter, Finset.mem_range]
    constructor
    · rintro ⟨-, hj⟩
      exact hj
    · intro hj
      refine ⟨?_, hj⟩
      rcases (hSmem j).mp hj with (rfl | rfl) | (rfl | rfl) <;> omega
  have hdisj : Disjoint ({h1, pm} : Finset Nat) ({h, qm} : Finset Nat) := by
    rw [Finset.disjoint_left]
    intro a ha hb
    simp only [Finset.mem_insert, Finset.mem_singleton] at ha hb
    rcases ha with ha | ha <;> rcases hb with hb | hb <;> omega
  have hPrel := pairSumF_rel t t'
    (({h1, pm} : Finset Nat) ∪ ({h, qm} : Finset Nat)) hlen1 (by
    intro j hj hjS
    rw [hSmem j] at hjS
    push_neg at hjS
    obtain ⟨⟨b2, b3⟩, b1, b4⟩ := hjS
    exact ⟨hOat_other j b1 b2 b3 b4, hHat_other j b1 b2 b3 b4⟩)
  rw [hfilter] at hPrel
  have hsum_t : ∑ j ∈ (({h1, pm} : Finset Nat) ∪ ({h, qm} : Finset Nat)),
      (if repN t j then pyGet t.heLengths (j : Int) else 0) =
      pyGet t.heLengths (h1 : Int) + pyGet t.heLengths (h : Int) := by
    rw [Finset.sum_union hdisj, Finset.sum_pair (fun hh => hpm2 hh.symm),
      Finset.sum_pair (fun hh => hqm2 hh.symm)]
    rw [pair_terms t (fun hh => hpm2 hh.symm) hpm3 hpm5 hpm6.symm]
    rw [pair_terms t (fun hh => hqm2 hh.symm) hqm3 hqm5 hqm6.symm]
  have hsum_t2 : ∑ j ∈ (({h1, pm} : Finset Nat) ∪ ({h, qm} : Finset Nat)),
      (if repN t' j then pyGet t'.heLengths (j : Int) else 0) = L := by
    rw [Finset.sum_union hdisj, Finset.sum_pair (fun hh => hpm2 hh.symm),
      Finset.sum_pair (fun hh => hqm2 hh.symm)]
    rw [dead_term t' h1 (by rw [hliveIff h1]; rintro ⟨-, hk⟩; exact hk (Or.inr rfl))]
    rw [dead_term t' h (by rw [hliveIff h]; rintro ⟨-, hk⟩; exact hk (Or.inl rfl))]
    rw [hHat_pm, hHat_qm]
    have hpq := pair_terms t' hpmqm hOat_pm hOat_qm (by rw [hHat_pm, hHat_qm])
    rw [hHat_pm, hHat_qm] at hpq
    linarith [hpq]
  rw [hsum_t, hsum_t2] at hPrel
  refine ⟨⟨hWFn, hWFp⟩, ?_⟩
  rw [numBoxesLeft_eq t ⟨ht, hp⟩, numBoxesLeft_eq t' ⟨hWFn, hWFp⟩, hLV, hI]
  omega

theorem simplifyLink_chain_LD_num (t : DotsAndBoxesState) (ht : WFnext t)
    (hp : WFpair t) {h pm : Nat} (hl : liveN t h) (hne : fnext t h ≠ h)
    (hcyc : fnext t (fnext t h) = h)
    (hpm3 : pyGet t.otherHe ((fnext t h : Nat) : Int) = (pm : Int))
    (hpm4 : liveN t pm)
    (hpm5 : pyGet t.otherHe (pm : Int) = ((fnext t h : Nat) : Int))
    (hpm6 : pyGet t.heLengths (pm : Int) = pyGet t.heLengths ((fnext t h : Nat) : Int))
    (hpm2 : pm ≠ fnext t h) (hpmh : pm ≠ h)
    (hqmD : pyGet t.otherHe (h : Int) = DEADEND) :
    WFs (t.simplifyLink (h : Int)) ∧
      (t.simplifyLink (h : Int)).numBoxesLeft = t.numBoxesLeft := by
  have hfo := simplifyLink_fire_chain_LD t ht hl hne hcyc hpm3 hqmD hpmh
  set t' := t.simplifyLink (h : Int) with ht'def
  set h1 := fnext t h with hh1
  set L := 1 + pyGet t.heLengths (h1 : Int) + pyGet t.heLengths (h : Int) with hLdef
  have hf : fnext t h = h1 := hh1.symm
  have hf1 : fnext t h1 = h := by rw [hh1]; exact hcyc
  have hl1 : liveN t h1 := by rw [hh1]; exact ht.fnext_liveN hl
  have hlt : h < t.otherHe.length := liveN_lt_length t h hl
  have hlt1 : h1 < t.otherHe.length := liveN_lt_length t h1 hl1
  have hltpm : pm < t.otherHe.length := liveN_lt_length t pm hpm4
  have hne' : h1 ≠ h := by rw [hh1]; exact hne
  have hO : t'.otherHe = pySet (pySet (pySet t.otherHe (pm : Int) DEADEND)
      (h1 : Int) REMOVED) (h : Int) REMOVED := by rw [hfo]
  have hN : t'.nextHe =
      pySet (pySet t.nextHe (h1 : Int) REMOVED) (h : Int) REMOVED := by rw [hfo]
  have hH : t'.heLengths = pySet (pySet (pySet t.heLengths (pm : Int) L)
      (h1 : Int) REMOVED) (h : Int) REMOVED := by rw [hfo]
  have hI : t'.indeps = t.indeps := by rw [hfo]
  have hLV : t'.looneyValue = t.looneyValue := by rw [hfo]
  have hlen1 : t'.otherHe.length = t.otherHe.length := by
    rw [hO, pySet_length, pySet_length, pySet_length]
  have hlen2 : t'.nextHe.length = t.nextHe.length := by
    rw [hN, pySet_length, pySet_length]
  have hlen3 : t'.heLengths.length = t.heLengths.length := by
    rw [hH, pySet_length, pySet_length, pySet_length]
  have hOat_h : pyGet t'.otherHe (h : Int) = REMOVED := by
    rw [hO]
    rw [pyGet_pySet_self _ _ _
      (by rw [pySet_length, pySet_length]; exact hlt)]
  have hOat_h1 : pyGet t'.otherHe (h1 : Int) = REMOVED := by
    rw [hO, pyGet_pySet_ne _ _ _ _ (fun hh => hne' hh.symm)]
    rw [pyGet_pySet_self _ _ _ (by rw [pySet_length]; exact hlt1)]
  have hOat_pm : pyGet t'.otherHe (pm : Int) = DEADEND := by
    rw [hO, pyGet_pySet_ne _ _ _ _ (fun hh => hpmh hh.symm),
      pyGet_pySet_ne _ _ _ _ (fun hh => hpm2 hh.symm),
      pyGet_pySet_self _ _ _ hltpm]
  have hOat_other : ∀ j : Nat, j ≠ h → j ≠ h1 → j ≠ pm →
      pyGet t'.otherHe (j : Int) = pyGet t.otherHe (j : Int) := by
    intro j b1 b2 b3
    rw [hO, pyGet_pySet_ne _ _ _ _ (fun hh => b1 hh.symm),
      pyGet_pySet_ne _ _ _ _ (fun hh => b2 hh.symm),
      pyGet_pySet_ne _ _ _ _ (fun hh => b3 hh.symm)]
  have hHat_pm : pyGet t'.heLengths (pm : Int) = L := by
    rw [hH, pyGet_pySet_ne _ _ _ _ (fun hh => hpmh hh.symm),
      pyGet_pySet_ne _ _ _ _ (fun hh => hpm2 hh.symm),
      pyGet_pySet_self _ _ _ (by rw [hp.hlen]; exact hltpm)]
  have hHat_other : ∀ j : Nat, j ≠ h → j ≠ h1 → j ≠ pm →
      pyGet t'.heLengths (j : Int) = pyGet t.heLengths (j : Int) := by
    intro j b1 b2 b3
    rw [hH, pyGet_pySet_ne _ _ _ _ (fun hh => b1 hh.symm),
      pyGet_pySet_ne _ _ _ _ (fun hh => b2 hh.symm),
      pyGet_pySet_ne _ _ _ _ (fun hh => b3 hh.symm)]
  have hNat2 : ∀ j : Nat, j < t.otherHe.length →
      pyGet t'.nextHe (j : Int) =
        (if j = h ∨ j = h1 then REMOVED else pyGet t.nextHe (j : Int)) := by
    intro j hj
    rw [hN]
    by_cases hjh : j = h
    · subst hjh
      rw [pyGet_pySet_self _ _ _ (by rw [pySet_length, ht.hlen]; exact hj)]
      rw [if_pos (Or.inl rfl)]
    · rw [pyGet_pySet_ne _ _ _ _ (fun hh => hjh hh.symm)]
      by_cases hjh1 : j = h1
      · subst hjh1
        rw [pyGet_pySet_self _ _ _ (by rw [ht.hlen]; exact hlt1)]
        rw [if_pos (Or.inr rfl)]
      · rw [pyGet_pySet_ne _ _ _ _ (fun hh => hjh1 hh.symm)]
        rw [if_neg (by rintro (hh | hh) <;> [exact hjh hh; exact hjh1 hh])]
  have hliveIff : ∀ j : Nat, liveN t' j ↔ (liveN t j ∧ ¬(j = h ∨ j = h1)) := by
    intro j
    by_cases hjh : j = h
    · subst hjh
      unfold liveN
      rw [hOat_h]
      constructor
      · intro hh
        exact absurd rfl hh
      · rintro ⟨-, hk⟩
        exact absurd (Or.inl rfl) hk
    · by_cases hjh1 : j = h1
      · subst hjh1
        unfold liveN
        rw [hOat_h1]
        constructor
        · intro hh
          exact absurd rfl hh
        · rintro ⟨-, hk⟩
          exact absurd (Or.inr rfl) hk
      · have hD : ¬(j = h ∨ j = h1) := by
          rintro (hh | hh) <;> [exact hjh hh; exact hjh1 hh]
        by_cases hjpm : j = pm
        · subst hjpm
          unfold liveN
          rw [hOat_pm]
          constructor
          · intro _
            exact ⟨hpm4, hD⟩
          · rintro ⟨-, -⟩
            unfold DEADEND REMOVED
            omega
        · unfold liveN
          rw [hOat_other j hjh hjh1 hjpm]
          exact ⟨fun hh => ⟨hh, hD⟩, fun hh => hh.1⟩
  obtain ⟨hWFn, hstep⟩ := twoCycle_WFnext t t' ht hl hl1 hf hf1 hlen1 hlen2
    hliveIff hNat2
  have hWFp : WFpair t' := by
    refine ⟨by rw [hlen3, hp.hlen, hlen1], ?_⟩
    intro j hj hlj
    rw [hlen1] at hj
    obtain ⟨hjt, hjD⟩ := (hliveIff j).mp hlj
    by_cases hjpm : j = pm
    · subst hjpm
      exact Or.inl hOat_pm
    · have hjh : j ≠ h := fun hh => hjD (Or.inl hh)
      have hjh1 : j ≠ h1 := fun hh => hjD (Or.inr hh)
      rw [hOat_other j hjh hjh1 hjpm]
      rcases hp.partner_cases hjt with hd | ⟨m, hm1, hm2, hm3, hm4, hm5, hm6⟩
      · exact Or.inl hd
      · have hmh : m ≠ h := by
          intro hk
          rw [hk, hqmD] at hm5
          unfold DEADEND at hm5
          omega
        have hmh1 : m ≠ h1 := by
          intro hk
          rw [hk, hpm3] at hm5
          have hcast : j = pm := by exact_mod_cast hm5.symm
          exact hjpm hcast
        have hmpm : m ≠ pm := by
          intro hk
          rw [hk, hpm5] at hm5
          have hcast : j = h1 := by exact_mod_cast hm5.symm
          exact hjh1 hcast
        refine Or.inr ⟨m, by omega, hm2, hm3,
          (hliveIff m).mpr ⟨hm4, by
            rintro (hh | hh) <;> [exact hmh hh; exact hmh1 hh]⟩, ?_, ?_⟩
        · rw [hOat_other m hmh hmh1 hmpm]
          exact hm5
        · rw [hHat_other m hmh hmh1 hmpm, hHat_other j hjh hjh1 hjpm]
          exact hm6
  have hJ : jointCountF t = jointCountF t' + 1 :=
    twoCycle_joint t t' ht hWFn hl hl1 hne' hf hf1 hlen1 hliveIff hstep
  have hnm1 : h ∉ ({h1, pm} : Finset Nat) := by
    simp only [Finset.mem_insert, Finset.mem_singleton]
    rintro (hh | hh)
    · exact hne' hh.symm
    · exact hpmh hh.symm
  have hSmem : ∀ j : Nat, j ∈ insert h ({h1, pm} : Finset Nat) ↔
      (j = h ∨ j = h1 ∨ j = pm) := by
    intro j
    simp only [Finset.mem_insert, Finset.mem_singleton]
  have hfilter : (Finset.range t.otherHe.length).filter
      (fun j => j ∈ insert h ({h1, pm} : Finset Nat)) =
      insert h ({h1, pm} : Finset Nat) := by
    ext j
    simp only [Finset.mem_filter, Finset.mem_range]
    constructor
    · rintro ⟨-, hj⟩
      exact hj
    · intro hj
      refine ⟨?_, hj⟩
      rcases (hSmem j).mp hj with rfl | rfl | rfl <;> omega
  have hPrel := pairSumF_rel t t' (insert h ({h1, pm} : Finset Nat)) hlen1 (by
    intro j hj hjS
    rw [hSmem j] at hjS
    push_neg at hjS
    obtain ⟨b1, b2, b3⟩ := hjS
    exact ⟨hOat_other j b1 b2 b3, hHat_other j b1 b2 b3⟩)
  rw [hfilter] at hPrel
  have hsum_t : ∑ j ∈ insert h ({h1, pm} : Finset Nat),
      (if repN t j then pyGet t.heLengths (j : Int) else 0) =
      pyGet t.heLengths (h : Int) + pyGet t.heLengths (h1 : Int) := by
    rw [Finset.sum_insert hnm1, Finset.sum_pair (fun hh => hpm2 hh.symm)]
    rw [if_pos ⟨hl, Or.inl hqmD⟩]
    rw [pair_terms t (fun hh => hpm2 hh.symm) hpm3 hpm5 hpm6.symm]
  have hsum_t2 : ∑ j ∈ insert h ({h1, pm} : Finset Nat),
      (if repN t' j then pyGet t'.heLengths (j : Int) else 0) = L := by
    rw [Finset.sum_insert hnm1, Finset.sum_pair (fun hh => hpm2 hh.symm)]
    rw [dead_term t' h (by rw [hliveIff h]; rintro ⟨-, hk⟩; exact hk (Or.inl rfl))]
    rw [dead_term t' h1 (by rw [hliveIff h1]; rintro ⟨-, hk⟩; exact hk (Or.inr rfl))]
    rw [if_pos ⟨(hliveIff pm).mpr ⟨hpm4, by
      rintro (hh | hh) <;> [exact hpmh hh; exact hpm2 hh]⟩, Or.inl hOat_pm⟩]
    rw [hHat_pm]
    ring
  rw [hsum_t, hsum_t2] at hPrel
  refine ⟨⟨hWFn, hWFp⟩, ?_⟩
  rw [numBoxesLeft_eq t ⟨ht, hp⟩, numBoxesLeft_eq t' ⟨hWFn, hWFp⟩, hLV, hI]
  omega

theorem simplifyLink_chain_DL_num (t : DotsAndBoxesState) (ht : WFnext t)
    (hp : WFpair t) {h qm : Nat} (hl : liveN t h) (hne : fnext t h ≠ h)
    (hcyc : fnext t (fnext t h) = h)
    (hpmD : pyGet t.otherHe ((fnext t h : Nat) : Int) = DEADEND)
    (hqm3 : pyGet t.otherHe (h : Int) = (qm : Int))
    (hqm4 : liveN t qm)
    (hqm5 : pyGet t.otherHe (qm : Int) = (h : Int))
    (hqm6 : pyGet t.heLengths (qm : Int) = pyGet t.heLengths (h : Int))
    (hqm2 : qm ≠ h) :
    WFs (t.simplifyLink (h : Int)) ∧
      (t.simplifyLink (h : Int)).numBoxesLeft = t.numBoxesLeft := by
  have hfo := simplifyLink_fire_chain_DL t ht hl hne hcyc hpmD hqm3
  set t' := t.simplifyLink (h : Int) with ht'def
  set h1 := fnext t h with hh1
  set L := 1 + pyGet t.heLengths (h1 : Int) + pyGet t.heLengths (h : Int) with hLdef
  have hf : fnext t h = h1 := hh1.symm
  have hf1 : fnext t h1 = h := by rw [hh1]; exact hcyc
  have hl1 : liveN t h1 := by rw [hh1]; exact ht.fnext_liveN hl
  have hlt : h < t.otherHe.length := liveN_lt_length t h hl
  have hlt1 : h1 < t.otherHe.length := liveN_lt_length t h1 hl1
  have hltqm : qm < t.otherHe.length := liveN_lt_length t qm hqm4
  have hne' : h1 ≠ h := by rw [hh1]; exact hne
  have hqm1 : qm ≠ h1 := by
    intro hk
    rw [← hk] at hpmD
    rw [hqm5] at hpmD
    unfold DEADEND at hpmD
    omega
  have hO : t'.otherHe = pySet (pySet (pySet t.otherHe (qm : Int) DEADEND)
      (h1 : Int) REMOVED) (h : Int) REMOVED := by rw [hfo]
  have hN : t'.nextHe =
      pySet (pySet t.nextHe (h1 : Int) REMOVED) (h : Int) REMOVED := by rw [hfo]
  have hH : t'.heLengths = pySet (pySet (pySet t.heLengths (qm : Int) L)
      (h1 : Int) REMOVED) (h : Int) REMOVED := by rw [hfo]
  have hI : t'.indeps = t.indeps := by rw [hfo]
  have hLV : t'.looneyValue = t.looneyValue := by rw [hfo]
  have hlen1 : t'.otherHe.length = t.otherHe.length := by
    rw [hO, pySet_length, pySet_length, pySet_length]
  have hlen2 : t'.nextHe.length = t.nextHe.length := by
    rw [hN, pySet_length, pySet_length]
  have hlen3 : t'.heLengths.length = t.heLengths.length := by
    rw [hH, pySet_length, pySet_length, pySet_length]
  have hOat_h : pyGet t'.otherHe (h : Int) = REMOVED := by
    rw [hO]
    rw [pyGet_pySet_self _ _ _
      (by rw [pySet_length, pySet_length]; exact hlt)]
  have hOat_h1 : pyGet t'.otherHe (h1 : Int) = REMOVED := by
    rw [hO, pyGet_pySet_ne _ _ _ _ (fun hh => hne' hh.symm)]
    rw [pyGet_pySet_self _ _ _ (by rw [pySet_length]; exact hlt1)]
  have hOat_qm : pyGet t'.otherHe (qm : Int) = DEADEND := by
    rw [hO, pyGet_pySet_ne _ _ _ _ (fun hh => hqm2 hh.symm),
      pyGet_pySet_ne _ _ _ _ (fun hh => hqm1 hh.symm),
      pyGet_pySet_self _ _ _ hltqm]
  have hOat_other : ∀ j : Nat, j ≠ h → j ≠ h1 → j ≠ qm →
      pyGet t'.otherHe (j : Int) = pyGet t.otherHe (j : Int) := by
    intro j b1 b2 b3
    rw [hO, pyGet_pySet_ne _ _ _ _ (fun hh => b1 hh.symm),
      pyGet_pySet_ne _ _ _ _ (fun hh => b2 hh.symm),
      pyGet_pySet_ne _ _ _ _ (fun hh => b3 hh.symm)]
  have hHat_qm : pyGet t'.heLengths (qm : Int) = L := by
    rw [hH, pyGet_pySet_ne _ _ _ _ (fun hh => hqm2 hh.symm),
      pyGet_pySet_ne _ _ _ _ (fun hh => hqm1 hh.symm),
      pyGet_pySet_self _ _ _ (by rw [hp.hlen]; exact hltqm)]
  have hHat_other : ∀ j : Nat, j ≠ h → j ≠ h1 → j ≠ qm →
      pyGet t'.heLengths (j : Int) = pyGet t.heLengths (j : Int) := by
    intro j b1 b2 b3
    rw [hH, pyGet_pySet_ne _ _ _ _ (fun hh => b1 hh.symm),
      pyGet_pySet_ne _ _ _ _ (fun hh => b2 hh.symm),
      pyGet_pySet_ne _ _ _ _ (fun hh => b3 hh.symm)]
  have hNat2 : ∀ j : Nat, j < t.otherHe.length →
      pyGet t'.nextHe (j : Int) =
        (if j = h ∨ j = h1 then REMOVED else pyGet t.nextHe (j : Int)) := by
    intro j hj
    rw [hN]
    by_cases hjh : j = h
    · subst hjh
      rw [pyGet_pySet_self _ _ _ (by rw [pySet_length, ht.hlen]; exact hj)]
      rw [if_pos (Or.inl rfl)]
    · rw [pyGet_pySet_ne _ _ _ _ (fun hh => hjh hh.symm)]
      by_cases hjh1 : j = h1
      · subst hjh1
        rw [pyGet_pySet_self _ _ _ (by rw [ht.hlen]; exact hlt1)]
        rw [if_pos (Or.inr rfl)]
      · rw [pyGet_pySet_ne _ _ _ _ (fun hh => hjh1 hh.symm)]
        rw [if_neg (by rintro (hh | hh) <;> [exact hjh hh; exact hjh1 hh])]
  have hliveIff : ∀ j : Nat, liveN t' j ↔ (liveN t j ∧ ¬(j = h ∨ j = h1)) := by
    intro j
    by_cases hjh : j = h
    · subst hjh
      unfold liveN
      rw [hOat_h]
      constructor
      · intro hh
        exact absurd rfl hh
      · rintro ⟨-, hk⟩
        exact absurd (Or.inl rfl) hk
    · by_cases hjh1 : j = h1
      · subst hjh1
        unfold liveN
        rw [hOat_h1]
        constructor
        · intro hh
          exact absurd rfl hh
        · rintro ⟨-, hk⟩
          exact absurd (Or.inr rfl) hk
      · have hD : ¬(j = h ∨ j = h1) := by
          rintro (hh | hh) <;> [exact hjh hh; exact hjh1 hh]
        by_cases hjqm : j = qm
        · subst hjqm
          unfold liveN
          rw [hOat_qm]
          constructor
          · intro _
            exact ⟨hqm4, hD⟩
          · rintro ⟨-, -⟩
            unfold DEADEND REMOVED
            omega
        · unfold liveN
          rw [hOat_other j hjh hjh1 hjqm]
          exact ⟨fun hh => ⟨hh, hD⟩, fun hh => hh.1⟩
  obtain ⟨hWFn, hstep⟩ := twoCycle_WFnext t t' ht hl hl1 hf hf1 hlen1 hlen2
    hliveIff hNat2
  have hWFp : WFpair t' := by
    refine ⟨by rw [hlen3, hp.hlen, hlen1], ?_⟩
    intro j hj hlj
    rw [hlen1] at hj
    obtain ⟨hjt, hjD⟩ := (hliveIff j).mp hlj
    by_cases hjqm : j = qm
    · subst hjqm
      exact Or.inl hOat_qm
    · have hjh : j ≠ h := fun hh => hjD (Or.inl hh)
      have hjh1 : j ≠ h1 := fun hh => hjD (Or.inr hh)
      rw [hOat_other j hjh hjh1 hjqm]
      rcases hp.partner_cases hjt with hd | ⟨m, hm1, hm2, hm3, hm4, hm5, hm6⟩
      · exact Or.inl hd
      · have hmh : m ≠ h := by
          intro hk
          rw [hk, hqm3] at hm5
          have hcast : j = qm := by exact_mod_cast hm5.symm
          exact hjqm hcast
        have hmh1 : m ≠ h1 := by
          intro hk
          rw [hk, hpmD] at hm5
          unfold DEADEND at hm5
          omega
        have hmqm : m ≠ qm := by
          intro hk
          rw [hk, hqm5] at hm5
          have hcast : j = h := by exact_mod_cast hm5.symm
          exact hjh hcast
        refine Or.inr ⟨m, by omega, hm2, hm3,
          (hliveIff m).mpr ⟨hm4, by
            rintro (hh | hh) <;> [exact hmh hh; exact hmh1 hh]⟩, ?_, ?_⟩
        · rw [hOat_other m hmh hmh1 hmqm]
          exact hm5
        · rw [hHat_other m hmh hmh1 hmqm, hHat_other j hjh hjh1 hjqm]
          exact hm6
  have hJ : jointCountF t = jointCountF t' + 1 :=
    twoCycle_joint t t' ht hWFn hl hl1 hne' hf hf1 hlen1 hliveIff hstep
  have hnm1 : h1 ∉ ({h, qm} : Finset Nat) := by
    simp only [Finset.mem_insert, Finset.mem_singleton]
    rintro (hh | hh)
    · exact hne' hh
    · exact hqm1 hh.symm
  have hSmem : ∀ j : Nat, j ∈ insert h1 ({h, qm} : Finset Nat) ↔
      (j = h1 ∨ j = h ∨ j = qm) := by
    intro j
    simp only [Finset.mem_insert, Finset.mem_singleton]
  have hfilter : (Finset.range t.otherHe.length).filter
      (fun j => j ∈ insert h1 ({h, qm} : Finset Nat)) =
      insert h1 ({h, qm} : Finset Nat) := by
    ext j
    simp only [Finset.mem_filter, Finset.mem_range]
    constructor
    · rintro ⟨-, hj⟩
      exact hj
    · intro hj
      refine ⟨?_, hj⟩
      rcases (hSmem j).mp hj with rfl | rfl | rfl <;> omega
  have hPrel := pairSumF_rel t t' (insert h1 ({h, qm} : Finset Nat)) hlen1 (by
    intro j hj hjS
    rw [hSmem j] at hjS
    push_neg at hjS
    obtain ⟨b2, b1, b3⟩ := hjS
    exact ⟨hOat_other j b1 b2 b3, hHat_other j b1 b2 b3⟩)
  rw [hfilter] at hPrel
  have hsum_t : ∑ j ∈ insert h1 ({h, qm} : Finset Nat),
      (if repN t j then pyGet t.heLengths (j : Int) else 0) =
      pyGet t.heLengths (h1 : Int) + pyGet t.heLengths (h : Int) := by
    rw [Finset.sum_insert hnm1, Finset.sum_pair (fun hh => hqm2 hh.symm)]
    rw [if_pos ⟨hl1, Or.inl hpmD⟩]
    rw [pair_terms t (fun hh => hqm2 hh.symm) hqm3 hqm5 hqm6.symm]
  have hsum_t2 : ∑ j ∈ insert h1 ({h, qm} : Finset Nat),
      (if repN t' j then pyGet t'.heLengths (j : Int) else 0) = L := by
    rw [Finset.sum_insert hnm1, Finset.sum_pair (fun hh => hqm2 hh.symm)]
    rw [dead_term t' h1 (by rw [hliveIff h1]; rintro ⟨-, hk⟩; exact hk (Or.inr rfl))]
    rw [dead_term t' h (by rw [hliveIff h]; rintro ⟨-, hk⟩; exact hk (Or.inl rfl))]
    rw [if_pos ⟨(hliveIff qm).mpr ⟨hqm4, by
      rintro (hh | hh) <;> [exact hqm2 hh; exact hqm1 hh]⟩, Or.inl hOat_qm⟩]
    rw [hHat_qm]
    ring
  rw [hsum_t, hsum_t2] at hPrel
  refine ⟨⟨hWFn, hWFp⟩, ?_⟩
  rw [numBoxesLeft_eq t ⟨ht, hp⟩, numBoxesLeft_eq t' ⟨hWFn, hWFp⟩, hLV, hI]
  omega

theorem simplifyLink_chain_DD_num (t : DotsAndBoxesState) (ht : WFnext t)
    (hp : WFpair t) {h : Nat} (hl : liveN t h) (hne : fnext t h ≠ h)
    (hcyc : fnext t (fnext t h) = h)
    (hpmD : pyGet t.otherHe ((fnext t h : Nat) : Int) = DEADEND)
    (hqmD : pyGet t.otherHe (h : Int) = DEADEND) :
    WFs (t.simplifyLink (h : Int)) ∧
      (t.simplifyLink (h : Int)).numBoxesLeft = t.numBoxesLeft := by
  have hfo := simplifyLink_fire_chain_DD t ht hl hne hcyc hpmD hqmD
  set t' := t.simplifyLink (h : Int) with ht'def
  set h1 := fnext t h with hh1
  set L := 1 + pyGet t.heLengths (h1 : Int) + pyGet t.heLengths (h : Int) with hLdef
  have hf : fnext t h = h1 := hh1.symm
  have hf1 : fnext t h1 = h := by rw [hh1]; exact hcyc
  have hl1 : liveN t h1 := by rw [hh1]; exact ht.fnext_liveN hl
  have hlt : h < t.otherHe.length := liveN_lt_length t h hl
  have hlt1 : h1 < t.otherHe.length := liveN_lt_length t h1 hl1
  have hne' : h1 ≠ h := by rw [hh1]; exact hne
  have hO : t'.otherHe =
      pySet (pySet t.otherHe (h1 : Int) REMOVED) (h : Int) REMOVED := by rw [hfo]
  have hN : t'.nextHe =
      pySet (pySet t.nextHe (h1 : Int) REMOVED) (h : Int) REMOVED := by rw [hfo]
  have hH : t'.heLengths =
      pySet (pySet t.heLengths (h1 : Int) REMOVED) (h : Int) REMOVED := by rw [hfo]
  have hI : t'.indeps = t.indeps ++ [L] := by rw [hfo]
  have hLV : t'.looneyValue = t.looneyValue := by rw [hfo]
  have hlen1 : t'.otherHe.length = t.otherHe.length := by
    rw [hO, pySet_length, pySet_length]
  have hlen2 : t'.nextHe.length = t.nextHe.length := by
    rw [hN, pySet_length, pySet_length]
  have hlen3 : t'.heLengths.length = t.heLengths.length := by
    rw [hH, pySet_length, pySet_length]
  have hOat_h : pyGet t'.otherHe (h : Int) = REMOVED := by
    rw [hO]
    rw [pyGet_pySet_self _ _ _ (by rw [pySet_length]; exact hlt)]
  have hOat_h1 : pyGet t'.otherHe (h1 : Int) = REMOVED := by
    rw [hO, pyGet_pySet_ne _ _ _ _ (fun hh => hne' hh.symm)]
    rw [pyGet_pySet_self _ _ _ hlt1]
  have hOat_other : ∀ j : Nat, j ≠ h → j ≠ h1 →
      pyGet t'.otherHe (j : Int) = pyGet t.otherHe (j : Int) := by
    intro j b1 b2
    rw [hO, pyGet_pySet_ne _ _ _ _ (fun hh => b1 hh.symm),
      pyGet_pySet_ne _ _ _ _ (fun hh => b2 hh.symm)]
  have hHat_other : ∀ j : Nat, j ≠ h → j ≠ h1 →
      pyGet t'.heLengths (j : Int) = pyGet t.heLengths (j : Int) := by
    intro j b1 b2
    rw [hH, pyGet_pySet_ne _ _ _ _ (fun hh => b1 hh.symm),
      pyGet_pySet_ne _ _ _ _ (fun hh => b2 hh.symm)]
  have hNat2 : ∀ j : Nat, j < t.otherHe.length →
      pyGet t'.nextHe (j : Int) =
        (if j = h ∨ j = h1 then REMOVED else pyGet t.nextHe (j : Int)) := by
    intro j hj
    rw [hN]
    by_cases hjh : j = h
    · subst hjh
      rw [pyGet_pySet_self _ _ _ (by rw [pySet_length, ht.hlen]; exact hj)]
      rw [if_pos (Or.inl rfl)]
    · rw [pyGet_pySet_ne _ _ _ _ (fun hh => hjh hh.symm)]
      by_cases hjh1 : j = h1
      · subst hjh1
        rw [pyGet_pySet_self _ _ _ (by rw [ht.hlen]; exact hlt1)]
        rw [if_pos (Or.inr rfl)]
      · rw [pyGet_pySet_ne _ _ _ _ (fun hh => hjh1 hh.symm)]
        rw [if_neg (by rintro (hh | hh) <;> [exact hjh hh; exact hjh1 hh])]
  have hliveIff : ∀ j : Nat, liveN t' j ↔ (liveN t j ∧ ¬(j = h ∨ j = h1)) := by
    intro j
    by_cases hjh : j = h
    · subst hjh
      unfold liveN
      rw [hOat_h]
      constructor
      · intro hh
        exact absurd rfl hh
      · rintro ⟨-, hk⟩
        exact absurd (Or.inl rfl) hk
    · by_cases hjh1 : j = h1
      · subst hjh1
        unfold liveN
        rw [hOat_h1]
        constructor
        · intro hh
          exact absurd rfl hh
        · rintro ⟨-, hk⟩
          exact absurd (Or.inr rfl) hk
      · have hD : ¬(j = h ∨ j = h1) := by
          rintro (hh | hh) <;> [exact hjh hh; exact hjh1 hh]
        unfold liveN
        rw [hOat_other j hjh hjh1]
        exact ⟨fun hh => ⟨hh, hD⟩, fun hh => hh.1⟩
  obtain ⟨hWFn, hstep⟩ := twoCycle_WFnext t t' ht hl hl1 hf hf1 hlen1 hlen2
    hliveIff hNat2
  have hWFp : WFpair t' := by
    refine ⟨by rw [hlen3, hp.hlen, hlen1], ?_⟩
    intro j hj hlj
    rw [hlen1] at hj
    obtain ⟨hjt, hjD⟩ := (hliveIff j).mp hlj
    have hjh : j ≠ h := fun hh => hjD (Or.inl hh)
    have hjh1 : j ≠ h1 := fun hh => hjD (Or.inr hh)
    rw [hOat_other j hjh hjh1]
    rcases hp.partner_cases hjt with hd | ⟨m, hm1, hm2, hm3, hm4, hm5, hm6⟩
    · exact Or.inl hd
    · have hmh : m ≠ h := by
        intro hk
        rw [hk, hqmD] at hm5
        unfold DEADEND at hm5
        omega
      have hmh1 : m ≠ h1 := by
        intro hk
        rw [hk, hpmD] at hm5
        unfold DEADEND at hm5
        omega
      refine Or.inr ⟨m, by omega, hm2, hm3,
        (hliveIff m).mpr ⟨hm4, by
          rintro (hh | hh) <;> [exact hmh hh; exact hmh1 hh]⟩, ?_, ?_⟩
      · rw [hOat_other m hmh hmh1]
        exact hm5
      · rw [hHat_other m hmh hmh1, hHat_other j hjh hjh1]
        exact hm6
  have hJ : jointCountF t = jointCountF t' + 1 :=
    twoCycle_joint t t' ht hWFn hl hl1 hne' hf hf1 hlen1 hliveIff hstep
  have hhne : h ≠ h1 := fun hh => hne' hh.symm
  have hfilter : (Finset.range t.otherHe.length).filter
      (fun j => j ∈ ({h, h1} : Finset Nat)) = ({h, h1} : Finset Nat) := by
    ext j
    simp only [Finset.mem_filter, Finset.mem_range, Finset.mem_insert,
      Finset.mem_singleton]
    constructor
    · rintro ⟨-, hj⟩
      exact hj
    · intro hj
      refine ⟨?_, hj⟩
      rcases hj with rfl | rfl <;> omega
  have hPrel := pairSumF_rel t t' ({h, h1} : Finset Nat) hlen1 (by
    intro j hj hjS
    simp only [Finset.mem_insert, Finset.mem_singleton] at hjS
    push_neg at hjS
    exact ⟨hOat_other j hjS.1 hjS.2, hHat_other j hjS.1 hjS.2⟩)
  rw [hfilter] at hPrel
  have hsum_t : ∑ j ∈ ({h, h1} : Finset Nat),
      (if repN t j then pyGet t.heLengths (j : Int) else 0) =
      pyGet t.heLengths (h : Int) + pyGet t.heLengths (h1 : Int) := by
    rw [Finset.sum_pair hhne]
    rw [if_pos ⟨hl, Or.inl hqmD⟩, if_pos ⟨hl1, Or.inl hpmD⟩]
  have hsum_t2 : ∑ j ∈ ({h, h1} : Finset Nat),
      (if repN t' j then pyGet t'.heLengths (j : Int) else 0) = 0 := by
    rw [Finset.sum_pair hhne]
    rw [dead_term t' h (by rw [hliveIff h]; rintro ⟨-, hk⟩; exact hk (Or.inl rfl))]
    rw [dead_term t' h1 (by rw [hliveIff h1]; rintro ⟨-, hk⟩; exact hk (Or.inr rfl))]
    ring
  rw [hsum_t, hsum_t2] at hPrel
  have hIsum : t'.indeps.foldl (· + ·) 0 = t.indeps.foldl (· + ·) 0 + L := by
    rw [hI, foldl_add_eq, foldl_add_eq, List.sum_append, List.sum_singleton]
    ring
  refine ⟨⟨hWFn, hWFp⟩, ?_⟩
  rw [numBoxesLeft_eq t ⟨ht, hp⟩, numBoxesLeft_eq t' ⟨hWFn, hWFp⟩, hLV, hIsum]
  omega

/-- Every `simplifyLink` pass on a well-formed state keeps the state
well-formed and leaves `numBoxesLeft` unchanged. -/
theorem simplifyLink_num (t : DotsAndBoxesState) (hw : WFs t) (x : Int) :
    WFs (t.simplifyLink x) ∧ (t.simplifyLink x).numBoxesLeft = t.numBoxesLeft := by
  obtain ⟨ht, hp⟩ := hw
  rcases simplifyLink_cases ht x with heq | ⟨h, hh, hl, rfl, hne, hcyc⟩
  · rw [heq]
    exact ⟨⟨ht, hp⟩, rfl⟩
  · by_cases hloop : pyGet t.otherHe ((fnext t h : Nat) : Int) = (h : Int)
    · exact simplifyLink_loop_num t ht hp hl hne hcyc hloop
    · rcases hp.partner_cases (ht.fnext_liveN hl) with hpmD |
        ⟨pm, hpm1, hpm2, hpm3, hpm4, hpm5, hpm6⟩
      · rcases hp.partner_cases hl with hqmD |
          ⟨qm, hqm1, hqm2, hqm3, hqm4, hqm5, hqm6⟩
        · exact simplifyLink_chain_DD_num t ht hp hl hne hcyc hpmD hqmD
        · exact simplifyLink_chain_DL_num t ht hp hl hne hcyc hpmD hqm3 hqm4
            hqm5 hqm6 hqm2
      · have hpmh : pm ≠ h := by
          intro hk
          rw [hk] at hpm3
          exact hloop hpm3
        rcases hp.partner_cases hl with hqmD |
          ⟨qm, hqm1, hqm2, hqm3, hqm4, hqm5, hqm6⟩
        · exact simplifyLink_chain_LD_num t ht hp hl hne hcyc hpm3 hpm4 hpm5
            hpm6 hpm2 hpmh hqmD
        · exact simplifyLink_chain_LL_num t ht hp hl hne hcyc hpm3 hpm4 hpm5
            hpm6 hpm2 hpmh hqm3 hqm4 hqm5 hqm6 hqm2

/-!
### Claim C3: splicing one half-edge out (`removeHe`)

`removeHe` redirects the unique rotation predecessor of the removed
half-edge and marks its slots: the live set shrinks by one node and every
other rotation orbit is preserved (possibly shortened through the splice).
-/

theorem findPrev_walk {s : DotsAndBoxesState} (hs : WFnext s) {h : Nat}
    (hl : liveN s h) :
    ∀ (d q : Nat), q < Function.minimalPeriod (fnext s) h →
      Function.minimalPeriod (fnext s) h - 1 - q ≤ d →
      findPrev s.nextHe (h : Int) (d + 1) (((fnext s)^[q] h : Nat) : Int) =
        some (((fnext s)^[Function.minimalPeriod (fnext s) h - 1] h : Nat) : Int) := by
  have hp0 := minPeriod_pos hs hl
  intro d
  induction d with
  | zero =>
    intro q hq hd
    have hq1 : q = Function.minimalPeriod (fnext s) h - 1 := by omega
    unfold findPrev
    rw [pyGet_nextHe_iterate hs hl q]
    have hstop : (((fnext s)^[q + 1] h : Nat) : Int) = (h : Int) := by
      have : (fnext s)^[q + 1] h = h := by
        rw [iterate_eq_self_iff]
        exact ⟨1, by omega⟩
      rw [this]
    rw [hstop, if_pos rfl, hq1]
  | succ d ih =>
    intro q hq hd
    by_cases hqp : q = Function.minimalPeriod (fnext s) h - 1
    · unfold findPrev
      rw [pyGet_nextHe_iterate hs hl q]
      have hstop : (((fnext s)^[q + 1] h : Nat) : Int) = (h : Int) := by
        have : (fnext s)^[q + 1] h = h := by
          rw [iterate_eq_self_iff]
          exact ⟨1, by omega⟩
        rw [this]
      rw [hstop, if_pos rfl, hqp]
    · unfold findPrev
      rw [pyGet_nextHe_iterate hs hl q]
      have hgo : ¬ ((((fnext s)^[q + 1] h : Nat) : Int) = (h : Int)) := by
        intro hh
        have h2 : (fnext s)^[q + 1] h = h := by exact_mod_cast hh
        rw [iterate_eq_self_iff] at h2
        rcases h2 with ⟨w, hw⟩
        rcases Nat.eq_zero_or_pos w with rfl | hw0
        · omega
        · have := Nat.le_mul_of_pos_right (Function.minimalPeriod (fnext s) h) hw0
          omega
      rw [if_neg hgo]
      exact ih (q + 1) (by omega) (by omega)

theorem removeHe_eq {s : DotsAndBoxesState} (hs : WFnext s) {h : Nat}
    (hl : liveN s h) :
    s.removeHe (h : Int) =
      { s with
          otherHe := pySet s.otherHe (h : Int) REMOVED,
          nextHe := pySet (pySet s.nextHe
              (((fnext s)^[Function.minimalPeriod (fnext s) h - 1] h : Nat) : Int)
              (pyGet s.nextHe (h : Int))) (h : Int) REMOVED,
          heLengths := pySet s.heLengths (h : Int) REMOVED } := by
  have hp0 := minPeriod_pos hs hl
  have hpn := minPeriod_le hs hl
  have hfp := findPrev_walk hs hl s.nextHe.length 0 hp0
    (by rw [hs.hlen]; omega)
  simp only [Function.iterate_zero_apply] at hfp
  unfold DotsAndBoxesState.removeHe
  rw [hfp]

theorem pyGet_pySet_self2 (l : List Int) (j : Nat) (v : Int) :
    pyGet (pySet l (j : Int) v) (j : Int) = (if j < l.length then v else REMOVED) := by
  by_cases h : j < l.length
  · rw [if_pos h]
    exact pyGet_pySet_self l j v h
  · rw [if_neg h]
    unfold pySet
    rw [pyIdx_natCast, if_neg h]
    exact pyGet_oob _ _ h

theorem removeHe_props {s : DotsAndBoxesState} (hs : WFnext s) {h : Nat}
    (hl : liveN s h) :
    ((s.removeHe (h : Int)).otherHe.length = s.otherHe.length) ∧
    ((s.removeHe (h : Int)).nextHe.length = s.nextHe.length) ∧
    ((s.removeHe (h : Int)).heLengths.length = s.heLengths.length) ∧
    (∀ j : Nat, pyGet (s.removeHe (h : Int)).otherHe (j : Int) =
       (if j = h then REMOVED else pyGet s.otherHe (j : Int))) ∧
    (∀ j : Nat, pyGet (s.removeHe (h : Int)).heLengths (j : Int) =
       (if j = h then REMOVED else pyGet s.heLengths (j : Int))) ∧
    (∀ j : Nat, liveN (s.removeHe (h : Int)) j ↔ (liveN s j ∧ j ≠ h)) ∧
    (∀ z : Nat, liveN s z → z ≠ h →
       pyGet (s.removeHe (h : Int)).nextHe (z : Int) =
         (((if fnext s z = h then fnext s h else fnext s z) : Nat) : Int)) ∧
    (∀ z : Nat, ¬ liveN s z → z ≠ h →
       pyGet (s.removeHe (h : Int)).nextHe (z : Int) = pyGet s.nextHe (z : Int)) ∧
    (pyGet (s.removeHe (h : Int)).nextHe (h : Int) = REMOVED) := by
  have hp0 := minPeriod_pos hs hl
  have hpn := minPeriod_le hs hl
  have hlt : h < s.otherHe.length := liveN_lt_length s h hl
  have hprevlive : liveN s ((fnext s)^[Function.minimalPeriod (fnext s) h - 1] h) :=
    iterate_liveN hs hl _
  have hprevlt : (fnext s)^[Function.minimalPeriod (fnext s) h - 1] h <
      s.otherHe.length := liveN_lt_length s _ hprevlive
  have hfprev : fnext s ((fnext s)^[Function.minimalPeriod (fnext s) h - 1] h) = h := by
    have hper : (fnext s)^[Function.minimalPeriod (fnext s) h] h = h :=
      Function.iterate_minimalPeriod
    rw [show Function.minimalPeriod (fnext s) h =
        (Function.minimalPeriod (fnext s) h - 1) + 1 by omega,
      Function.iterate_succ_apply'] at hper
    exact hper
  have hprev_unique : ∀ z : Nat, liveN s z → fnext s z = h →
      z = (fnext s)^[Function.minimalPeriod (fnext s) h - 1] h := by
    intro z hz hfz
    exact hs.fnext_inj hz hprevlive (by rw [hfz, hfprev])
  have hOeq : (s.removeHe (h : Int)).otherHe = pySet s.otherHe (h : Int) REMOVED := by
    rw [removeHe_eq hs hl]
  have hHeq : (s.removeHe (h : Int)).heLengths = pySet s.heLengths (h : Int) REMOVED := by
    rw [removeHe_eq hs hl]
  have hNeq : (s.removeHe (h : Int)).nextHe = pySet (pySet s.nextHe
      (((fnext s)^[Function.minimalPeriod (fnext s) h - 1] h : Nat) : Int)
      (pyGet s.nextHe (h : Int))) (h : Int) REMOVED := by
    rw [removeHe_eq hs hl]
  have hOat : ∀ j : Nat, pyGet (s.removeHe (h : Int)).otherHe (j : Int) =
      (if j = h then REMOVED else pyGet s.otherHe (j : Int)) := by
    intro j
    rw [hOeq]
    by_cases hjh : j = h
    · subst hjh
      rw [pyGet_pySet_self _ _ _ hlt, if_pos rfl]
    · rw [pyGet_pySet_ne _ _ _ _ (fun hh => hjh hh.symm), if_neg hjh]
  refine ⟨by rw [hOeq, pySet_length], by rw [hNeq, pySet_length, pySet_length],
    by rw [hHeq, pySet_length], hOat, ?_, ?_, ?_, ?_, ?_⟩
  · intro j
    rw [hHeq]
    by_cases hjh : j = h
    · subst hjh
      rw [pyGet_pySet_self2, if_pos rfl]
      split <;> rfl
    · rw [pyGet_pySet_ne _ _ _ _ (fun hh => hjh hh.symm), if_neg hjh]
  · intro j
    unfold liveN
    rw [hOat j]
    by_cases hjh : j = h
    · rw [if_pos hjh]
      constructor
      · intro hh
        exact absurd rfl hh
      · rintro ⟨-, hk⟩
        exact absurd hjh hk
    · rw [if_neg hjh]
      exact ⟨fun hh => ⟨hh, hjh⟩, fun hh => hh.1⟩
  · intro z hz hzh
    rw [hNeq]
    rw [pyGet_pySet_ne _ _ _ _ (fun hh => hzh hh.symm)]
    by_cases hzp : z = (fnext s)^[Function.minimalPeriod (fnext s) h - 1] h
    · subst hzp
      rw [pyGet_pySet_self _ _ _ (by rw [hs.hlen]; exact hprevlt)]
      rw [if_pos hfprev, hs.pyGet_nextHe hl]
    · rw [pyGet_pySet_ne _ _ _ _ (fun hh => hzp hh.symm)]
      rw [if_neg (fun hh => hzp (hprev_unique z hz hh))]
      exact hs.pyGet_nextHe hz
  · intro z hz hzh
    have hzprev : (fnext s)^[Function.minimalPeriod (fnext s) h - 1] h ≠ z :=
      fun hh => hz (hh ▸ hprevlive)
    rw [hNeq]
    rw [pyGet_pySet_ne _ _ _ _ (fun hh => hzh hh.symm)]
    rw [pyGet_pySet_ne _ _ _ _ hzprev]
  · rw [hNeq]
    rw [pyGet_pySet_self _ _ _ (by rw [pySet_length, hs.hlen]; exact hlt)]

theorem removeHe_fnext {s : DotsAndBoxesState} (hs : WFnext s) {h : Nat}
    (hl : liveN s h) :
    ∀ z : Nat, liveN s z → z ≠ h →
      fnext (s.removeHe (h : Int)) z =
        (if fnext s z = h then fnext s h else fnext s z) := by
  intro z hz hzh
  have hval := (removeHe_props hs hl).2.2.2.2.2.2.1 z hz hzh
  have hdef : fnext (s.removeHe (h : Int)) z =
      (pyGet (s.removeHe (h : Int)).nextHe (z : Int)).toNat := rfl
  rw [hdef, hval, Int.toNat_natCast]

theorem removeHe_WFnext {s : DotsAndBoxesState} (hs : WFnext s) {h : Nat}
    (hl : liveN s h) : WFnext (s.removeHe (h : Int)) := by
  obtain ⟨hn1, hn2, hn3, hOat, hHat, hliveIff, hNlive, hNdead, hNh⟩ :=
    removeHe_props hs hl
  have hlt : h < s.otherHe.length := liveN_lt_length s h hl
  have hfh_ne : ∀ z : Nat, liveN s z → z ≠ h → fnext s z = h → fnext s h ≠ h := by
    intro z hz hzh hfz hcontra
    exact hzh (hs.fnext_inj hz hl (by rw [hfz, hcontra]))
  refine ⟨by rw [hn1, hn2, hs.hlen], ?_, ?_, ?_⟩
  · intro j hj
    rw [hn1] at hj
    rw [hliveIff j]
    by_cases hjh : j = h
    · subst hjh
      rw [hNh]
      constructor
      · rintro ⟨-, hk⟩
        exact absurd rfl hk
      · intro hv
        exact absurd rfl hv
    · by_cases hlj : liveN s j
      · rw [hNlive j hlj hjh]
        constructor
        · intro _
          intro hcontra
          unfold REMOVED at hcontra
          omega
        · intro _
          exact ⟨hlj, hjh⟩
      · rw [hNdead j hlj hjh]
        constructor
        · rintro ⟨hk, -⟩
          exact absurd hk hlj
        · intro hv
          exact absurd ((hs.hlive j hj).mpr hv) hlj
  · intro j hj hlj
    rw [hn1] at hj
    obtain ⟨hjt, hjh⟩ := (hliveIff j).mp hlj
    have hfj := removeHe_fnext hs hl j hjt hjh
    refine ⟨?_, ?_, ?_⟩
    · rw [hNlive j hjt hjh, hfj]
    · rw [hfj, hn1]
      split
      · exact hs.fnext_lt hl
      · exact hs.fnext_lt hjt
    · rw [hfj, hliveIff]
      by_cases hc : fnext s j = h
      · rw [if_pos hc]
        exact ⟨hs.fnext_liveN hl, hfh_ne j hjt hjh hc⟩
      · rw [if_neg hc]
        exact ⟨hs.fnext_liveN hjt, hc⟩
  · intro a ha b hb hla hlb heq
    rw [hn1] at ha hb
    obtain ⟨hat, hah⟩ := (hliveIff a).mp hla
    obtain ⟨hbt, hbh⟩ := (hliveIff b).mp hlb
    rw [removeHe_fnext hs hl a hat hah, removeHe_fnext hs hl b hbt hbh] at heq
    by_cases hca : fnext s a = h <;> by_cases hcb : fnext s b = h
    · rw [← hcb] at hca
      exact hs.fnext_inj hat hbt hca
    · rw [if_pos hca, if_neg hcb] at heq
      exfalso
      exact hbh (hs.fnext_inj hbt hl (by rw [← heq]))
    · rw [if_neg hca, if_pos hcb] at heq
      exfalso
      exact hah (hs.fnext_inj hat hl (by rw [heq]))
    · rw [if_neg hca, if_neg hcb] at heq
      exact hs.fnext_inj hat hbt heq

theorem removeHe_orbit_fwd {s : DotsAndBoxesState} (hs : WFnext s) {h : Nat}
    (hl : liveN s h) :
    ∀ (k : Nat) (a : Nat), liveN (s.removeHe (h : Int)) a →
      sameOrbitN s a ((fnext (s.removeHe (h : Int)))^[k] a) := by
  have hs' : WFnext (s.removeHe (h : Int)) := removeHe_WFnext hs hl
  have hliveIff := (removeHe_props hs hl).2.2.2.2.2.1
  intro k
  induction k with
  | zero =>
    intro a _
    exact sameOrbitN_refl s a
  | succ k ih =>
    intro a ha
    rw [Function.iterate_succ_apply]
    obtain ⟨hat, hah⟩ := (hliveIff a).mp ha
    have hstep : sameOrbitN s a (fnext (s.removeHe (h : Int)) a) := by
      rw [removeHe_fnext hs hl a hat hah]
      by_cases hc : fnext s a = h
      · rw [if_pos hc]
        have h2 : (fnext s)^[2] a = fnext s h := by
          have e1 : (fnext s)^[2] a = fnext s (fnext s a) := rfl
          rw [e1, hc]
        rw [← h2]
        exact sameOrbitN_of_iterate hs hat 2
      · rw [if_neg hc]
        exact sameOrbitN_of_iterate hs hat 1
    have hlive2 : liveN (s.removeHe (h : Int)) (fnext (s.removeHe (h : Int)) a) :=
      hs'.fnext_liveN ha
    exact sameOrbitN_trans hs hat hstep (ih _ hlive2)

theorem removeHe_orbit_bwd {s : DotsAndBoxesState} (hs : WFnext s) {h : Nat}
    (hl : liveN s h) :
    ∀ (k : Nat), ∀ a : Nat, liveN s a → a ≠ h →
      (fnext s)^[k] a ≠ h →
      sameOrbitN (s.removeHe (h : Int)) a ((fnext s)^[k] a) := by
  have hs' : WFnext (s.removeHe (h : Int)) := removeHe_WFnext hs hl
  have hliveIff := (removeHe_props hs hl).2.2.2.2.2.1
  have hn1 : 0 < s.otherHe.length := by
    have := liveN_lt_length s h hl
    omega
  have hlen1 : (s.removeHe (h : Int)).otherHe.length = s.otherHe.length :=
    (removeHe_props hs hl).1
  intro k
  induction k using Nat.strong_induction_on with
  | _ k ih =>
    intro a ha hah hbh
    rcases k with _ | k
    · exact sameOrbitN_refl _ a
    · by_cases hfa : fnext s a = h
      · rcases k with _ | k2
        · exfalso
          apply hbh
          rw [Function.iterate_one]
          exact hfa
        · have hb2 : (fnext s)^[k2 + 1 + 1] a = (fnext s)^[k2] (fnext s h) := by
            rw [Function.iterate_succ_apply, Function.iterate_succ_apply, hfa]
          rw [hb2]
          rw [hb2] at hbh
          have hfhl : liveN s (fnext s h) := hs.fnext_liveN hl
          have hfhh : fnext s h ≠ h := by
            intro hcontra
            exact hah (hs.fnext_inj ha hl (by rw [hfa, hcontra]))
          have hstep : sameOrbitN (s.removeHe (h : Int)) a (fnext s h) := by
            refine ⟨1, by omega, ?_⟩
            rw [Function.iterate_one]
            rw [removeHe_fnext hs hl a ha hah, if_pos hfa]
          exact sameOrbitN_trans hs' ((hliveIff a).mpr ⟨ha, hah⟩) hstep
            (ih k2 (by omega) (fnext s h) hfhl hfhh hbh)
      · have hb2 : (fnext s)^[k + 1] a = (fnext s)^[k] (fnext s a) :=
          Function.iterate_succ_apply _ _ _
        rw [hb2]
        rw [hb2] at hbh
        have hstep : sameOrbitN (s.removeHe (h : Int)) a (fnext s a) := by
          refine ⟨1, by omega, ?_⟩
          rw [Function.iterate_one]
          rw [removeHe_fnext hs hl a ha hah, if_neg hfa]
        exact sameOrbitN_trans hs' ((hliveIff a).mpr ⟨ha, hah⟩) hstep
          (ih k (by omega) (fnext s a) (hs.fnext_liveN ha) hfa hbh)

theorem removeHe_orbit {s : DotsAndBoxesState} (hs : WFnext s) {h : Nat}
    (hl : liveN s h) :
    ∀ a b : Nat, liveN s a → a ≠ h → liveN s b → b ≠ h →
      (sameOrbitN (s.removeHe (h : Int)) a b ↔ sameOrbitN s a b) := by
  have hliveIff := (removeHe_props hs hl).2.2.2.2.2.1
  intro a b ha hah hb hbh
  constructor
  · rintro ⟨k, hk, rfl⟩
    exact removeHe_orbit_fwd hs hl k a ((hliveIff a).mpr ⟨ha, hah⟩)
  · rintro ⟨k, hk, rfl⟩
    exact removeHe_orbit_bwd hs hl k a ha hah hbh

theorem removeHe_indeps (s : DotsAndBoxesState) (he : Int) :
    (s.removeHe he).indeps = s.indeps := by
  unfold DotsAndBoxesState.removeHe
  rfl

theorem fnext_fixed_orbit (t : DotsAndBoxesState) {z : Nat} (hz : fnext t z = z) :
    ∀ k : Nat, (fnext t)^[k] z = z := by
  intro k
  induction k with
  | zero => rfl
  | succ k ih => rw [Function.iterate_succ_apply', ih, hz]

theorem filter_mem_singleton (n a : Nat) (ha : a < n) :
    (Finset.range n).filter (fun j => j ∈ ({a} : Finset Nat)) =
      ({a} : Finset Nat) := by
  ext j
  simp only [Finset.mem_filter, Finset.mem_range, Finset.mem_singleton]
  constructor
  · rintro ⟨-, hj⟩
    exact hj
  · rintro rfl
    exact ⟨ha, rfl⟩

theorem filter_mem_pair (n a b : Nat) (ha : a < n) (hb : b < n) :
    (Finset.range n).filter (fun j => j ∈ ({a, b} : Finset Nat)) =
      ({a, b} : Finset Nat) := by
  ext j
  simp only [Finset.mem_filter, Finset.mem_range, Finset.mem_insert,
    Finset.mem_singleton]
  constructor
  · rintro ⟨-, hj⟩
    exact hj
  · rintro (rfl | rfl)
    · exact ⟨ha, Or.inl rfl⟩
    · exact ⟨hb, Or.inr rfl⟩

/-- Removing a boundary half-edge (partner `DEADEND`) from a reduced
position: the state stays well-formed and the open-box count drops by the
removed link's cached length. -/
theorem removeBoundary_facts (s : DotsAndBoxesState) (hred : ReducedN s)
    {h : Nat} (hl : liveN s h)
    (hoD : pyGet s.otherHe (h : Int) = DEADEND) :
    WFs (s.removeHe (h : Int)) ∧
    (s.removeHe (h : Int)).numBoxesLeft + pyGet s.heLengths (h : Int) =
      s.numBoxesLeft := by
  obtain ⟨⟨ht, hp⟩, hdeg⟩ := hred
  have hlt : h < s.otherHe.length := liveN_lt_length s h hl
  obtain ⟨hn1, hn2, hn3, hOat, hHat, hliveIff, hNlive, hNdead, hNh⟩ :=
    removeHe_props ht hl
  have hWFn : WFnext (s.removeHe (h : Int)) := removeHe_WFnext ht hl
  have hWFp : WFpair (s.removeHe (h : Int)) := by
    refine ⟨by rw [hn3, hp.hlen, hn1], ?_⟩
    intro j hj hlj
    rw [hn1] at hj
    obtain ⟨hjt, hjh⟩ := (hliveIff j).mp hlj
    rw [hOat j, if_neg hjh]
    rcases hp.partner_cases hjt with hd | ⟨m, hm1, hm2, hm3, hm4, hm5, hm6⟩
    · exact Or.inl hd
    · have hmh : m ≠ h := by
        intro hk
        rw [hk, hoD] at hm5
        unfold DEADEND at hm5
        omega
      refine Or.inr ⟨m, by omega, hm2, hm3, (hliveIff m).mpr ⟨hm4, hmh⟩, ?_, ?_⟩
      · rw [hOat m, if_neg hmh]
        exact hm5
      · rw [hHat m, if_neg hmh, hHat j, if_neg hjh]
        exact hm6
  have hJ : jointCountF (s.removeHe (h : Int)) = jointCountF s := by
    refine jointCountF_eq_of_survive s (s.removeHe (h : Int)) ({h} : Finset Nat)
      ht hWFn hn1 ?_ ?_ ?_
    · intro j
      rw [hliveIff j]
      simp only [Finset.mem_singleton]
    · intro a b hla haD hlb hbD
      simp only [Finset.mem_singleton] at haD hbD
      exact removeHe_orbit ht hl a b hla haD hlb hbD
    · intro j hjm
      by_cases hjh : j = h
      · subst hjh
        refine ⟨fnext s j, Finset.mem_range.mpr (ht.fnext_lt hjm.1), ?_, ?_⟩
        · exact sameOrbitN_of_iterate ht hjm.1 1
        · simp only [Finset.mem_singleton]
          exact (hdeg j (liveN_lt_length s j hjm.1) hjm.1).1
      · exact ⟨j, Finset.mem_range.mpr hjm.2.1, sameOrbitN_refl s j,
          by simp only [Finset.mem_singleton]; exact hjh⟩
  have hPrel := pairSumF_rel s (s.removeHe (h : Int)) ({h} : Finset Nat) hn1 (by
    intro j hj hjS
    simp only [Finset.mem_singleton] at hjS
    rw [hOat j, if_neg hjS, hHat j, if_neg hjS]
    exact ⟨rfl, rfl⟩)
  rw [filter_mem_singleton _ _ hlt] at hPrel
  rw [Finset.sum_singleton, Finset.sum_singleton] at hPrel
  rw [if_pos ⟨hl, Or.inl hoD⟩] at hPrel
  rw [dead_term _ h (by rw [hliveIff h]; rintro ⟨-, hk⟩; exact hk rfl)] at hPrel
  have hLV : (s.removeHe (h : Int)).looneyValue = s.looneyValue :=
    removeHe_looneyValue s (h : Int)
  have hIeq : (s.removeHe (h : Int)).indeps = s.indeps := removeHe_indeps s _
  refine ⟨⟨hWFn, hWFp⟩, ?_⟩
  rw [numBoxesLeft_eq s ⟨ht, hp⟩, numBoxesLeft_eq _ ⟨hWFn, hWFp⟩, hLV, hIeq, hJ]
  omega

/-- Removing both halves of a live pair from a reduced position: the state
stays well-formed and the open-box count drops by the pair's cached
length.  The pointwise descriptions needed by the loop case of the move
generator are returned alongside. -/
theorem removePair_facts (s : DotsAndBoxesState) (hred : ReducedN s)
    {h oN : Nat} (hl : liveN s h) (hoN : liveN s oN)
    (ho3 : pyGet s.otherHe (h : Int) = (oN : Int))
    (ho5 : pyGet s.otherHe (oN : Int) = (h : Int))
    (ho6 : pyGet s.heLengths (oN : Int) = pyGet s.heLengths (h : Int))
    (hohne : oN ≠ h) :
    WFs ((s.removeHe (h : Int)).removeHe (oN : Int)) ∧
    ((s.removeHe (h : Int)).removeHe (oN : Int)).numBoxesLeft +
        pyGet s.heLengths (h : Int) = s.numBoxesLeft ∧
    (((s.removeHe (h : Int)).removeHe (oN : Int)).otherHe.length =
      s.otherHe.length) ∧
    (∀ j : Nat, liveN ((s.removeHe (h : Int)).removeHe (oN : Int)) j ↔
      (liveN s j ∧ j ≠ h ∧ j ≠ oN)) ∧
    (∀ j : Nat, pyGet ((s.removeHe (h : Int)).removeHe (oN : Int)).otherHe (j : Int) =
      (if j = h ∨ j = oN then REMOVED else pyGet s.otherHe (j : Int))) ∧
    (∀ j : Nat, pyGet ((s.removeHe (h : Int)).removeHe (oN : Int)).heLengths (j : Int) =
      (if j = h ∨ j = oN then REMOVED else pyGet s.heLengths (j : Int))) := by
  obtain ⟨⟨ht, hp⟩, hdeg⟩ := hred
  have hlt : h < s.otherHe.length := liveN_lt_length s h hl
  have hltoN : oN < s.otherHe.length := liveN_lt_length s oN hoN
  obtain ⟨ha1, ha2, ha3, haO, haH, haL, haNl, haNd, haNh⟩ := removeHe_props ht hl
  have hWFn1 : WFnext (s.removeHe (h : Int)) := removeHe_WFnext ht hl
  have hoN1 : liveN (s.removeHe (h : Int)) oN := (haL oN).mpr ⟨hoN, hohne⟩
  obtain ⟨hb1, hb2, hb3, hbO, hbH, hbL, hbNl, hbNd, hbNh⟩ :=
    removeHe_props hWFn1 hoN1
  have hWFn2 : WFnext ((s.removeHe (h : Int)).removeHe (oN : Int)) :=
    removeHe_WFnext hWFn1 hoN1
  have hlen2 : ((s.removeHe (h : Int)).removeHe (oN : Int)).otherHe.length =
      s.otherHe.length := by rw [hb1, ha1]
  have hliveIff2 : ∀ j : Nat,
      liveN ((s.removeHe (h : Int)).removeHe (oN : Int)) j ↔
        (liveN s j ∧ j ≠ h ∧ j ≠ oN) := by
    intro j
    rw [hbL j, haL j]
    constructor
    · rintro ⟨⟨hj1, hj2⟩, hj3⟩
      exact ⟨hj1, hj2, hj3⟩
    · rintro ⟨hj1, hj2, hj3⟩
      exact ⟨⟨hj1, hj2⟩, hj3⟩
  have hOat2 : ∀ j : Nat,
      pyGet ((s.removeHe (h : Int)).removeHe (oN : Int)).otherHe (j : Int) =
        (if j = h ∨ j = oN then REMOVED else pyGet s.otherHe (j : Int)) := by
    intro j
    rw [hbO j, haO j]
    by_cases hjo : j = oN
    · rw [if_pos hjo, if_pos (Or.inr hjo)]
    · rw [if_neg hjo]
      by_cases hjh : j = h
      · rw [if_pos hjh, if_pos (Or.inl hjh)]
      · rw [if_neg hjh,
          if_neg (by rintro (hh | hh) <;> [exact hjh hh; exact hjo hh])]
  have hHat2 : ∀ j : Nat,
      pyGet ((s.removeHe (h : Int)).removeHe (oN : Int)).heLengths (j : Int) =
        (if j = h ∨ j = oN then REMOVED else pyGet s.heLengths (j : Int)) := by
    intro j
    rw [hbH j, haH j]
    by_cases hjo : j = oN
    · rw [if_pos hjo, if_pos (Or.inr hjo)]
    · rw [if_neg hjo]
      by_cases hjh : j = h
      · rw [if_pos hjh, if_pos (Or.inl hjh)]
      · rw [if_neg hjh,
          if_neg (by rintro (hh | hh) <;> [exact hjh hh; exact hjo hh])]
  have hWFp2 : WFpair ((s.removeHe (h : Int)).removeHe (oN : Int)) := by
    refine ⟨by rw [hb3, ha3, hp.hlen, hlen2], ?_⟩
    intro j hj hlj
    rw [hlen2] at hj
    obtain ⟨hjt, hjh, hjo⟩ := (hliveIff2 j).mp hlj
    rw [hOat2 j,
      if_neg (by rintro (hh | hh) <;> [exact hjh hh; exact hjo hh])]
    rcases hp.partner_cases hjt with hd | ⟨m, hm1, hm2, hm3, hm4, hm5, hm6⟩
    · exact Or.inl hd
    · have hmh : m ≠ h := by
        intro hk
        rw [hk, ho3] at hm5
        have hcast : j = oN := by exact_mod_cast hm5.symm
        exact hjo hcast
      have hmo : m ≠ oN := by
        intro hk
        rw [hk, ho5] at hm5
        have hcast : j = h := by exact_mod_cast hm5.symm
        exact hjh hcast
      refine Or.inr ⟨m, by omega, hm2, hm3,
        (hliveIff2 m).mpr ⟨hm4, hmh, hmo⟩, ?_, ?_⟩
      · rw [hOat2 m,
          if_neg (by rintro (hh | hh) <;> [exact hmh hh; exact hmo hh])]
        exact hm5
      · rw [hHat2 m,
          if_neg (by rintro (hh | hh) <;> [exact hmh hh; exact hmo hh]),
          hHat2 j,
          if_neg (by rintro (hh | hh) <;> [exact hjh hh; exact hjo hh])]
        exact hm6
  have hJ1 : jointCountF (s.removeHe (h : Int)) = jointCountF s := by
    refine jointCountF_eq_of_survive s (s.removeHe (h : Int)) ({h} : Finset Nat)
      ht hWFn1 ha1 ?_ ?_ ?_
    · intro j
      rw [haL j]
      simp only [Finset.mem_singleton]
    · intro a b hla haD hlb hbD
      simp only [Finset.mem_singleton] at haD hbD
      exact removeHe_orbit ht hl a b hla haD hlb hbD
    · intro j hjm
      by_cases hjh : j = h
      · subst hjh
        refine ⟨fnext s j, Finset.mem_range.mpr (ht.fnext_lt hjm.1), ?_, ?_⟩
        · exact sameOrbitN_of_iterate ht hjm.1 1
        · simp only [Finset.mem_singleton]
          exact (hdeg j (liveN_lt_length s j hjm.1) hjm.1).1
      · exact ⟨j, Finset.mem_range.mpr hjm.2.1, sameOrbitN_refl s j,
          by simp only [Finset.mem_singleton]; exact hjh⟩
  have hJ2 : jointCountF ((s.removeHe (h : Int)).removeHe (oN : Int)) =
      jointCountF (s.removeHe (h : Int)) := by
    refine jointCountF_eq_of_survive (s.removeHe (h : Int)) _ ({oN} : Finset Nat)
      hWFn1 hWFn2 hb1 ?_ ?_ ?_
    · intro j
      rw [hbL j]
      simp only [Finset.mem_singleton]
    · intro a b hla haD hlb hbD
      simp only [Finset.mem_singleton] at haD hbD
      exact removeHe_orbit hWFn1 hoN1 a b hla haD hlb hbD
    · intro j hjm
      by_cases hjo : j = oN
      · subst hjo
        refine ⟨fnext (s.removeHe (h : Int)) j,
          Finset.mem_range.mpr (hWFn1.fnext_lt hjm.1), ?_, ?_⟩
        · exact sameOrbitN_of_iterate hWFn1 hjm.1 1
        · simp only [Finset.mem_singleton]
          rw [removeHe_fnext ht hl j ((haL j).mp hjm.1).1 ((haL j).mp hjm.1).2]
          by_cases hc : fnext s j = h
          · rw [if_pos hc]
            intro hcontra
            have hfo2 := (hdeg j (liveN_lt_length s j ((haL j).mp hjm.1).1)
              ((haL j).mp hjm.1).1).2
            rw [hc, hcontra] at hfo2
            exact hfo2 rfl
          · rw [if_neg hc]
            exact (hdeg j (liveN_lt_length s j ((haL j).mp hjm.1).1)
              ((haL j).mp hjm.1).1).1
      · exact ⟨j, Finset.mem_range.mpr hjm.2.1, sameOrbitN_refl _ j,
          by simp only [Finset.mem_singleton]; exact hjo⟩
  have hPrel := pairSumF_rel s ((s.removeHe (h : Int)).removeHe (oN : Int))
    ({h, oN} : Finset Nat) hlen2 (by
    intro j hj hjS
    simp only [Finset.mem_insert, Finset.mem_singleton] at hjS
    push_neg at hjS
    rw [hOat2 j, if_neg (by rintro (hh | hh) <;> [exact hjS.1 hh; exact hjS.2 hh]),
      hHat2 j, if_neg (by rintro (hh | hh) <;> [exact hjS.1 hh; exact hjS.2 hh])]
    exact ⟨rfl, rfl⟩)
  rw [filter_mem_pair _ _ _ hlt hltoN] at hPrel
  have hhoN : h ≠ oN := fun hh => hohne hh.symm
  rw [Finset.sum_pair hhoN, Finset.sum_pair hhoN] at hPrel
  rw [pair_terms s hhoN ho3 ho5 ho6.symm] at hPrel
  rw [dead_term _ h (by rw [hliveIff2 h]; rintro ⟨-, hk, -⟩; exact hk rfl)] at hPrel
  rw [dead_term _ oN
    (by rw [hliveIff2 oN]; rintro ⟨-, -, hk⟩; exact hk rfl)] at hPrel
  have hLV : ((s.removeHe (h : Int)).removeHe (oN : Int)).looneyValue =
      s.looneyValue := by
    rw [removeHe_looneyValue, removeHe_looneyValue]
  have hIeq : ((s.removeHe (h : Int)).removeHe (oN : Int)).indeps = s.indeps := by
    rw [removeHe_indeps, removeHe_indeps]
  refine ⟨⟨hWFn2, hWFp2⟩, ?_, hlen2, hliveIff2, hOat2, hHat2⟩
  rw [numBoxesLeft_eq s ⟨ht, hp⟩, numBoxesLeft_eq _ ⟨hWFn2, hWFp2⟩, hLV, hIeq,
    hJ2, hJ1]
  omega

theorem findHe3_step (nextHe : List Int) (he oHe : Int) (fuel : Nat) (cur : Int) :
    findHe3 nextHe he oHe (fuel + 1) cur =
      (if cur = he ∨ cur = oHe then
        findHe3 nextHe he oHe fuel (pyGet nextHe cur)
       else cur) := rfl

theorem findHe3_stop (nextHe : List Int) (he oHe : Int) (fuel : Nat) (cur : Int)
    (h1 : cur ≠ he) (h2 : cur ≠ oHe) :
    findHe3 nextHe he oHe fuel cur = cur := by
  cases fuel with
  | zero => rfl
  | succ k =>
    rw [findHe3_step,
      if_neg (by rintro (hh | hh) <;> [exact h1 hh; exact h2 hh])]

/-- Structure of the short-cycle loop pattern in a reduced position: the
rotation cycle at `he` is a 3-cycle `{he, oHe, m}` (in one of its two
arrangements) and the `he3` scan lands on the third half-edge `m`. -/
theorem loopCase_facts (s : DotsAndBoxesState) (hred : ReducedN s)
    {h oN : Nat} (hl : liveN s h) (hoN : liveN s oN) (hohne : oN ≠ h)
    (hc : s.isLoopAt (h : Int) (oN : Int) ∧ s.shortCycleAt (h : Int)) :
    ∃ m : Nat, m < s.otherHe.length ∧ liveN s m ∧ m ≠ h ∧ m ≠ oN ∧
      findHe3 s.nextHe (h : Int) (oN : Int) (s.nextHe.length + 1) (h : Int) =
        (m : Int) ∧
      ((fnext s h = oN ∧ fnext s oN = m ∧ fnext s m = h) ∨
       (fnext s h = m ∧ fnext s m = oN ∧ fnext s oN = h)) := by
  obtain ⟨⟨ht, hp⟩, hdeg⟩ := hred
  have hlt : h < s.otherHe.length := liveN_lt_length s h hl
  have hfh := ht.pyGet_nextHe hl
  have hlf : liveN s (fnext s h) := ht.fnext_liveN hl
  have hf2 := ht.pyGet_nextHe hlf
  have hlf2 : liveN s (fnext s (fnext s h)) := ht.fnext_liveN hlf
  have hf3 := ht.pyGet_nextHe hlf2
  have hd1 : fnext s h ≠ h := (hdeg h hlt hl).1
  have hd2 : fnext s (fnext s h) ≠ h := (hdeg h hlt hl).2
  have hne21 : fnext s (fnext s h) ≠ fnext s h := by
    intro he
    exact hd1 (ht.fnext_inj hlf hl he)
  have hc2 := hc.2
  unfold DotsAndBoxesState.shortCycleAt at hc2
  rw [hfh, hf2, hf3] at hc2
  have hcyc3 : fnext s (fnext s (fnext s h)) = h := by
    rcases hc2 with h1 | h2 | h3
    · exact absurd (by exact_mod_cast h1) hd1
    · exact absurd (by exact_mod_cast h2) hd2
    · exact_mod_cast h3
  have hc1 := hc.1
  unfold DotsAndBoxesState.isLoopAt at hc1
  rw [hfh, hf2, hf3] at hc1
  have hlen1 : ∃ n1 : Nat, s.nextHe.length = n1 + 1 :=
    ⟨s.nextHe.length - 1, by rw [ht.hlen]; omega⟩
  rcases hc1 with h1 | h2 | h3
  · -- oN = fnext h : arrangement (h, oN, m)
    have hA : fnext s h = oN := by exact_mod_cast h1
    refine ⟨fnext s (fnext s h), liveN_lt_length s _ hlf2, hlf2, hd2, ?_, ?_, ?_⟩
    · rw [← hA]
      exact hne21
    · obtain ⟨n1, hn1⟩ := hlen1
      rw [findHe3_step, if_pos (Or.inl rfl), hfh, hA, hn1, findHe3_step,
        if_pos (Or.inr rfl), ht.pyGet_nextHe hoN]
      have hoNm : fnext s oN = fnext s (fnext s h) := by rw [← hA]
      rw [hoNm]
      refine findHe3_stop _ _ _ _ _ ?_ ?_
      · intro hh
        exact hd2 (by exact_mod_cast hh)
      · intro hh
        rw [← hA] at hh
        exact hne21 (by exact_mod_cast hh)
    · refine Or.inl ⟨hA, by rw [← hA], hcyc3⟩
  · -- oN = fnext (fnext h) : arrangement (h, m, oN)
    have hB : fnext s (fnext s h) = oN := by exact_mod_cast h2
    refine ⟨fnext s h, liveN_lt_length s _ hlf, hlf, hd1, ?_, ?_, ?_⟩
    · intro hh
      exact hne21 (by rw [hB, hh])
    · rw [findHe3_step, if_pos (Or.inl rfl), hfh]
      refine findHe3_stop _ _ _ _ _ ?_ ?_
      · intro hh
        exact hd1 (by exact_mod_cast hh)
      · intro hh
        have hcast : fnext s h = oN := by exact_mod_cast hh
        rw [← hB] at hcast
        exact hne21 hcast.symm
    · refine Or.inr ⟨rfl, hB, by rw [← hB]; exact hcyc3⟩
  · -- third step hits h itself: contradicts oN ≠ h
    rw [hcyc3] at h3
    exact absurd (by exact_mod_cast h3 : (h : Int) = (oN : Int))
      (fun hh => hohne (by exact_mod_cast hh.symm))

theorem linkLenHe3_loop (s : DotsAndBoxesState) {h oN : Nat} {m : Nat}
    (hfind : findHe3 s.nextHe (h : Int) (oN : Int) (s.nextHe.length + 1)
      (h : Int) = (m : Int))
    (hc : s.isLoopAt (h : Int) (oN : Int) ∧ s.shortCycleAt (h : Int)) :
    linkLenHe3 s (h : Int) (oN : Int) =
      (pyGet s.heLengths (h : Int) + pyGet s.heLengths (m : Int) + 1,
        (m : Int)) := by
  unfold DotsAndBoxesState.linkLenHe3
  rw [if_pos hc]
  dsimp only
  rw [hfind]

theorem linkLenHe3_not (s : DotsAndBoxesState) (he oHe : Int)
    (hc : ¬ (s.isLoopAt he oHe ∧ s.shortCycleAt he)) :
    linkLenHe3 s he oHe = (pyGet s.heLengths he, REMOVED) := by
  unfold DotsAndBoxesState.linkLenHe3
  rw [if_neg hc]

theorem notLoopAt_dead (s : DotsAndBoxesState) (ht : WFnext s) {h : Nat}
    (hl : liveN s h) : ¬ s.isLoopAt (h : Int) DEADEND := by
  have hfh := ht.pyGet_nextHe hl
  have hlf : liveN s (fnext s h) := ht.fnext_liveN hl
  have hf2 := ht.pyGet_nextHe hlf
  have hlf2 : liveN s (fnext s (fnext s h)) := ht.fnext_liveN hlf
  have hf3 := ht.pyGet_nextHe hlf2
  intro hc
  unfold DotsAndBoxesState.isLoopAt at hc
  rw [hfh, hf2, hf3] at hc
  unfold DEADEND at hc
  rcases hc with h1 | h2 | h3
  · have := Int.natCast_nonneg (fnext s (fnext s h))
    omega
  · have := Int.natCast_nonneg (fnext s (fnext s (fnext s h)))
    omega
  · have := Int.natCast_nonneg (fnext s (fnext s (fnext s (fnext s h))))
    omega

/-- After removing the pair `{h, oN}` of a short 3-cycle, the third
half-edge `m` becomes a rotation fixed point, and every other live
half-edge keeps its successor (which avoids the cycle). -/
theorem loop_fnext2 (s : DotsAndBoxesState) (hred : ReducedN s)
    {h oN m : Nat} (hl : liveN s h) (hoN : liveN s oN) (hm : liveN s m)
    (hohne : oN ≠ h) (hmh : m ≠ h) (hmo : m ≠ oN)
    (harr : (fnext s h = oN ∧ fnext s oN = m ∧ fnext s m = h) ∨
       (fnext s h = m ∧ fnext s m = oN ∧ fnext s oN = h)) :
    fnext ((s.removeHe (h : Int)).removeHe (oN : Int)) m = m ∧
    (∀ z : Nat, liveN s z → z ≠ h → z ≠ oN → z ≠ m →
      fnext ((s.removeHe (h : Int)).removeHe (oN : Int)) z = fnext s z ∧
      fnext s z ≠ h ∧ fnext s z ≠ oN ∧ fnext s z ≠ m) := by
  obtain ⟨⟨ht, hp⟩, hdeg⟩ := hred
  have hWFn1 : WFnext (s.removeHe (h : Int)) := removeHe_WFnext ht hl
  have haL := (removeHe_props ht hl).2.2.2.2.2.1
  have hlm1 : liveN (s.removeHe (h : Int)) m := (haL m).mpr ⟨hm, hmh⟩
  have hoN1 : liveN (s.removeHe (h : Int)) oN := (haL oN).mpr ⟨hoN, hohne⟩
  constructor
  · rw [removeHe_fnext hWFn1 hoN1 m hlm1 hmo]
    rcases harr with ⟨hA1, hA2, hA3⟩ | ⟨hB1, hB2, hB3⟩
    · have f1m : fnext (s.removeHe (h : Int)) m = fnext s h := by
        rw [removeHe_fnext ht hl m hm hmh, if_pos hA3]
      have f1oN : fnext (s.removeHe (h : Int)) oN = m := by
        rw [removeHe_fnext ht hl oN hoN hohne,
          if_neg (by rw [hA2]; exact hmh), hA2]
      rw [f1m, f1oN, if_pos hA1]
    · have f1m : fnext (s.removeHe (h : Int)) m = oN := by
        rw [removeHe_fnext ht hl m hm hmh,
          if_neg (by rw [hB2]; exact hohne), hB2]
      have f1oN : fnext (s.removeHe (h : Int)) oN = m := by
        rw [removeHe_fnext ht hl oN hoN hohne, if_pos hB3, hB1]
      rw [f1m, f1oN, if_pos rfl]
  · intro z hz hzh hzo hzm
    have hfzh : fnext s z ≠ h := by
      intro he
      rcases harr with ⟨hA1, hA2, hA3⟩ | ⟨hB1, hB2, hB3⟩
      · exact hzm (ht.fnext_inj hz hm (by rw [he, hA3]))
      · exact hzo (ht.fnext_inj hz hoN (by rw [he, hB3]))
    have hfzo : fnext s z ≠ oN := by
      intro he
      rcases harr with ⟨hA1, hA2, hA3⟩ | ⟨hB1, hB2, hB3⟩
      · exact hzh (ht.fnext_inj hz hl (by rw [he, hA1]))
      · exact hzm (ht.fnext_inj hz hm (by rw [he, hB2]))
    have hfzm : fnext s z ≠ m := by
      intro he
      rcases harr with ⟨hA1, hA2, hA3⟩ | ⟨hB1, hB2, hB3⟩
      · exact hzo (ht.fnext_inj hz hoN (by rw [he, hA2]))
      · exact hzh (ht.fnext_inj hz hl (by rw [he, hB1]))
    have hz1 : liveN (s.removeHe (h : Int)) z := (haL z).mpr ⟨hz, hzh⟩
    refine ⟨?_, hfzh, hfzo, hfzm⟩
    rw [removeHe_fnext hWFn1 hoN1 z hz1 hzo,
      removeHe_fnext ht hl z hz hzh, if_neg hfzh, if_neg hfzo]

/-- In the 3-cycle case the two neighbour re-simplifications of the
per-link surgery do not fire: their arguments are either a removed
half-edge or the fixed point `m`. -/
theorem loop_nofire (s : DotsAndBoxesState) (hred : ReducedN s)
    {h oN m : Nat} (hl : liveN s h) (hoN : liveN s oN) (hm : liveN s m)
    (hohne : oN ≠ h) (hmh : m ≠ h) (hmo : m ≠ oN)
    (harr : (fnext s h = oN ∧ fnext s oN = m ∧ fnext s m = h) ∨
       (fnext s h = m ∧ fnext s m = oN ∧ fnext s oN = h)) :
    DotsAndBoxesState.simplifyLink ((s.removeHe (h : Int)).removeHe (oN : Int))
        (pyGet s.nextHe (h : Int)) =
      (s.removeHe (h : Int)).removeHe (oN : Int) ∧
    DotsAndBoxesState.simplifyLink ((s.removeHe (h : Int)).removeHe (oN : Int))
        (pyGet s.nextHe (oN : Int)) =
      (s.removeHe (h : Int)).removeHe (oN : Int) := by
  have ht := hred.1.1
  have hWFn1 : WFnext (s.removeHe (h : Int)) := removeHe_WFnext ht hl
  have haL := (removeHe_props ht hl).2.2.2.2.2.1
  have hoN1 : liveN (s.removeHe (h : Int)) oN := (haL oN).mpr ⟨hoN, hohne⟩
  have hWFn2 : WFnext ((s.removeHe (h : Int)).removeHe (oN : Int)) :=
    removeHe_WFnext hWFn1 hoN1
  have hbL := (removeHe_props hWFn1 hoN1).2.2.2.2.2.1
  have hfix := (loop_fnext2 s hred hl hoN hm hohne hmh hmo harr).1
  constructor
  · rcases simplifyLink_cases hWFn2 (pyGet s.nextHe (h : Int)) with heq |
      ⟨h', hlt', hlive', hx, hne', hcyc'⟩
    · exact heq
    · exfalso
      rw [ht.pyGet_nextHe hl] at hx
      have hh' : h' = fnext s h := by exact_mod_cast hx.symm
      obtain ⟨hlv1, hne_oN⟩ := (hbL h').mp hlive'
      obtain ⟨hlvs, hne_h⟩ := (haL h').mp hlv1
      rcases harr with ⟨hA1, hA2, hA3⟩ | ⟨hB1, hB2, hB3⟩
      · exact hne_oN (by rw [hh', hA1])
      · have hh'm : h' = m := by rw [hh', hB1]
        rw [hh'm, hfix] at hne'
        exact hne' rfl
  · rcases simplifyLink_cases hWFn2 (pyGet s.nextHe (oN : Int)) with heq |
      ⟨h', hlt', hlive', hx, hne', hcyc'⟩
    · exact heq
    · exfalso
      rw [ht.pyGet_nextHe hoN] at hx
      have hh' : h' = fnext s oN := by exact_mod_cast hx.symm
      obtain ⟨hlv1, hne_oN⟩ := (hbL h').mp hlive'
      obtain ⟨hlvs, hne_h⟩ := (haL h').mp hlv1
      rcases harr with ⟨hA1, hA2, hA3⟩ | ⟨hB1, hB2, hB3⟩
      · have hh'm : h' = m := by rw [hh', hA2]
        rw [hh'm, hfix] at hne'
        exact hne' rfl
      · exact hne_h (by rw [hh', hB3])

/-- Removing a live rotation fixed point whose partner is a boundary: one
joint and its cached length leave the count. -/
theorem removeFixed_dead (t : DotsAndBoxesState) (hw : WFs t) {m : Nat}
    (hm : liveN t m) (hfix : fnext t m = m)
    (hmD : pyGet t.otherHe (m : Int) = DEADEND) :
    WFs (t.removeHe (m : Int)) ∧
    (t.removeHe (m : Int)).numBoxesLeft + 1 + pyGet t.heLengths (m : Int) =
      t.numBoxesLeft := by
  obtain ⟨ht, hp⟩ := hw
  have hlt : m < t.otherHe.length := liveN_lt_length t m hm
  obtain ⟨ha1, ha2, ha3, haO, haH, haL, haNl, haNd, haNh⟩ := removeHe_props ht hm
  have hWFn1 : WFnext (t.removeHe (m : Int)) := removeHe_WFnext ht hm
  have hWFp1 : WFpair (t.removeHe (m : Int)) := by
    refine ⟨by rw [ha3, hp.hlen, ha1], ?_⟩
    intro j hj hlj
    rw [ha1] at hj
    obtain ⟨hjt, hjm⟩ := (haL j).mp hlj
    rw [haO j, if_neg hjm]
    rcases hp.partner_cases hjt with hd | ⟨m', hm1', hm2', hm3', hm4', hm5', hm6'⟩
    · exact Or.inl hd
    · have hmm : m' ≠ m := by
        intro hk
        rw [hk, hmD] at hm5'
        unfold DEADEND at hm5'
        omega
      refine Or.inr ⟨m', by omega, hm2', hm3', (haL m').mpr ⟨hm4', hmm⟩, ?_, ?_⟩
      · rw [haO m', if_neg hmm]
        exact hm5'
      · rw [haH m', if_neg hmm, haH j, if_neg hjm]
        exact hm6'
  have horb : ∀ a b : Nat, liveN t a → a ∉ ({m} : Finset Nat) → liveN t b →
      b ∉ ({m} : Finset Nat) →
      (sameOrbitN (t.removeHe (m : Int)) a b ↔ sameOrbitN t a b) := by
    intro a b hla haD hlb hbD
    simp only [Finset.mem_singleton] at haD hbD
    exact removeHe_orbit ht hm a b hla haD hlb hbD
  have hmrep : minRepN t m := by
    refine ⟨hm, hlt, ?_⟩
    intro r hr horbr
    obtain ⟨k, hk, hiter⟩ := horbr
    rw [fnext_fixed_orbit t hfix k] at hiter
    omega
  have hJ : jointCountF t = jointCountF (t.removeHe (m : Int)) + 1 := by
    refine jointCountF_sub_one t (t.removeHe (m : Int)) ({m} : Finset Nat)
      ht hWFn1 ha1 ?_ horb m hmrep ?_ ?_
    · intro j
      rw [haL j]
      simp only [Finset.mem_singleton]
    · intro r horbr
      obtain ⟨k, hk, hiter⟩ := horbr
      rw [fnext_fixed_orbit t hfix k] at hiter
      simp only [Finset.mem_singleton]
      omega
    · intro j hjm hjne
      exact ⟨j, Finset.mem_range.mpr hjm.2.1, sameOrbitN_refl t j,
        by simp only [Finset.mem_singleton]; exact hjne⟩
  have hPrel := pairSumF_rel t (t.removeHe (m : Int)) ({m} : Finset Nat) ha1 (by
    intro j hj hjS
    simp only [Finset.mem_singleton] at hjS
    rw [haO j, if_neg hjS, haH j, if_neg hjS]
    exact ⟨rfl, rfl⟩)
  rw [filter_mem_singleton _ _ hlt] at hPrel
  rw [Finset.sum_singleton, Finset.sum_singleton] at hPrel
  rw [if_pos ⟨hm, Or.inl hmD⟩] at hPrel
  rw [dead_term _ m (by rw [haL m]; rintro ⟨-, hk⟩; exact hk rfl)] at hPrel
  refine ⟨⟨hWFn1, hWFp1⟩, ?_⟩
  rw [numBoxesLeft_eq t ⟨ht, hp⟩, numBoxesLeft_eq _ ⟨hWFn1, hWFp1⟩,
    removeHe_looneyValue, removeHe_indeps, hJ]
  omega

/-- Removing a live rotation fixed point together with its live partner:
one joint and one cached length leave the count. -/
theorem removeFixedPair_live (t : DotsAndBoxesState) (hw : WFs t) {m w : Nat}
    (hm : liveN t m) (hfix : fnext t m = m) (hlw : liveN t w) (hwm : w ≠ m)
    (hwo : pyGet t.otherHe (m : Int) = (w : Int))
    (hwo2 : pyGet t.otherHe (w : Int) = (m : Int))
    (hwlen : pyGet t.heLengths (w : Int) = pyGet t.heLengths (m : Int))
    (hfw : fnext t w ≠ w) (hfwm : fnext t w ≠ m) :
    WFs ((t.removeHe (m : Int)).removeHe (w : Int)) ∧
    ((t.removeHe (m : Int)).removeHe (w : Int)).numBoxesLeft + 1 +
        pyGet t.heLengths (m : Int) = t.numBoxesLeft := by
  obtain ⟨ht, hp⟩ := hw
  have hlt : m < t.otherHe.length := liveN_lt_length t m hm
  have hltw : w < t.otherHe.length := liveN_lt_length t w hlw
  obtain ⟨ha1, ha2, ha3, haO, haH, haL, haNl, haNd, haNh⟩ := removeHe_props ht hm
  have hWFn1 : WFnext (t.removeHe (m : Int)) := removeHe_WFnext ht hm
  have hw1 : liveN (t.removeHe (m : Int)) w := (haL w).mpr ⟨hlw, hwm⟩
  obtain ⟨hb1, hb2, hb3, hbO, hbH, hbL, hbNl, hbNd, hbNh⟩ :=
    removeHe_props hWFn1 hw1
  have hWFn2 : WFnext ((t.removeHe (m : Int)).removeHe (w : Int)) :=
    removeHe_WFnext hWFn1 hw1
  have hlen2 : ((t.removeHe (m : Int)).removeHe (w : Int)).otherHe.length =
      t.otherHe.length := by rw [hb1, ha1]
  have hliveIff2 : ∀ j : Nat,
      liveN ((t.removeHe (m : Int)).removeHe (w : Int)) j ↔
        (liveN t j ∧ j ≠ m ∧ j ≠ w) := by
    intro j
    rw [hbL j, haL j]
    constructor
    · rintro ⟨⟨hj1, hj2⟩, hj3⟩
      exact ⟨hj1, hj2, hj3⟩
    · rintro ⟨hj1, hj2, hj3⟩
      exact ⟨⟨hj1, hj2⟩, hj3⟩
  have hOat2 : ∀ j : Nat,
      pyGet ((t.removeHe (m : Int)).removeHe (w : Int)).otherHe (j : Int) =
        (if j = m ∨ j = w then REMOVED else pyGet t.otherHe (j : Int)) := by
    intro j
    rw [hbO j, haO j]
    by_cases hjw : j = w
    · rw [if_pos hjw, if_pos (Or.inr hjw)]
    · rw [if_neg hjw]
      by_cases hjm : j = m
      · rw [if_pos hjm, if_pos (Or.inl hjm)]
      · rw [if_neg hjm,
          if_neg (by rintro (hh | hh) <;> [exact hjm hh; exact hjw hh])]
  have hHat2 : ∀ j : Nat,
      pyGet ((t.removeHe (m : Int)).removeHe (w : Int)).heLengths (j : Int) =
        (if j = m ∨ j = w then REMOVED else pyGet t.heLengths (j : Int)) := by
    intro j
    rw [hbH j, haH j]
    by_cases hjw : j = w
    · rw [if_pos hjw, if_pos (Or.inr hjw)]
    · rw [if_neg hjw]
      by_cases hjm : j = m
      · rw [if_pos hjm, if_pos (Or.inl hjm)]
      · rw [if_neg hjm,
          if_neg (by rintro (hh | hh) <;> [exact hjm hh; exact hjw hh])]
  have hWFp2 : WFpair ((t.removeHe (m : Int)).removeHe (w : Int)) := by
    refine ⟨by rw [hb3, ha3, hp.hlen, hlen2], ?_⟩
    intro j hj hlj
    rw [hlen2] at hj
    obtain ⟨hjt, hjm, hjw⟩ := (hliveIff2 j).mp hlj
    rw [hOat2 j,
      if_neg (by rintro (hh | hh) <;> [exact hjm hh; exact hjw hh])]
    rcases hp.partner_cases hjt with hd | ⟨m', hm1', hm2', hm3', hm4', hm5', hm6'⟩
    · exact Or.inl hd
    · have hmm : m' ≠ m := by
        intro hk
        rw [hk, hwo] at hm5'
        have hcast : j = w := by exact_mod_cast hm5'.symm
        exact hjw hcast
      have hmw : m' ≠ w := by
        intro hk
        rw [hk, hwo2] at hm5'
        have hcast : j = m := by exact_mod_cast hm5'.symm
        exact hjm hcast
      refine Or.inr ⟨m', by omega, hm2', hm3',
        (hliveIff2 m').mpr ⟨hm4', hmm, hmw⟩, ?_, ?_⟩
      · rw [hOat2 m',
          if_neg (by rintro (hh | hh) <;> [exact hmm hh; exact hmw hh])]
        exact hm5'
      · rw [hHat2 m',
          if_neg (by rintro (hh | hh) <;> [exact hmm hh; exact hmw hh]),
          hHat2 j,
          if_neg (by rintro (hh | hh) <;> [exact hjm hh; exact hjw hh])]
        exact hm6'
  have horb : ∀ a b : Nat, liveN t a → a ∉ ({m, w} : Finset Nat) → liveN t b →
      b ∉ ({m, w} : Finset Nat) →
      (sameOrbitN ((t.removeHe (m : Int)).removeHe (w : Int)) a b ↔
        sameOrbitN t a b) := by
    intro a b hla haD hlb hbD
    simp only [Finset.mem_insert, Finset.mem_singleton] at haD hbD
    push_neg at haD hbD
    have h1 := removeHe_orbit hWFn1 hw1 a b ((haL a).mpr ⟨hla, haD.1⟩) haD.2
      ((haL b).mpr ⟨hlb, hbD.1⟩) hbD.2
    have h2 := removeHe_orbit ht hm a b hla haD.1 hlb hbD.1
    exact h1.trans h2
  have hmrep : minRepN t m := by
    refine ⟨hm, hlt, ?_⟩
    intro r hr horbr
    obtain ⟨k, hk, hiter⟩ := horbr
    rw [fnext_fixed_orbit t hfix k] at hiter
    omega
  have hJ : jointCountF t =
      jointCountF ((t.removeHe (m : Int)).removeHe (w : Int)) + 1 := by
    refine jointCountF_sub_one t _ ({m, w} : Finset Nat)
      ht hWFn2 hlen2 ?_ horb m hmrep ?_ ?_
    · intro j
      rw [hliveIff2 j]
      simp only [Finset.mem_insert, Finset.mem_singleton]
      constructor
      · rintro ⟨hj1, hj2, hj3⟩
        exact ⟨hj1, by rintro (hh | hh) <;> [exact hj2 hh; exact hj3 hh]⟩
      · rintro ⟨hj1, hj2⟩
        push_neg at hj2
        exact ⟨hj1, hj2.1, hj2.2⟩
    · intro r horbr
      obtain ⟨k, hk, hiter⟩ := horbr
      rw [fnext_fixed_orbit t hfix k] at hiter
      simp only [Finset.mem_insert, Finset.mem_singleton]
      exact Or.inl hiter.symm
    · intro j hjm hjne
      by_cases hjw : j = w
      · subst hjw
        refine ⟨fnext t j, Finset.mem_range.mpr (ht.fnext_lt hjm.1), ?_, ?_⟩
        · exact sameOrbitN_of_iterate ht hjm.1 1
        · simp only [Finset.mem_insert, Finset.mem_singleton]
          rintro (hh | hh)
          · exact hfwm hh
          · exact hfw hh
      · refine ⟨j, Finset.mem_range.mpr hjm.2.1, sameOrbitN_refl t j, ?_⟩
        simp only [Finset.mem_insert, Finset.mem_singleton]
        rintro (hh | hh)
        · exact hjne hh
        · exact hjw hh
  have hPrel := pairSumF_rel t ((t.removeHe (m : Int)).removeHe (w : Int))
    ({m, w} : Finset Nat) hlen2 (by
    intro j hj hjS
    simp only [Finset.mem_insert, Finset.mem_singleton] at hjS
    push_neg at hjS
    rw [hOat2 j, if_neg (by rintro (hh | hh) <;> [exact hjS.1 hh; exact hjS.2 hh]),
      hHat2 j, if_neg (by rintro (hh | hh) <;> [exact hjS.1 hh; exact hjS.2 hh])]
    exact ⟨rfl, rfl⟩)
  rw [filter_mem_pair _ _ _ hlt hltw] at hPrel
  have hmw' : m ≠ w := fun hh => hwm hh.symm
  rw [Finset.sum_pair hmw', Finset.sum_pair hmw'] at hPrel
  rw [pair_terms t hmw' hwo hwo2 hwlen.symm] at hPrel
  rw [dead_term _ m (by rw [hliveIff2 m]; rintro ⟨-, hk, -⟩; exact hk rfl)] at hPrel
  rw [dead_term _ w
    (by rw [hliveIff2 w]; rintro ⟨-, -, hk⟩; exact hk rfl)] at hPrel
  refine ⟨⟨hWFn2, hWFp2⟩, ?_⟩
  rw [numBoxesLeft_eq t ⟨ht, hp⟩, numBoxesLeft_eq _ ⟨hWFn2, hWFp2⟩]
  rw [removeHe_looneyValue, removeHe_looneyValue, removeHe_indeps,
    removeHe_indeps, hJ]
  omega

/-- The per-link graph surgery of `listMoves` preserves well-formedness
and removes exactly the credited length from the open-box count, on any
reduced position. -/
theorem linkSuccGraph_num (s : DotsAndBoxesState) (hred : ReducedN s)
    {h : Nat} (hl : liveN s h) :
    WFs (s.linkSuccGraph (h : Int)) ∧
    (s.linkSuccGraph (h : Int)).numBoxesLeft +
        (linkLenHe3 s (h : Int) (pyGet s.otherHe (h : Int))).1 =
      s.numBoxesLeft := by
  have ht := hred.1.1
  have hp := hred.1.2
  have hdeg := hred.2
  have cDD : ¬ (DEADEND ≠ DEADEND) := fun hh => hh rfl
  have cRR : ¬ ((REMOVED : Int) ≠ REMOVED) := fun hh => hh rfl
  have cRD : (REMOVED : Int) ≠ DEADEND := by unfold REMOVED DEADEND; omega
  rcases hp.partner_cases hl with hoD | ⟨oN, ho1, ho2, ho3, ho4, ho5, ho6⟩
  · -- boundary partner
    have hnotc : ¬ (s.isLoopAt (h : Int) DEADEND ∧ s.shortCycleAt (h : Int)) :=
      fun hcc => notLoopAt_dead s ht hl hcc.1
    have hlen3 : linkLenHe3 s (h : Int) DEADEND =
        (pyGet s.heLengths (h : Int), REMOVED) := linkLenHe3_not s _ _ hnotc
    have hg : s.linkSuccGraph (h : Int) =
        DotsAndBoxesState.simplifyLink
          (DotsAndBoxesState.simplifyLink (s.removeHe (h : Int))
            (pyGet s.nextHe (h : Int))) REMOVED := by
      unfold DotsAndBoxesState.linkSuccGraph
      dsimp only
      rw [hoD, hlen3]
      dsimp only
      rw [if_neg cDD, if_neg cDD, if_pos cRD, if_neg cRR]
    obtain ⟨hWF1, hnum1⟩ := removeBoundary_facts s hred hl hoD
    obtain ⟨hWFa, hnuma⟩ := simplifyLink_num _ hWF1 (pyGet s.nextHe (h : Int))
    obtain ⟨hWFb, hnumb⟩ := simplifyLink_num _ hWFa REMOVED
    refine ⟨by rw [hg]; exact hWFb, ?_⟩
    rw [hg, hoD, hlen3]
    dsimp only
    rw [hnumb, hnuma]
    exact hnum1
  · -- live partner
    have cNe : ((oN : Nat) : Int) ≠ DEADEND := by
      unfold DEADEND
      have := Int.natCast_nonneg oN
      omega
    have cfoN : pyGet s.nextHe ((oN : Nat) : Int) ≠ DEADEND := by
      rw [ht.pyGet_nextHe ho4]
      unfold DEADEND
      have := Int.natCast_nonneg (fnext s oN)
      omega
    obtain ⟨hWF2, hnum2, hlen2, hliveIff2, hOat2, hHat2⟩ :=
      removePair_facts s hred hl ho4 ho3 ho5 ho6 ho2
    by_cases hcc : s.isLoopAt (h : Int) (oN : Int) ∧ s.shortCycleAt (h : Int)
    · -- 3-cycle loop pattern
      obtain ⟨m, hm1, hm2, hmh, hmo, hfind, harr⟩ :=
        loopCase_facts s hred hl ho4 ho2 hcc
      have cm : ((m : Nat) : Int) ≠ REMOVED := by
        unfold REMOVED
        have := Int.natCast_nonneg m
        omega
      have hlen3 := linkLenHe3_loop s hfind hcc
      obtain ⟨hfixS, hfar⟩ := loop_fnext2 s hred hl ho4 hm2 ho2 hmh hmo harr
      obtain ⟨hnof1, hnof2⟩ := loop_nofire s hred hl ho4 hm2 ho2 hmh hmo harr
      have hlive2m : liveN ((s.removeHe (h : Int)).removeHe (oN : Int)) m :=
        (hliveIff2 m).mpr ⟨hm2, hmh, hmo⟩
      have hO2m : pyGet ((s.removeHe (h : Int)).removeHe (oN : Int)).otherHe
          (m : Int) = pyGet s.otherHe (m : Int) := by
        rw [hOat2 m,
          if_neg (by rintro (hh | hh) <;> [exact hmh hh; exact hmo hh])]
      have hH2m : pyGet ((s.removeHe (h : Int)).removeHe (oN : Int)).heLengths
          (m : Int) = pyGet s.heLengths (m : Int) := by
        rw [hHat2 m,
          if_neg (by rintro (hh | hh) <;> [exact hmh hh; exact hmo hh])]
      rcases hp.partner_cases hm2 with hw3D | ⟨w, hw1, hw2, hw3, hw4, hw5, hw6⟩
      · -- the third half-edge is a boundary
        have hg : s.linkSuccGraph (h : Int) =
            ((s.removeHe (h : Int)).removeHe (oN : Int)).removeHe (m : Int) := by
          unfold DotsAndBoxesState.linkSuccGraph
          dsimp only
          rw [ho3, hlen3]
          dsimp only
          rw [if_pos cNe, if_pos cNe, if_pos cfoN, hnof1, hnof2, if_pos cm,
            hw3D, if_neg cDD]
        have hO2mD : pyGet ((s.removeHe (h : Int)).removeHe (oN : Int)).otherHe
            (m : Int) = DEADEND := by rw [hO2m, hw3D]
        obtain ⟨hWFg, hnumg⟩ := removeFixed_dead _ hWF2 hlive2m hfixS hO2mD
        refine ⟨by rw [hg]; exact hWFg, ?_⟩
        rw [hg, ho3, hlen3]
        dsimp only
        rw [hH2m] at hnumg
        omega
      · -- the third half-edge has a live partner
        have hwh : w ≠ h := by
          intro hk
          rw [hk, ho3] at hw5
          exact hmo (by exact_mod_cast hw5.symm)
        have hwo : w ≠ oN := by
          intro hk
          rw [hk, ho5] at hw5
          exact hmh (by exact_mod_cast hw5.symm)
        have cwNe : ((w : Nat) : Int) ≠ DEADEND := by
          unfold DEADEND
          have := Int.natCast_nonneg w
          omega
        have hg : s.linkSuccGraph (h : Int) =
            DotsAndBoxesState.simplifyLink
              ((((s.removeHe (h : Int)).removeHe (oN : Int)).removeHe
                (m : Int)).removeHe (w : Int)) (w : Int) := by
          unfold DotsAndBoxesState.linkSuccGraph
          dsimp only
          rw [ho3, hlen3]
          dsimp only
          rw [if_pos cNe, if_pos cNe, if_pos cfoN, hnof1, hnof2, if_pos cm,
            hw3, if_pos cwNe]
        have hlive2w : liveN ((s.removeHe (h : Int)).removeHe (oN : Int)) w :=
          (hliveIff2 w).mpr ⟨hw4, hwh, hwo⟩
        have hO2mw : pyGet ((s.removeHe (h : Int)).removeHe (oN : Int)).otherHe
            (m : Int) = (w : Int) := by rw [hO2m, hw3]
        have hO2wm : pyGet ((s.removeHe (h : Int)).removeHe (oN : Int)).otherHe
            (w : Int) = (m : Int) := by
          rw [hOat2 w,
            if_neg (by rintro (hh | hh) <;> [exact hwh hh; exact hwo hh]), hw5]
        have hH2weq : pyGet ((s.removeHe (h : Int)).removeHe
            (oN : Int)).heLengths (w : Int) =
            pyGet ((s.removeHe (h : Int)).removeHe (oN : Int)).heLengths
              (m : Int) := by
          rw [hHat2 w,
            if_neg (by rintro (hh | hh) <;> [exact hwh hh; exact hwo hh]),
            hH2m, hw6]
        obtain ⟨hfar1, hfar2, hfar3, hfar4⟩ := hfar w hw4 hwh hwo hw2
        have hfw2 : fnext ((s.removeHe (h : Int)).removeHe (oN : Int)) w ≠ w := by
          rw [hfar1]
          exact (hdeg w (liveN_lt_length s w hw4) hw4).1
        have hfwm2 : fnext ((s.removeHe (h : Int)).removeHe (oN : Int)) w ≠ m := by
          rw [hfar1]
          exact hfar4
        obtain ⟨hWF6, hnum6⟩ := removeFixedPair_live _ hWF2 hlive2m hfixS
          hlive2w hw2 hO2mw hO2wm hH2weq hfw2 hfwm2
        obtain ⟨hWFg, hnumg⟩ := simplifyLink_num _ hWF6 (w : Int)
        refine ⟨by rw [hg]; exact hWFg, ?_⟩
        rw [hg, ho3, hlen3]
        dsimp only
        rw [hH2m] at hnum6
        rw [hnumg]
        omega
    · -- plain link
      have hlen3 := linkLenHe3_not s (h : Int) (oN : Int) hcc
      have hg : s.linkSuccGraph (h : Int) =
          DotsAndBoxesState.simplifyLink
            (DotsAndBoxesState.simplifyLink
              ((s.removeHe (h : Int)).removeHe (oN : Int))
              (pyGet s.nextHe (h : Int))) (pyGet s.nextHe (oN : Int)) := by
        unfold DotsAndBoxesState.linkSuccGraph
        dsimp only
        rw [ho3, hlen3]
        dsimp only
        rw [if_pos cNe, if_pos cNe, if_pos cfoN, if_neg cRR]
      obtain ⟨hWFa, hnuma⟩ := simplifyLink_num _ hWF2 (pyGet s.nextHe (h : Int))
      obtain ⟨hWFb, hnumb⟩ := simplifyLink_num _ hWFa (pyGet s.nextHe (oN : Int))
      refine ⟨by rw [hg]; exact hWFb, ?_⟩
      rw [hg, ho3, hlen3]
      dsimp only
      rw [hnumb, hnuma]
      exact hnum2

theorem numBoxesLeft_split (t : DotsAndBoxesState) :
    t.numBoxesLeft = t.looneyValue + (DotsAndBoxesState.jointLoop t).1 +
      (DotsAndBoxesState.pairLoop t).1 + t.indeps.sum := by
  unfold DotsAndBoxesState.numBoxesLeft
  rw [foldl_add_eq]
  ring

theorem jointLoop_congr (t u : DotsAndBoxesState) (hO : t.otherHe = u.otherHe)
    (hN : t.nextHe = u.nextHe) :
    DotsAndBoxesState.jointLoop t = DotsAndBoxesState.jointLoop u := by
  unfold DotsAndBoxesState.jointLoop
  simp only [hO, hN]

theorem pairLoop_congr (t u : DotsAndBoxesState) (hO : t.otherHe = u.otherHe)
    (hH : t.heLengths = u.heLengths) :
    DotsAndBoxesState.pairLoop t = DotsAndBoxesState.pairLoop u := by
  unfold DotsAndBoxesState.pairLoop
  simp only [hO, hH]

theorem linkSuccGraph_looneyValue (s : DotsAndBoxesState) (he : Int) :
    (DotsAndBoxesState.linkSuccGraph s he).looneyValue = s.looneyValue := by
  unfold DotsAndBoxesState.linkSuccGraph
  dsimp only
  repeat' split
  all_goals simp [simplifyLink_looneyValue, removeHe_looneyValue]

theorem linkSucc_parts (s : DotsAndBoxesState) (he : Int) :
    (DotsAndBoxesState.linkSucc s he).otherHe =
      (DotsAndBoxesState.linkSuccGraph s he).otherHe ∧
    (DotsAndBoxesState.linkSucc s he).nextHe =
      (DotsAndBoxesState.linkSuccGraph s he).nextHe ∧
    (DotsAndBoxesState.linkSucc s he).heLengths =
      (DotsAndBoxesState.linkSuccGraph s he).heLengths ∧
    (DotsAndBoxesState.linkSucc s he).indeps =
      (DotsAndBoxesState.linkSuccGraph s he).indeps ∧
    (DotsAndBoxesState.linkSucc s he).score + s.score =
      (linkLenHe3 s he (pyGet s.otherHe he)).1 -
        (DotsAndBoxesState.linkSucc s he).looneyValue := by
  unfold DotsAndBoxesState.linkSucc
  dsimp only
  split
  · refine ⟨rfl, rfl, rfl, rfl, ?_⟩
    dsimp only
    rw [linkSuccGraph_score]
    ring
  · refine ⟨rfl, rfl, rfl, rfl, ?_⟩
    dsimp only
    rw [linkSuccGraph_score]
    ring

theorem breakIndep_parts (s : DotsAndBoxesState) (i : Nat) :
    (DotsAndBoxesState.breakIndep s i).2.otherHe = s.otherHe ∧
    (DotsAndBoxesState.breakIndep s i).2.nextHe = s.nextHe ∧
    (DotsAndBoxesState.breakIndep s i).2.heLengths = s.heLengths ∧
    (DotsAndBoxesState.breakIndep s i).2.indeps = s.indeps.eraseIdx i ∧
    ((DotsAndBoxesState.breakIndep s i).2.score - (-s.score)) +
        (DotsAndBoxesState.breakIndep s i).2.looneyValue =
      s.indeps.getD i 0 := by
  unfold DotsAndBoxesState.breakIndep
  dsimp only
  split <;> split <;>
    exact ⟨rfl, rfl, rfl, rfl, by dsimp only; ring⟩

/-- C3: on a reduced position, `numBoxesLeft` is invariant under every
`simplifyLink` pass, and every `listMoves` successor accounts for the
open boxes exactly: the parent's count equals the child's count plus the
boxes credited to the mover (the child's score minus the parent's score
viewed from the child's mover). -/
theorem C3_box_invariant (s : DotsAndBoxesState) (hred : ReducedN s)
    (hwho : s.whoToMove = 1 ∨ s.whoToMove = -1) (hlv : 0 ≤ s.looneyValue) :
    (∀ he : Int, (s.simplifyLink he).numBoxesLeft = s.numBoxesLeft) ∧
    ∀ c ∈ s.listMoves, s.numBoxesLeft =
      c.numBoxesLeft +
        (c.score - (if c.whoToMove = s.whoToMove then s.score
          else -s.score)) := by
  have hflip : ∀ x : Int, x = -s.whoToMove → x ≠ s.whoToMove := by
    intro x hx
    rcases hwho with h1 | h1 <;> rw [hx, h1] <;> omega
  constructor
  · intro he
    exact (simplifyLink_num s hred.1 he).2
  · intro c hc
    unfold DotsAndBoxesState.listMoves DotsAndBoxesState.listMovesT at hc
    by_cases hgt : s.looneyValue > 0
    · rw [if_pos hgt] at hc
      simp only [List.map_cons, List.map_nil, List.mem_cons,
        List.not_mem_nil, or_false] at hc
      rcases hc with rfl | rfl
      · rw [if_pos (show (DotsAndBoxesState.eatLooney s).whoToMove =
          s.whoToMove from rfl)]
        have hJ := jointLoop_congr (DotsAndBoxesState.eatLooney s) s rfl rfl
        have hP := pairLoop_congr (DotsAndBoxesState.eatLooney s) s rfl rfl
        rw [numBoxesLeft_split s,
          numBoxesLeft_split (DotsAndBoxesState.eatLooney s), hJ, hP]
        have e1 : (DotsAndBoxesState.eatLooney s).looneyValue = 0 := rfl
        have e2 : (DotsAndBoxesState.eatLooney s).score =
            s.score + s.looneyValue := rfl
        have e3 : (DotsAndBoxesState.eatLooney s).indeps = s.indeps := rfl
        rw [e1, e2, e3]
        ring
      · have hne := hflip (DotsAndBoxesState.giveLooney s).whoToMove rfl
        rw [if_neg hne]
        have hJ := jointLoop_congr (DotsAndBoxesState.giveLooney s) s rfl rfl
        have hP := pairLoop_congr (DotsAndBoxesState.giveLooney s) s rfl rfl
        rw [numBoxesLeft_split s,
          numBoxesLeft_split (DotsAndBoxesState.giveLooney s), hJ, hP]
        have e1 : (DotsAndBoxesState.giveLooney s).looneyValue = 0 := rfl
        have e2 : (DotsAndBoxesState.giveLooney s).score =
            -s.score + s.looneyValue := rfl
        have e3 : (DotsAndBoxesState.giveLooney s).indeps = s.indeps := rfl
        rw [e1, e2, e3]
        ring
    · rw [if_neg hgt] at hc
      have hlv0 : s.looneyValue = 0 := by omega
      simp only [List.map_append, List.mem_append, List.mem_map] at hc
      rcases hc with ⟨⟨t, c'⟩, ht, rfl⟩ | ⟨⟨t, c'⟩, ht, rfl⟩
      · show s.numBoxesLeft = c'.numBoxesLeft + (c'.score -
          (if c'.whoToMove = s.whoToMove then s.score else -s.score))
        obtain ⟨h0, hltI, hrem, hdir, rfl⟩ := (mem_linkSuccs s t c').mp ht
        have hlive : liveN s t.toNat := by
          unfold liveN
          rw [Int.toNat_of_nonneg h0]
          exact hrem
        obtain ⟨hWFg, hnumg⟩ := linkSuccGraph_num s hred hlive
        rw [Int.toNat_of_nonneg h0] at hnumg
        obtain ⟨pO, pN, pH, pI, pS⟩ := linkSucc_parts s t
        have hne := hflip (DotsAndBoxesState.linkSucc s t).whoToMove
          (linkSucc_whoToMove s t)
        rw [if_neg hne]
        have hJ := jointLoop_congr (DotsAndBoxesState.linkSucc s t)
          (DotsAndBoxesState.linkSuccGraph s t) pO pN
        have hP := pairLoop_congr (DotsAndBoxesState.linkSucc s t)
          (DotsAndBoxesState.linkSuccGraph s t) pO pH
        have hLV := linkSuccGraph_looneyValue s t
        rw [numBoxesLeft_split (DotsAndBoxesState.linkSucc s t), hJ, hP, pI]
        rw [numBoxesLeft_split (DotsAndBoxesState.linkSuccGraph s t), hLV,
          hlv0] at hnumg
        omega
      · show s.numBoxesLeft = c'.numBoxesLeft + (c'.score -
          (if c'.whoToMove = s.whoToMove then s.score else -s.score))
        obtain ⟨-, hall, -, -⟩ := breaksOf_spec s
        obtain ⟨i, hpi, hilt, -, -⟩ := hall (t, c') ht
        have hc2 : c' = (DotsAndBoxesState.breakIndep s i).2 := by
          rw [← hpi]
        subst hc2
        obtain ⟨pO, pN, pH, pI, pS⟩ := breakIndep_parts s i
        have hne := hflip (DotsAndBoxesState.breakIndep s i).2.whoToMove
          (breakIndep_fields s i).1
        rw [if_neg hne]
        have hJ := jointLoop_congr (DotsAndBoxesState.breakIndep s i).2 s pO pN
        have hP := pairLoop_congr (DotsAndBoxesState.breakIndep s i).2 s pO pH
        have hsum := sum_eraseIdx s.indeps i hilt
        rw [numBoxesLeft_split s,
          numBoxesLeft_split (DotsAndBoxesState.breakIndep s i).2, hJ, hP,
          pI, hsum, hlv0]
        omega

/-- C3 witness: the invariant instantiated on `sampleReduced`, whose
reducedness is checked by evaluation. -/
theorem C3_box_invariant_witness :
    (∀ he : Int, (sampleReduced.simplifyLink he).numBoxesLeft =
      sampleReduced.numBoxesLeft) ∧
    ∀ c ∈ sampleReduced.listMoves, sampleReduced.numBoxesLeft =
      c.numBoxesLeft +
        (c.score - (if c.whoToMove = sampleReduced.whoToMove then
          sampleReduced.score else -sampleReduced.score)) :=
  C3_box_invariant sampleReduced
    (by refine ⟨⟨⟨?_, ?_, ?_, ?_⟩, ⟨?_, ?_⟩⟩, ?_⟩ <;> decide)
    (Or.inl rfl) (by decide)

end SquareUp
